import Mathlib

/-!
# WordCounter.c: a shallow embedding and its verification

The program reads a text file line by line (`fgets`), splits every line into
tokens (`strtok`), lowers every token (`tolower`), counts it in a chained hash
table (`insertWord`), sorts the array of node pointers (`qsort` with `compare`)
and prints the most frequent words.

Modelling conventions.

* A character of a text is its byte, a `Nat`; a C string is the list of its
  bytes before the terminating NUL.  The type `char` is signed (as on the
  usual platforms): where the code computes with a `char`, in `getHashKey`,
  the byte `c` has the value `charVal c`, which is negative from 128 on.
  `tolower` is that of the C locale.
* An `int` has 32 bits.  Where the code adds to an `int` that may have reached
  `INT_MAX` (`freq++`, `numWords++`, the sum of `getHashKey`) the model checks
  the range; outside it, and at an array index outside the array, the
  behaviour of the C code is undefined and the outcome of the model is
  `stuck`.  `malloc` and `calloc` are taken to succeed.
* Memory is explicit: `Mem.heap` holds the nodes made by `malloc`, a pointer to
  a node is its index in the heap, `none` is `NULL`.
* A function that can call `exit` returns an `Outcome`.  Loops that the C
  code runs until a pointer is `NULL` take a fuel argument; running out of
  fuel or following an invalid pointer is the outcome `stuck` too.  The fuel
  handed over is proved to be enough, and no invalid pointer is met from the
  initial memory.
-/

namespace WordCounter

/-! ## Constants (the `#define` lines) -/

abbrev MAX_LINE_SIZE : Nat := 1024
abbrev MAX_WORD : Nat := 32
abbrev MAX_HASHTABLE : Nat := 3000
abbrev MAX_UNIQUE_WORDS : Nat := 5000

/-! ## Data model (the `typedef struct` lines) -/

/-- The struct `word`: the characters of `str` and the frequency `freq`. -/
structure Word where
  str : List Nat
  freq : Int
  deriving DecidableEq, Repr

/-- The struct `node`: a word and the pointer to the next node of the chain. -/
structure Node where
  wrd : Word
  pNext : Option Nat
  deriving DecidableEq, Repr

/-- The struct `LinkedList`: the pointer to the first node. -/
structure LinkedList where
  pHead : Option Nat
  deriving DecidableEq, Repr

/-- The memory the program works on: the nodes allocated so far, the hash table
`pHashTable` (an array of `MAX_HASHTABLE + 1` lists), the array `uniqueWords`
(`MAX_UNIQUE_WORDS` node pointers) and the variable `sortIndex` of `main`. -/
structure Mem where
  heap : List Node
  pHashTable : List LinkedList
  uniqueWords : List (Option Nat)
  sortIndex : Nat
  deriving DecidableEq, Repr

/-- The memory after the two `calloc` calls of `main`. -/
def initMem : Mem where
  heap := []
  pHashTable := List.replicate (MAX_HASHTABLE + 1) ⟨none⟩
  uniqueWords := List.replicate MAX_UNIQUE_WORDS none
  sortIndex := 0

/-- How a call ends: it returns a value, the process ends through `exit`
(with the memory at that moment), or the model cannot go on. -/
inductive Outcome (α : Type) where
  | ret (a : α)
  | exit (code : Nat) (mem : Mem)
  | stuck
  deriving DecidableEq, Repr

/-! ## The C library functions the program calls -/

/-- Character codes of a string literal of the source. -/
def ascii (s : String) : List Nat := s.toList.map Char.toNat

/-- The function `tolower` of the C locale. -/
def tolower (c : Nat) : Nat := if 65 ≤ c ∧ c ≤ 90 then c + 32 else c

/-- The function `strlen`. -/
def strlen (s : List Nat) : Nat := s.length

/-- The C string held by a character buffer: the characters before the first
NUL. -/
def cstr (buf : List Nat) : List Nat := buf.takeWhile (fun c => c != 0)

/-- Reading of at most `n` characters of a line, the newline included. -/
def fgetsAux : Nat → List Nat → List Nat × List Nat
  | 0, s => ([], s)
  | _ + 1, [] => ([], [])
  | k + 1, c :: s =>
    if c = 10 then ([c], s) else ((fgetsAux k s).1.cons c, (fgetsAux k s).2)

/-- The function `fgets(line, size, fptr)`: `none` for `NULL` (end of file),
otherwise the characters stored in `line` and the rest of the stream. -/
def fgets (size : Nat) (fptr : List Nat) : Option (List Nat × List Nat) :=
  match fptr with
  | [] => none
  | _ :: _ => some (fgetsAux (size - 1) fptr)

/-- The function `strtok`: `saved` is the string from the saved position on
(the first call passes the whole line); the result is `none` for `NULL`,
otherwise the token and the new saved string. -/
def strtok (saved : List Nat) (delim : List Nat) : Option (List Nat × List Nat) :=
  match saved.dropWhile (fun c => decide (c ∈ delim)) with
  | [] => none
  | c :: s =>
    some ((c :: s).takeWhile (fun c => !decide (c ∈ delim)),
          ((c :: s).dropWhile (fun c => !decide (c ∈ delim))).drop 1)

/-! ## Arithmetic of the type `int` -/

abbrev INT_MAX : Int := 2147483647
abbrev INT_MIN : Int := -2147483648

/-- The sum of two `int` values; `none` when it is outside the range of a
32-bit `int`. -/
def addInt (x y : Int) : Option Int :=
  if INT_MIN ≤ x + y ∧ x + y ≤ INT_MAX then some (x + y) else none

/-- The difference of two `int` values; `none` when it is outside the range of
a 32-bit `int`. -/
def subInt (x y : Int) : Option Int :=
  if INT_MIN ≤ x - y ∧ x - y ≤ INT_MAX then some (x - y) else none

/-- The product of two `int` values; `none` when it is outside the range of a
32-bit `int`. -/
def mulInt (x y : Int) : Option Int :=
  if INT_MIN ≤ x * y ∧ x * y ≤ INT_MAX then some (x * y) else none

/-- The value of a `char` that holds the byte `c`: the type `char` is signed,
the bytes from 128 on are the values from -128 to -1. -/
def charVal (c : Nat) : Int := if c < 128 then (c : Int) else (c : Int) - 256

/-! ## The functions of WordCounter.c -/

/-- The string `splitOn` of `readFile`: the delimiters handed to `strtok`. -/
def splitOn : List Nat := ascii " `?!'\";,.:+-*&%()\x7b\x7d[]<>\\\t\n"

/-- The `while` loop of `getHashKey` for characters whose values are not
negative (bytes below 128), on natural numbers: `s` is the string from
position `index` on, the first three characters weigh 7, 5 and 3. -/
def getHashKeyLoop : List Nat → Nat → Nat → Nat
  | [], _, hashKey => hashKey
  | c :: s, index, hashKey =>
    getHashKeyLoop s (index + 1)
      (if index = 0 then hashKey + c * 7
       else if index = 1 then hashKey + c * 5
       else if index = 2 then hashKey + c * 3
       else hashKey + c)

/-- The result of `getHashKey` for a word whose characters are not negative
(bytes below 128): the weighted sum modulo `MAX_HASHTABLE`. -/
def getHashKey (newWord : List Nat) : Nat :=
  getHashKeyLoop newWord 0 0 % MAX_HASHTABLE

/-- The `while` loop of `getHashKey` as the C code computes it, on `int`
values with the range of a 32-bit `int` checked at every multiplication and
addition: `s` holds the values of the characters from position `index` on. -/
def getHashKeyLoopInt : List Int → Nat → Int → Option Int
  | [], _, hashKey => some hashKey
  | c :: s, index, hashKey =>
    match (if index = 0 then mulInt c 7
           else if index = 1 then mulInt c 5
           else if index = 2 then mulInt c 3
           else some c) with
    | none => none
    | some t =>
      match addInt hashKey t with
      | none => none
      | some hashKey2 => getHashKeyLoopInt s (index + 1) hashKey2

/-- The function `getHashKey` as the C code computes it: `newWord` holds the
values of the characters (`charVal` of the bytes), the sum is range checked,
and the operator `%` of C rounds towards zero, so a negative sum gives a key
that is negative or zero.  `none` when the sum leaves the range of `int`. -/
def getHashKeyInt (newWord : List Int) : Option Int :=
  (getHashKeyLoopInt newWord 0 0).map (fun hashKey => Int.tmod hashKey MAX_HASHTABLE)

/-- Whether `getHashKey` gives an index of the hash table for the word: the
sum stays in the range of `int` and the key is not negative. -/
def validKey (w : List Nat) : Bool :=
  match getHashKeyInt (w.map charVal) with
  | some hashKey => decide (0 ≤ hashKey)
  | none => false

/-- The bucket of a word: its hash key as an index (0 when `getHashKey` gives
no index). -/
def hashIndex (w : List Nat) : Nat :=
  match getHashKeyInt (w.map charVal) with
  | some hashKey => hashKey.toNat
  | none => 0

/-- The function `createNode`: `malloc` gives the next free address (it is
taken to succeed), the node holds the word with frequency 1 and no successor.
Returns the pointer and the new heap. -/
def createNode (newWord : List Nat) (heap : List Node) : Nat × List Node :=
  (heap.length, heap ++ [{ wrd := { str := newWord, freq := 1 }, pNext := none }])

/-- The function `addAtHead`: the new node becomes the head of the list; when
the list was not empty its `pNext` is set to the old head.  `none` when
`pNewNode` is not a valid pointer. -/
def addAtHead (pList : LinkedList) (pNewNode : Nat) (heap : List Node) :
    Option (LinkedList × List Node) :=
  match pList.pHead with
  | none => some ({ pHead := some pNewNode }, heap)
  | some pOld =>
    match heap[pNewNode]? with
    | none => none
    | some nd => some ({ pHead := some pNewNode }, heap.set pNewNode { nd with pNext := some pOld })

/-- The statement `pTemp->wrd.freq++` on the node `pTemp` points to, for a
frequency below `INT_MAX` (the loop of `insertWord` checks it before). -/
def incrFreq (nd : Node) : Node :=
  { nd with wrd := { nd.wrd with freq := nd.wrd.freq + 1 } }

/-- The `while(pTemp != NULL)` loop of `insertWord`: walks the chain from
`pTemp`; at the node whose string equals `toPrint` the frequency is
incremented and the flag `wordIsFound` is 1.  Returns the heap and the flag;
`none` when the walk meets an invalid pointer, the fuel is used up, or the
frequency to increment is `INT_MAX`. -/
def insertWordLoop (toPrint : List Nat) : Nat → Option Nat → List Node → Option (List Node × Int)
  | _, none, heap => some (heap, 0)
  | 0, some _, _ => none
  | fuel + 1, some pTemp, heap =>
    match heap[pTemp]? with
    | none => none
    | some nd =>
      if nd.wrd.str = toPrint then
        if nd.wrd.freq < INT_MAX then some (heap.set pTemp (incrFreq nd), 1) else none
      else insertWordLoop toPrint fuel nd.pNext heap

/-- The function `insertWord`.  Returns the `int` result and the new memory.
The key `getHashKey` computes from the `char` values of the word is the index
of `pHashTable`; with a negative key the index is outside the table. -/
def insertWord (word : List Nat) (m : Mem) : Outcome (Int × Mem) :=
  if strlen word > 31 then .ret (1, m)
  else
    let toPrint := word
    match getHashKeyInt (toPrint.map charVal) with
    | none => .stuck
    | some hashKey =>
      if hashKey < 0 then .stuck
      else
        match m.pHashTable[hashKey.toNat]? with
        | none => .stuck
        | some lst =>
          match insertWordLoop toPrint m.heap.length lst.pHead m.heap with
          | none => .stuck
          | some (heap1, wordIsFound) =>
            if wordIsFound ≠ 1 then
              match addAtHead lst (createNode toPrint heap1).1 (createNode toPrint heap1).2 with
              | none => .stuck
              | some (lst2, heap2) =>
                if m.sortIndex < m.uniqueWords.length then
                  let m2 : Mem :=
                    { heap := heap2
                      pHashTable := m.pHashTable.set hashKey.toNat lst2
                      uniqueWords :=
                        m.uniqueWords.set m.sortIndex (some (createNode toPrint heap1).1)
                      sortIndex := m.sortIndex + 1 }
                  if m2.sortIndex = MAX_UNIQUE_WORDS - 1 then .exit 1 m2 else .ret (0, m2)
                else .stuck
            else .ret (0, { m with heap := heap1 })

/-- The `for` loop of `readFile` over the tokens of one line: `saved` is the
string `strtok` goes on from.  Every token is lowered, handed to `insertWord`
(whose result is not looked at) and counted in `numWords`, which must be below
`INT_MAX` for `numWords++`. -/
def tokenLoop : Nat → List Nat → Mem → Int → Outcome (Int × Mem)
  | 0, _, _, _ => .stuck
  | fuel + 1, saved, m, numWords =>
    match strtok saved splitOn with
    | none => .ret (numWords, m)
    | some (pTokens, saved2) =>
      match insertWord (pTokens.map tolower) m with
      | .ret (_, m2) =>
        if numWords < INT_MAX then tokenLoop fuel saved2 m2 (numWords + 1) else .stuck
      | .exit code m2 => .exit code m2
      | .stuck => .stuck

/-- The `while(fgets(...) != NULL)` loop of `readFile`. -/
def lineLoop : Nat → List Nat → Mem → Int → Outcome (Int × Mem)
  | 0, _, _, _ => .stuck
  | fuel + 1, fptr, m, numWords =>
    match fgets MAX_LINE_SIZE fptr with
    | none => .ret (numWords, m)
    | some (line, fptr2) =>
      match tokenLoop (line.length + 1) (cstr line) m numWords with
      | .ret (numWords2, m2) => lineLoop fuel fptr2 m2 numWords2
      | .exit code m2 => .exit code m2
      | .stuck => .stuck

/-- The function `readFile`: `file` is the content of the named file, `none`
when `fopen` fails.  Returns the number of words and the new memory. -/
def readFile (file : Option (List Nat)) (m : Mem) : Outcome (Int × Mem) :=
  match file with
  | none => .ret (-1, m)
  | some content => lineLoop (content.length + 1) content m 0

/-- The function `compare`, on the two nodes the array entries point to. -/
def compare (a b : Node) : Int := b.wrd.freq - a.wrd.freq

/-- The function `compare` with the range of a 32-bit `int` checked at the
subtraction. -/
def compareInt (a b : Node) : Option Int := subInt b.wrd.freq a.wrd.freq

/-- What `main` prints: the three numbers of the summary and the lines of the
frequency list. -/
structure Report where
  numWords : Int
  sortIndex : Int
  numSummaryItems : Int
  lines : List Word
  deriving DecidableEq, Repr

/-- The nodes the entries of an array of node pointers point to; `none` when
an entry is `NULL` or invalid. -/
def derefAll (heap : List Node) : List (Option Nat) → Option (List Node)
  | [] => some []
  | p :: ps =>
    match p.bind (fun a => heap[a]?) with
    | none => none
    | some nd => (derefAll heap ps).map (fun nds => nd :: nds)

/-- The function `main` for a call with a file name: `file` is the content of
the file (`none` when it cannot be opened), `topN` the value `atoi` gives for
the optional second argument (`none` when `argc` is not 3).  The library
function `qsort` is a parameter: it receives the comparator and the nodes the
array entries point to.  A `return 1` is the outcome `exit 1`. -/
def main (qsort : (Node → Node → Int) → List Node → List Node)
    (file : Option (List Nat)) (topN : Option Int) : Outcome Report :=
  let numSummaryItems : Int := match topN with
    | some n => n
    | none => 10
  match readFile file initMem with
  | .exit code m => .exit code m
  | .stuck => .stuck
  | .ret (numWords, m) =>
    if numWords = -1 then .exit 1 m
    else
      let numSummaryItems : Int :=
        if numSummaryItems ≥ (m.sortIndex : Int) then (m.sortIndex : Int) else numSummaryItems
      match derefAll m.heap (m.uniqueWords.take m.sortIndex) with
      | none => .stuck
      | some nodes =>
        .ret { numWords := numWords
               sortIndex := m.sortIndex
               numSummaryItems := numSummaryItems
               lines := ((qsort compare nodes).take numSummaryItems.toNat).map (fun nd => nd.wrd) }

/-- The contract of the library function `qsort` for the comparator `compare`:
the result is a rearrangement of the array in which no entry compares greater
than a later one. -/
def IsQsort (qsort : (Node → Node → Int) → List Node → List Node) : Prop :=
  ∀ l : List Node, (qsort compare l).Perm l ∧
    (qsort compare l).Pairwise (fun a b => compare a b ≤ 0)

/-- One sorting function that meets the contract: insertion sort. -/
def qsortRef (cmp : Node → Node → Int) (l : List Node) : List Node :=
  l.insertionSort (fun a b => cmp a b ≤ 0)

/-! ## Views of the memory -/

/-- The chain of node pointers reached from `p` along `pNext`. -/
def chainFrom (heap : List Node) : Nat → Option Nat → List Nat
  | _, none => []
  | 0, some _ => []
  | fuel + 1, some p =>
    match heap[p]? with
    | none => []
    | some nd => p :: chainFrom heap fuel nd.pNext

/-- The chain of bucket `k` of the hash table. -/
def bucket (m : Mem) (k : Nat) : List Nat :=
  match m.pHashTable[k]? with
  | none => []
  | some lst => chainFrom m.heap m.heap.length lst.pHead

/-- The records of the frequency table: the words of the nodes on the chains
of the hash table, bucket after bucket. -/
def tableRecords (m : Mem) : List Word :=
  (List.range (MAX_HASHTABLE + 1)).flatMap
    (fun k => (bucket m k).filterMap (fun p => (m.heap[p]?).map (fun nd => nd.wrd)))

/-- The records listed by the enumeration array `uniqueWords[0 .. sortIndex-1]`. -/
def enumRecords (m : Mem) : List Word :=
  (m.uniqueWords.take m.sortIndex).filterMap
    (fun p => p.bind (fun a => (m.heap[a]?).map (fun nd => nd.wrd)))

/-! ## The token stream of a file -/

/-- The tokens `strtok` returns in the `for` loop of `readFile` on one line,
in order, as cut out of the line (before `tolower`). -/
def lineTokens : Nat → List Nat → List (List Nat)
  | 0, _ => []
  | fuel + 1, saved =>
    match strtok saved splitOn with
    | none => []
    | some (pTokens, saved2) => pTokens :: lineTokens fuel saved2

/-- The tokens of all the lines `fgets` reads, in order. -/
def fileTokens : Nat → List Nat → List (List Nat)
  | 0, _ => []
  | fuel + 1, fptr =>
    match fgets MAX_LINE_SIZE fptr with
    | none => []
    | some (line, fptr2) => lineTokens (line.length + 1) (cstr line) ++ fileTokens fuel fptr2

/-- The tokens of a file as `strtok` cuts them out. -/
def rawTokens (text : List Nat) : List (List Nat) := fileTokens (text.length + 1) text

/-- The words handed to `insertWord`: the tokens of the file, lowered. -/
def tokens (text : List Nat) : List (List Nat) := (rawTokens text).map (List.map tolower)

/-- The words `insertWord` accepts: at most 31 characters. -/
def accepted (ws : List (List Nat)) : List (List Nat) :=
  ws.filter (fun w => decide (strlen w ≤ 31))

/-- The distinct accepted words of a file. -/
def distinctWords (text : List Nat) : List (List Nat) := (accepted (tokens text)).dedup

/-- The calls of `insertWord` of the tokenizing pass, one per word, with the
counter `numWords` of `readFile`. -/
def insertAll : List (List Nat) → Mem → Int → Outcome (Int × Mem)
  | [], m, numWords => .ret (numWords, m)
  | w :: ws, m, numWords =>
    match insertWord w m with
    | .ret (_, m2) => if numWords < INT_MAX then insertAll ws m2 (numWords + 1) else .stuck
    | .exit code m2 => .exit code m2
    | .stuck => .stuck

/-! ## A list of records as reference for the table -/

/-- Counting one word in a list of records: the record with this text gets one
more, a word not yet listed is appended with count 1. -/
def bump (w : List Nat) : List Word → List Word
  | [] => [{ str := w, freq := 1 }]
  | r :: rs => if r.str = w then { r with freq := r.freq + 1 } :: rs else r :: bump w rs

/-- Counting a sequence of words, starting from the records `t`. -/
def bumpAll (t : List Word) (ws : List (List Nat)) : List Word :=
  ws.foldl (fun t w => bump w t) t

/-- The records of a sequence of words: each distinct word in first-seen order
with its number of occurrences. -/
def countWords (ws : List (List Nat)) : List Word := bumpAll [] ws

/-! ## Well-formed memories -/

/-- The bucket index of the node at address `i`. -/
def hashAt (heap : List Node) (i : Nat) : Option Nat :=
  (heap[i]?).map (fun nd => hashIndex nd.wrd.str)

/-- The memories the program can be in after a call of `insertWord`:
the arrays have their allocated sizes, `sortIndex` counts the nodes and is at
most `MAX_UNIQUE_WORDS - 1`, entry `i` of `uniqueWords` points to node `i`, `pNext` pointers
go to older nodes, heads point into the heap, the chain of bucket `k` holds
exactly the nodes whose word hashes to `k` (newest first), the words are
distinct, at most 31 characters long, and their frequencies are from 1 to
`INT_MAX`. -/
structure WF (m : Mem) : Prop where
  table_len : m.pHashTable.length = MAX_HASHTABLE + 1
  unique_len : m.uniqueWords.length = MAX_UNIQUE_WORDS
  index_eq : m.sortIndex = m.heap.length
  index_le : m.sortIndex ≤ MAX_UNIQUE_WORDS - 1
  unique_eq : m.uniqueWords.take m.sortIndex = (List.range m.sortIndex).map some
  next_lt : ∀ (i : Nat) (nd : Node) (j : Nat), m.heap[i]? = some nd → nd.pNext = some j → j < i
  head_lt : ∀ (k : Nat) (lst : LinkedList) (p : Nat), m.pHashTable[k]? = some lst → lst.pHead = some p → p < m.heap.length
  chain_eq : ∀ k, k < MAX_HASHTABLE + 1 →
    bucket m k = ((List.range m.heap.length).filter (fun i => decide (hashAt m.heap i = some k))).reverse
  nodup : (m.heap.map (fun nd => nd.wrd.str)).Nodup
  str_len : ∀ nd ∈ m.heap, strlen nd.wrd.str ≤ 31
  freq_pos : ∀ nd ∈ m.heap, 1 ≤ nd.wrd.freq
  freq_le : ∀ nd ∈ m.heap, nd.wrd.freq ≤ INT_MAX

/-- The memory after a word not yet in the table is added: a new node at the
next address, with count 1 and the old head of its bucket as successor, is the
new head of the bucket and entry `sortIndex` of `uniqueWords`. -/
def grow (w : List Nat) (m : Mem) : Mem where
  heap := m.heap ++
    [{ wrd := { str := w, freq := 1 },
       pNext := (m.pHashTable[hashIndex w]?).bind (fun lst => lst.pHead) }]
  pHashTable := m.pHashTable.set (hashIndex w) { pHead := some m.heap.length }
  uniqueWords := m.uniqueWords.set m.sortIndex (some m.heap.length)
  sortIndex := m.sortIndex + 1

/-! ## Maximal runs -/

/-- Whether a character is one of the delimiters of `splitOn`. -/
def isDelim (c : Nat) : Bool := decide (c ∈ splitOn)

/-- The non-empty maximal runs of non-delimiter characters of a string, from
left to right: the pieces between delimiters, the empty ones left out. -/
def maximalRuns (line : List Nat) : List (List Nat) :=
  (line.splitOnP isDelim).filter (fun t => !t.isEmpty)

/-! ## Lines that fit the line buffer -/

/-- Whether every line of a text, its newline included, has room in a buffer
that can still take `k` characters for the line at hand and
`MAX_LINE_SIZE - 1` characters for every later line. -/
def linesFit : Nat → List Nat → Bool
  | _, [] => true
  | 0, _ :: _ => false
  | k + 1, c :: s => if c = 10 then linesFit (MAX_LINE_SIZE - 1) s else linesFit k s

/-! ## First occurrences -/

/-- The position of the first occurrence of a word in a sequence of words
(the length of the sequence when it does not occur). -/
def firstIndex (w : List Nat) : List (List Nat) → Nat
  | [] => 0
  | x :: xs => if x = w then 0 else firstIndex w xs + 1

/-! ## A family of distinct words -/

/-- The word number `i` of a family of words of three lower-case letters;
the words are distinct for `i` below 17576. -/
def sampleWord (i : Nat) : List Nat := [97 + i % 26, 97 + i / 26 % 26, 97 + i / 676]

/-- The text with the words number `0` to `n - 1`, one on a line. -/
def sampleText (n : Nat) : List Nat :=
  (List.range n).flatMap (fun i => sampleWord i ++ [10])

/-! ## A naive table -/

/-- Insertion into a table that is a plain list of records: a word longer
than 31 characters is left out, any other word is looked up by comparing it
with the text of every record in turn. -/
def naiveInsert (t : List Word) (w : List Nat) : List Word :=
  if strlen w > 31 then t else bump w t

/-- The naive table of a sequence of words. -/
def naiveTable (ws : List (List Nat)) : List Word := ws.foldl naiveInsert []

end WordCounter

namespace WordCounter

/-! ## Theorems -/

/-! ### The library functions -/

theorem strtok_length {saved delim tok saved2 : List Nat}
    (h : strtok saved delim = some (tok, saved2)) : saved2.length < saved.length := by
  unfold strtok at h
  split at h
  · simp at h
  · rename_i c s hd
    simp only [Option.some.injEq, Prod.mk.injEq] at h
    have h1 : (c :: s).length ≤ saved.length := by
      rw [← hd]
      exact (List.dropWhile_sublist _).length_le
    have h2 : (List.dropWhile (fun c => !decide (c ∈ delim)) (c :: s)).length ≤ (c :: s).length :=
      (List.dropWhile_sublist _).length_le
    rw [← h.2, List.length_drop]
    simp only [List.length_cons] at h1 h2 ⊢
    omega

theorem fgetsAux_append (k : Nat) (s : List Nat) :
    (fgetsAux k s).1 ++ (fgetsAux k s).2 = s := by
  induction k generalizing s with
  | zero => simp [fgetsAux]
  | succ k ih =>
    cases s with
    | nil => simp [fgetsAux]
    | cons c s =>
      by_cases hc : c = 10
      · simp [fgetsAux, hc]
      · simp [fgetsAux, hc, ih s]

theorem fgetsAux_ne_nil (k : Nat) (c : Nat) (s : List Nat) :
    (fgetsAux (k + 1) (c :: s)).1 ≠ [] := by
  by_cases hc : c = 10 <;> simp [fgetsAux, hc]

theorem fgets_length {fptr line fptr2 : List Nat}
    (h : fgets MAX_LINE_SIZE fptr = some (line, fptr2)) :
    fptr2.length < fptr.length ∧ line ++ fptr2 = fptr := by
  cases fptr with
  | nil => simp [fgets] at h
  | cons c s =>
    simp only [fgets, Option.some.injEq] at h
    have h1 := fgetsAux_append (MAX_LINE_SIZE - 1) (c :: s)
    have h2 := fgetsAux_ne_nil 1022 c s
    rw [h] at h1
    have h3 : line ≠ [] := by
      have : (fgetsAux (MAX_LINE_SIZE - 1) (c :: s)).1 = line := by rw [h]
      rw [← this]; exact h2
    refine ⟨?_, h1⟩
    have h4 : (line ++ fptr2).length = (c :: s).length := by rw [h1]
    have h5 : 0 < line.length := List.length_pos.mpr h3
    rw [List.length_append] at h4
    omega

theorem cstr_length (buf : List Nat) : (cstr buf).length ≤ buf.length :=
  (List.takeWhile_sublist _).length_le

theorem insertAll_append (ws1 ws2 : List (List Nat)) (m : Mem) (n : Int) :
    insertAll (ws1 ++ ws2) m n =
      match insertAll ws1 m n with
      | .ret (n2, m2) => insertAll ws2 m2 n2
      | .exit code m2 => .exit code m2
      | .stuck => .stuck := by
  induction ws1 generalizing m n with
  | nil => simp [insertAll]
  | cons w ws ih =>
    simp only [List.cons_append, insertAll]
    cases hw : insertWord w m with
    | ret a =>
      by_cases hn : n < INT_MAX
      · simp only [hn, if_true]; exact ih a.2 (n + 1)
      · simp only [hn, if_false]
    | exit code m2 => simp
    | stuck => simp

theorem tokenLoop_eq (fuel : Nat) (saved : List Nat) (m : Mem) (n : Int)
    (h : saved.length < fuel) :
    tokenLoop fuel saved m n =
      insertAll ((lineTokens fuel saved).map (List.map tolower)) m n := by
  induction fuel generalizing saved m n with
  | zero => omega
  | succ fuel ih =>
    simp only [tokenLoop, lineTokens]
    cases hs : strtok saved splitOn with
    | none => simp [insertAll]
    | some p =>
      obtain ⟨tok, saved2⟩ := p
      have hl := strtok_length hs
      simp only [List.map_cons, insertAll]
      cases hw : insertWord (tok.map tolower) m with
      | ret a =>
        by_cases hn : n < INT_MAX
        · simp only [hn, if_true]; exact ih saved2 a.2 (n + 1) (by omega)
        · simp only [hn, if_false]
      | exit code m2 => rfl
      | stuck => rfl

theorem lineLoop_eq (fuel : Nat) (fptr : List Nat) (m : Mem) (n : Int)
    (h : fptr.length < fuel) :
    lineLoop fuel fptr m n =
      insertAll ((fileTokens fuel fptr).map (List.map tolower)) m n := by
  induction fuel generalizing fptr m n with
  | zero => omega
  | succ fuel ih =>
    simp only [lineLoop, fileTokens]
    cases hs : fgets MAX_LINE_SIZE fptr with
    | none => simp [insertAll]
    | some p =>
      obtain ⟨line, fptr2⟩ := p
      have hl := (fgets_length hs).1
      simp only [List.map_append, insertAll_append]
      rw [tokenLoop_eq _ _ _ _ (Nat.lt_succ_of_le (cstr_length line))]
      cases hw : insertAll ((lineTokens (line.length + 1) (cstr line)).map (List.map tolower)) m n with
      | ret a => simp only []; exact ih fptr2 a.2 a.1 (by omega)
      | exit code m2 => rfl
      | stuck => rfl

/-- The tokenizing pass of `readFile` is the sequence of `insertWord` calls on
the words of the file. -/
theorem readFile_eq (text : List Nat) (m : Mem) :
    readFile (some text) m = insertAll (tokens text) m 0 := by
  simp only [readFile, tokens, rawTokens]
  exact lineLoop_eq _ _ _ _ (Nat.lt_succ_self _)

/-! ### The reference list of records -/

theorem bump_strs (w : List Nat) (t : List Word) :
    (bump w t).map (fun r => r.str) =
      if w ∈ t.map (fun r => r.str) then t.map (fun r => r.str)
      else t.map (fun r => r.str) ++ [w] := by
  induction t with
  | nil => simp [bump]
  | cons r rs ih =>
    by_cases h : r.str = w
    · simp [bump, h]
    · have h2 : ¬ w = r.str := fun e => h e.symm
      simp only [bump, h, if_false, List.map_cons, ih, List.mem_cons, h2, false_or]
      split <;> simp

theorem bump_length (w : List Nat) (t : List Word) :
    (bump w t).length =
      if w ∈ t.map (fun r => r.str) then t.length else t.length + 1 := by
  have h := congrArg List.length (bump_strs w t)
  simp only [List.length_map] at h
  rw [h]
  split <;> simp

theorem bump_length_le (w : List Nat) (t : List Word) :
    t.length ≤ (bump w t).length ∧ (bump w t).length ≤ t.length + 1 := by
  rw [bump_length]; split <;> omega

theorem bump_nodup (w : List Nat) (t : List Word)
    (h : (t.map (fun r => r.str)).Nodup) : ((bump w t).map (fun r => r.str)).Nodup := by
  rw [bump_strs]
  split
  · exact h
  · rename_i hw
    rw [List.nodup_append]
    refine ⟨h, List.nodup_singleton w, ?_⟩
    intro a ha hb
    simp only [List.mem_singleton] at hb
    subst hb
    exact hw ha

theorem bump_freq_sum (w : List Nat) (t : List Word) :
    ((bump w t).map (fun r => r.freq)).sum = (t.map (fun r => r.freq)).sum + 1 := by
  induction t with
  | nil => simp [bump]
  | cons r rs ih =>
    by_cases h : r.str = w
    · simp [bump, h]; ring
    · simp [bump, h, ih]; ring

theorem bump_freq_of (w x : List Nat) (t : List Word) :
    (((bump w t).filter (fun r => decide (r.str = x))).map (fun r => r.freq)).sum =
      ((t.filter (fun r => decide (r.str = x))).map (fun r => r.freq)).sum
        + (if w = x then 1 else 0) := by
  induction t with
  | nil => by_cases h : w = x <;> simp [bump, h]
  | cons r rs ih =>
    by_cases h : r.str = w
    · by_cases hx : w = x
      · subst hx
        simp [bump, h, List.filter_cons]; ring
      · have : ¬ r.str = x := fun e => hx (h ▸ e)
        simp [bump, h, List.filter_cons, hx]
    · have hb : bump w (r :: rs) = r :: bump w rs := by simp [bump, h]
      rw [hb]
      by_cases hr : r.str = x
      · rw [List.filter_cons_of_pos (by simpa using hr), List.filter_cons_of_pos (by simpa using hr)]
        simp only [List.map_cons, List.sum_cons, ih]
        ring
      · rw [List.filter_cons_of_neg (by simpa using hr), List.filter_cons_of_neg (by simpa using hr)]
        exact ih

theorem bump_freq_pos (w : List Nat) (t : List Word) (h : ∀ r ∈ t, 1 ≤ r.freq) :
    ∀ r ∈ bump w t, 1 ≤ r.freq := by
  induction t with
  | nil => simp [bump]
  | cons r rs ih =>
    have h1 := h r (List.mem_cons_self _ _)
    have h2 : ∀ r ∈ rs, 1 ≤ r.freq := fun x hx => h x (List.mem_cons_of_mem _ hx)
    by_cases hr : r.str = w
    · simp only [bump, hr, if_true, List.mem_cons]
      rintro x (rfl | hx)
      · simp; omega
      · exact h2 x hx
    · simp only [bump, hr, if_false, List.mem_cons]
      rintro x (rfl | hx)
      · exact h1
      · exact ih h2 x hx

theorem bumpAll_nil (t : List Word) : bumpAll t [] = t := rfl

theorem bumpAll_cons (t : List Word) (w : List Nat) (ws : List (List Nat)) :
    bumpAll t (w :: ws) = bumpAll (bump w t) ws := rfl

theorem bumpAll_append (t : List Word) (ws1 ws2 : List (List Nat)) :
    bumpAll t (ws1 ++ ws2) = bumpAll (bumpAll t ws1) ws2 := by
  simp [bumpAll, List.foldl_append]

theorem bumpAll_length_le (t : List Word) (ws : List (List Nat)) :
    t.length ≤ (bumpAll t ws).length := by
  induction ws generalizing t with
  | nil => simp [bumpAll_nil]
  | cons w ws ih =>
    rw [bumpAll_cons]
    exact le_trans (bump_length_le w t).1 (ih _)

theorem bumpAll_nodup (t : List Word) (ws : List (List Nat))
    (h : (t.map (fun r => r.str)).Nodup) : ((bumpAll t ws).map (fun r => r.str)).Nodup := by
  induction ws generalizing t with
  | nil => exact h
  | cons w ws ih => rw [bumpAll_cons]; exact ih _ (bump_nodup w t h)

theorem bumpAll_mem_strs (t : List Word) (ws : List (List Nat)) (x : List Nat) :
    x ∈ (bumpAll t ws).map (fun r => r.str) ↔ x ∈ t.map (fun r => r.str) ∨ x ∈ ws := by
  induction ws generalizing t with
  | nil => simp [bumpAll_nil]
  | cons w ws ih =>
    rw [bumpAll_cons, ih, bump_strs]
    split
    · rename_i hw
      constructor
      · rintro (h | h)
        · exact Or.inl h
        · exact Or.inr (List.mem_cons_of_mem _ h)
      · rintro (h | h)
        · exact Or.inl h
        · rcases List.mem_cons.mp h with rfl | h
          · exact Or.inl hw
          · exact Or.inr h
    · simp only [List.mem_append, List.mem_singleton, List.mem_cons]
      tauto

theorem bumpAll_freq_sum (t : List Word) (ws : List (List Nat)) :
    ((bumpAll t ws).map (fun r => r.freq)).sum = (t.map (fun r => r.freq)).sum + ws.length := by
  induction ws generalizing t with
  | nil => simp [bumpAll_nil]
  | cons w ws ih =>
    rw [bumpAll_cons, ih, bump_freq_sum]
    simp only [List.length_cons, Nat.cast_add, Nat.cast_one]
    ring

theorem bumpAll_freq_of (t : List Word) (ws : List (List Nat)) (x : List Nat) :
    (((bumpAll t ws).filter (fun r => decide (r.str = x))).map (fun r => r.freq)).sum =
      ((t.filter (fun r => decide (r.str = x))).map (fun r => r.freq)).sum + ws.count x := by
  induction ws generalizing t with
  | nil => simp [bumpAll_nil]
  | cons w ws ih =>
    rw [bumpAll_cons, ih, bump_freq_of, List.count_cons]
    by_cases h : w = x
    · simp [h]; ring
    · simp [h]

theorem bumpAll_freq_pos (t : List Word) (ws : List (List Nat)) (h : ∀ r ∈ t, 1 ≤ r.freq) :
    ∀ r ∈ bumpAll t ws, 1 ≤ r.freq := by
  induction ws generalizing t with
  | nil => exact h
  | cons w ws ih => rw [bumpAll_cons]; exact ih _ (bump_freq_pos w t h)

/-- In a list of records with distinct texts the counts of the records with
the text of `r` add up to the count of `r`. -/
theorem freq_of_nodup (t : List Word) (h : (t.map (fun r => r.str)).Nodup)
    (r : Word) (hr : r ∈ t) :
    ((t.filter (fun q => decide (q.str = r.str))).map (fun q => q.freq)).sum = r.freq := by
  induction t with
  | nil => simp at hr
  | cons q qs ih =>
    simp only [List.map_cons, List.nodup_cons, List.mem_map, not_exists, not_and] at h
    rcases List.mem_cons.mp hr with rfl | hq
    · have : qs.filter (fun q => decide (q.str = r.str)) = [] := by
        rw [List.filter_eq_nil_iff]
        intro a ha
        simpa using h.1 a ha
      simp [List.filter_cons, this]
    · have hne : ¬ q.str = r.str := fun e => h.1 r hq e.symm
      simp only [List.filter_cons, hne, decide_False]
      exact ih h.2 hq

/-- The records of a sequence of words: distinct texts, exactly the words of
the sequence, each with its number of occurrences. -/
theorem countWords_spec (ws : List (List Nat)) :
    ((countWords ws).map (fun r => r.str)).Nodup ∧
    (∀ x, x ∈ (countWords ws).map (fun r => r.str) ↔ x ∈ ws) ∧
    (∀ r ∈ countWords ws, r.freq = (ws.count r.str : Int)) ∧
    ((countWords ws).map (fun r => r.freq)).sum = (ws.length : Int) ∧
    ((countWords ws).map (fun r => r.str)).Perm ws.dedup := by
  have hnd : ((countWords ws).map (fun r => r.str)).Nodup :=
    bumpAll_nodup [] ws (by simp)
  have hmem : ∀ x, x ∈ (countWords ws).map (fun r => r.str) ↔ x ∈ ws := by
    intro x
    have := bumpAll_mem_strs [] ws x
    simpa [countWords] using this
  refine ⟨hnd, hmem, ?_, ?_, ?_⟩
  · intro r hr
    have h1 := freq_of_nodup _ hnd r hr
    have h2 := bumpAll_freq_of [] ws r.str
    simp only [List.filter_nil, List.map_nil, List.sum_nil, zero_add] at h2
    rw [← h1]; exact h2
  · have := bumpAll_freq_sum [] ws
    simpa [countWords] using this
  · rw [List.perm_ext_iff_of_nodup hnd (List.nodup_dedup ws)]
    intro x
    rw [hmem, List.mem_dedup]

/-! ### Chains of nodes -/

theorem chainFrom_none (heap : List Node) (fuel : Nat) : chainFrom heap fuel none = [] := by
  cases fuel <;> rfl

/-- A chain only depends on the `pNext` fields. -/
theorem chainFrom_congr (heap heap2 : List Node)
    (h : heap.map (fun nd => nd.pNext) = heap2.map (fun nd => nd.pNext))
    (fuel : Nat) (p : Option Nat) : chainFrom heap fuel p = chainFrom heap2 fuel p := by
  induction fuel generalizing p with
  | zero => cases p <;> rfl
  | succ fuel ih =>
    cases p with
    | none => rfl
    | some q =>
      have hq := congrArg (fun l => l[q]?) h
      simp only [List.getElem?_map] at hq
      simp only [chainFrom]
      cases h1 : heap[q]? with
      | none =>
        cases h2 : heap2[q]? with
        | none => rfl
        | some nd2 => rw [h1, h2] at hq; simp at hq
      | some nd =>
        cases h2 : heap2[q]? with
        | none => rw [h1, h2] at hq; simp at hq
        | some nd2 =>
          rw [h1, h2] at hq
          simp only [Option.map_some', Option.some.injEq] at hq
          simp only [hq, ih]

/-- A chain that starts inside the heap is not changed by later allocations. -/
theorem chainFrom_append (heap ext : List Node)
    (hnext : ∀ (i : Nat) (nd : Node) (j : Nat), heap[i]? = some nd → nd.pNext = some j → j < i)
    (fuel : Nat) (p : Option Nat) (hp : ∀ q, p = some q → q < heap.length) :
    chainFrom (heap ++ ext) fuel p = chainFrom heap fuel p := by
  induction fuel generalizing p with
  | zero => cases p <;> rfl
  | succ fuel ih =>
    cases p with
    | none => rfl
    | some q =>
      have hq := hp q rfl
      simp only [chainFrom, List.getElem?_append_left hq]
      cases h1 : heap[q]? with
      | none => rfl
      | some nd =>
        simp only []
        rw [ih]
        intro j hj
        exact lt_trans (hnext q nd j h1 hj) hq

/-- With `pNext` pointing to older nodes, any fuel above the start address
gives the same chain. -/
theorem chainFrom_fuel (heap : List Node)
    (hnext : ∀ (i : Nat) (nd : Node) (j : Nat), heap[i]? = some nd → nd.pNext = some j → j < i)
    (f1 f2 : Nat) (p : Option Nat) (h1 : ∀ q, p = some q → q < f1)
    (h2 : ∀ q, p = some q → q < f2) :
    chainFrom heap f1 p = chainFrom heap f2 p := by
  induction f1 generalizing f2 p with
  | zero =>
    cases p with
    | none => rw [chainFrom_none, chainFrom_none]
    | some q => exact absurd (h1 q rfl) (Nat.not_lt_zero _)
  | succ f1 ih =>
    cases p with
    | none => rw [chainFrom_none, chainFrom_none]
    | some q =>
      cases f2 with
      | zero => exact absurd (h2 q rfl) (Nat.not_lt_zero _)
      | succ f2 =>
        simp only [chainFrom]
        cases hq : heap[q]? with
        | none => rfl
        | some nd =>
          simp only []
          rw [ih f2 nd.pNext]
          · intro j hj
            have := hnext q nd j hq hj
            have := h1 q rfl
            omega
          · intro j hj
            have := hnext q nd j hq hj
            have := h2 q rfl
            omega

/-- The members of a chain are addresses of the heap. -/
theorem chainFrom_lt (heap : List Node) (fuel : Nat) (p : Option Nat) :
    ∀ q ∈ chainFrom heap fuel p, q < heap.length := by
  induction fuel generalizing p with
  | zero => cases p <;> simp [chainFrom]
  | succ fuel ih =>
    cases p with
    | none => simp [chainFrom]
    | some a =>
      simp only [chainFrom]
      cases ha : heap[a]? with
      | none => simp
      | some nd =>
        simp only [List.mem_cons]
        rintro q (rfl | hq)
        · exact (List.getElem?_eq_some_iff.mp ha).1
        · exact ih _ q hq

/-- The loop of `insertWord` on a chain without the word: nothing changes and
the flag stays 0. -/
theorem insertWordLoop_absent (w : List Nat) (heap : List Node)
    (hnext : ∀ (i : Nat) (nd : Node) (j : Nat), heap[i]? = some nd → nd.pNext = some j → j < i)
    (fuel : Nat) (p : Option Nat) (hp : ∀ q, p = some q → q < fuel ∧ q < heap.length)
    (habs : ∀ nd ∈ heap, nd.wrd.str ≠ w) :
    insertWordLoop w fuel p heap = some (heap, 0) := by
  induction fuel generalizing p with
  | zero =>
    cases p with
    | none => rfl
    | some q => exact absurd (hp q rfl).1 (Nat.not_lt_zero _)
  | succ fuel ih =>
    cases p with
    | none => rfl
    | some q =>
      obtain ⟨hq1, hq2⟩ := hp q rfl
      have hget : heap[q]? = some heap[q] := List.getElem?_eq_getElem hq2
      simp only [insertWordLoop, hget]
      have hne : ¬ heap[q].wrd.str = w := habs _ (List.getElem_mem hq2)
      simp only [hne, if_false]
      apply ih
      intro j hj
      have := hnext q heap[q] j hget hj
      omega

/-- The loop of `insertWord` on a chain that holds the node with the word: the
frequency of that node is incremented and the flag is 1, when the frequency is
below `INT_MAX`; at `INT_MAX` the loop has no result. -/
theorem insertWordLoop_present (w : List Nat) (heap : List Node)
    (hnext : ∀ (i : Nat) (nd : Node) (j : Nat), heap[i]? = some nd → nd.pNext = some j → j < i)
    (a : Nat) (nda : Node) (ha : heap[a]? = some nda) (hw : nda.wrd.str = w)
    (huniq : ∀ (b : Nat) (ndb : Node), heap[b]? = some ndb → ndb.wrd.str = w → b = a)
    (fuel : Nat) (p : Option Nat) (hp : ∀ q, p = some q → q < fuel ∧ q < heap.length)
    (hmem : a ∈ chainFrom heap fuel p) :
    insertWordLoop w fuel p heap =
      if nda.wrd.freq < INT_MAX then some (heap.set a (incrFreq nda), 1) else none := by
  induction fuel generalizing p with
  | zero => cases p <;> simp [chainFrom] at hmem
  | succ fuel ih =>
    cases p with
    | none => simp [chainFrom] at hmem
    | some q =>
      obtain ⟨hq1, hq2⟩ := hp q rfl
      have hget : heap[q]? = some heap[q] := List.getElem?_eq_getElem hq2
      simp only [chainFrom, hget, List.mem_cons] at hmem
      simp only [insertWordLoop, hget]
      by_cases hstr : heap[q].wrd.str = w
      · have hqa : q = a := huniq q _ hget hstr
        subst hqa
        rw [hget] at ha
        simp only [Option.some.injEq] at ha
        subst ha
        simp only [hstr, if_true]
      · simp only [hstr, if_false]
        rcases hmem with rfl | hmem
        · rw [hget] at ha
          simp only [Option.some.injEq] at ha
          subst ha
          exact absurd hw hstr
        · apply ih _ _ hmem
          intro j hj
          have := hnext q heap[q] j hget hj
          omega

/-! ### Well-formed memories -/

theorem map_set_eq {β : Type} (f : Node → β) (heap : List Node) (a : Nat) (nd nd2 : Node)
    (ha : heap[a]? = some nd) (hf : f nd2 = f nd) : (heap.set a nd2).map f = heap.map f := by
  apply List.ext_getElem?
  intro i
  simp only [List.getElem?_map, List.getElem?_set]
  by_cases h : a = i
  · subst h
    have hlt : a < heap.length := (List.getElem?_eq_some_iff.mp ha).1
    simp [hlt, ha, hf]
  · simp [h]

theorem hashAt_eq (heap : List Node) (i : Nat) :
    hashAt heap i = ((heap.map (fun nd => nd.wrd.str))[i]?).map hashIndex := by
  simp only [hashAt, List.getElem?_map, Option.map_map]
  rfl

theorem getHashKey_lt (w : List Nat) : getHashKey w < MAX_HASHTABLE + 1 := by
  unfold getHashKey
  have : getHashKeyLoop w 0 0 % MAX_HASHTABLE < MAX_HASHTABLE := Nat.mod_lt _ (by decide)
  omega

/-- The key of `getHashKey` is below `MAX_HASHTABLE`. -/
theorem getHashKeyInt_range (l : List Int) (k : Int) (h : getHashKeyInt l = some k) :
    k < (MAX_HASHTABLE : Int) := by
  unfold getHashKeyInt at h
  cases hl : getHashKeyLoopInt l 0 0 with
  | none => rw [hl] at h; cases h
  | some x =>
    rw [hl] at h
    simp only [Option.map_some', Option.some.injEq] at h
    subst h
    exact Int.tmod_lt_of_pos x (by decide)

theorem hashIndex_lt (w : List Nat) : hashIndex w < MAX_HASHTABLE + 1 := by
  unfold hashIndex
  cases h : getHashKeyInt (w.map charVal) with
  | none => simp
  | some k =>
    have := getHashKeyInt_range _ k h
    simp only
    omega

theorem validKey_iff (w : List Nat) :
    validKey w = true ↔ ∃ k, getHashKeyInt (w.map charVal) = some k ∧ 0 ≤ k := by
  unfold validKey
  cases h : getHashKeyInt (w.map charVal) with
  | none => simp
  | some k => simp

/-- A word whose key is no index of the table: the call of `insertWord` has no
defined result. -/
theorem insertWord_invalid (w : List Nat) (m : Mem) (hlen : strlen w ≤ 31)
    (hv : validKey w = false) : insertWord w m = .stuck := by
  have hl : ¬ strlen w > 31 := by omega
  unfold validKey at hv
  cases h : getHashKeyInt (w.map charVal) with
  | none => simp only [insertWord, hl, if_false, h]
  | some k =>
    rw [h] at hv
    have hk : k < 0 := by simpa using hv
    simp only [insertWord, hl, if_false, h, hk, if_true]

/-- A word of at most 31 characters whose key is an index of the table: the
call of `insertWord` goes on with the list at index `hashIndex`. -/
theorem insertWord_valid (w : List Nat) (m : Mem) (hlen : strlen w ≤ 31)
    (hv : validKey w = true) :
    insertWord w m =
      match m.pHashTable[hashIndex w]? with
      | none => .stuck
      | some lst =>
        match insertWordLoop w m.heap.length lst.pHead m.heap with
        | none => .stuck
        | some (heap1, wordIsFound) =>
          if wordIsFound ≠ 1 then
            match addAtHead lst (createNode w heap1).1 (createNode w heap1).2 with
            | none => .stuck
            | some (lst2, heap2) =>
              if m.sortIndex < m.uniqueWords.length then
                if m.sortIndex + 1 = MAX_UNIQUE_WORDS - 1 then
                  .exit 1 { heap := heap2
                            pHashTable := m.pHashTable.set (hashIndex w) lst2
                            uniqueWords := m.uniqueWords.set m.sortIndex (some (createNode w heap1).1)
                            sortIndex := m.sortIndex + 1 }
                else
                  .ret (0, { heap := heap2
                             pHashTable := m.pHashTable.set (hashIndex w) lst2
                             uniqueWords :=
                               m.uniqueWords.set m.sortIndex (some (createNode w heap1).1)
                             sortIndex := m.sortIndex + 1 })
              else .stuck
          else .ret (0, { m with heap := heap1 }) := by
  have hl : ¬ strlen w > 31 := by omega
  obtain ⟨k, hk, hk0⟩ := (validKey_iff w).mp hv
  have hidx : hashIndex w = k.toNat := by simp only [hashIndex, hk]
  have hk1 : ¬ k < 0 := by omega
  simp only [insertWord, hl, if_false, hk, hk1, hidx]

/-- The memory `main` starts from is well formed. -/
theorem WF_init : WF initMem where
  table_len := by simp [initMem]
  unique_len := by simp [initMem]
  index_eq := rfl
  index_le := by simp [initMem]
  unique_eq := by simp [initMem]
  next_lt := by intro i nd j h; simp [initMem] at h
  head_lt := by
    intro k lst p h hp
    simp only [initMem, List.getElem?_replicate] at h
    split at h
    · simp only [Option.some.injEq] at h
      subst h
      simp at hp
    · simp at h
  chain_eq := by
    intro k hk
    simp [bucket, initMem, List.getElem?_replicate, hk, chainFrom]
  nodup := by simp [initMem]
  str_len := by simp [initMem]
  freq_pos := by simp [initMem]
  freq_le := by simp [initMem]

theorem WF.unique_get {m : Mem} (hwf : WF m) (i : Nat) (hi : i < m.sortIndex) :
    m.uniqueWords[i]? = some (some i) := by
  have h := congrArg (fun l => l[i]?) hwf.unique_eq
  simp only [List.getElem?_take_of_lt hi, List.getElem?_map, List.getElem?_range hi,
    Option.map_some'] at h
  exact h

theorem WF.bucket_mem {m : Mem} (hwf : WF m) (k : Nat) (hk : k < MAX_HASHTABLE + 1) (a : Nat) :
    a ∈ bucket m k ↔ a < m.heap.length ∧ hashAt m.heap a = some k := by
  rw [hwf.chain_eq k hk]
  simp

theorem WF.table_get {m : Mem} (hwf : WF m) (k : Nat) (hk : k < MAX_HASHTABLE + 1) :
    ∃ lst, m.pHashTable[k]? = some lst ∧
      bucket m k = chainFrom m.heap m.heap.length lst.pHead := by
  have hlt : k < m.pHashTable.length := by rw [hwf.table_len]; exact hk
  refine ⟨m.pHashTable[k], List.getElem?_eq_getElem hlt, ?_⟩
  simp [bucket, List.getElem?_eq_getElem hlt]

theorem WF.str_unique {m : Mem} (hwf : WF m) (a b : Nat) (nda ndb : Node)
    (ha : m.heap[a]? = some nda) (hb : m.heap[b]? = some ndb)
    (h : ndb.wrd.str = nda.wrd.str) : b = a := by
  obtain ⟨hla, ea⟩ := List.getElem?_eq_some_iff.mp ha
  obtain ⟨hlb, eb⟩ := List.getElem?_eq_some_iff.mp hb
  have hla2 : a < (m.heap.map (fun nd => nd.wrd.str)).length := by simpa using hla
  have hlb2 : b < (m.heap.map (fun nd => nd.wrd.str)).length := by simpa using hlb
  have := (@List.Nodup.getElem_inj_iff _ _ hwf.nodup b hlb2 a hla2).mp (by simp [ea, eb, h])
  exact this

/-- A word that is in the table: `insertWord` increments the frequency of its
node and changes nothing else. -/
theorem insertWord_present (w : List Nat) (m : Mem) (hwf : WF m) (hlen : strlen w ≤ 31)
    (hv : validKey w = true)
    (a : Nat) (nda : Node) (ha : m.heap[a]? = some nda) (hw : nda.wrd.str = w)
    (hf : nda.wrd.freq < INT_MAX) :
    insertWord w m = .ret (0, { m with heap := m.heap.set a (incrFreq nda) }) := by
  obtain ⟨lst, hlst, hb⟩ := hwf.table_get (hashIndex w) (hashIndex_lt w)
  have hmem : a ∈ bucket m (hashIndex w) := by
    rw [hwf.bucket_mem _ (hashIndex_lt w)]
    refine ⟨(List.getElem?_eq_some_iff.mp ha).1, ?_⟩
    simp [hashAt, ha, hw]
  rw [hb] at hmem
  have hloop := insertWordLoop_present w m.heap hwf.next_lt a nda ha hw
    (fun b ndb hb2 hs => hwf.str_unique a b nda ndb ha hb2 (hs.trans hw.symm))
    m.heap.length lst.pHead
    (fun q hq => ⟨hwf.head_lt _ lst q hlst hq, hwf.head_lt _ lst q hlst hq⟩) hmem
  rw [if_pos hf] at hloop
  rw [insertWord_valid w m hlen hv]
  simp only [hlst, hloop]
  simp

theorem addAtHead_createNode (lst : LinkedList) (w : List Nat) (heap : List Node) :
    addAtHead lst (createNode w heap).1 (createNode w heap).2 =
      some ({ pHead := some heap.length },
            heap ++ [{ wrd := { str := w, freq := 1 }, pNext := lst.pHead }]) := by
  unfold addAtHead createNode
  cases h : lst.pHead with
  | none => rfl
  | some pOld =>
    simp only [List.getElem?_append_right (le_refl heap.length), Nat.sub_self,
      List.getElem?_cons_zero, List.set_append_right _ _ (le_refl heap.length), List.set_cons_zero]

/-- A word that is not in the table: `insertWord` adds a node; when this
brings `sortIndex` to `MAX_UNIQUE_WORDS - 1` the process exits with code 1. -/
theorem insertWord_absent (w : List Nat) (m : Mem) (hwf : WF m) (hlen : strlen w ≤ 31)
    (hv : validKey w = true) (habs : ∀ nd ∈ m.heap, nd.wrd.str ≠ w) :
    insertWord w m =
      if m.sortIndex + 1 = MAX_UNIQUE_WORDS - 1 then .exit 1 (grow w m)
      else .ret (0, grow w m) := by
  obtain ⟨lst, hlst, -⟩ := hwf.table_get (hashIndex w) (hashIndex_lt w)
  have hloop := insertWordLoop_absent w m.heap hwf.next_lt m.heap.length lst.pHead
    (fun q hq => ⟨hwf.head_lt _ lst q hlst hq, hwf.head_lt _ lst q hlst hq⟩) habs
  have hu : m.sortIndex < m.uniqueWords.length := by
    rw [hwf.unique_len]
    have := hwf.index_le
    have h5 : MAX_UNIQUE_WORDS = 5000 := rfl
    omega
  rw [insertWord_valid w m hlen hv]
  simp only [hlst, hloop, addAtHead_createNode, hu, if_true]
  simp only [createNode, grow, hlst, Option.bind_some]
  simp

theorem incrFreq_pNext (nd : Node) : (incrFreq nd).pNext = nd.pNext := rfl

theorem incrFreq_str (nd : Node) : (incrFreq nd).wrd.str = nd.wrd.str := rfl

/-- Incrementing the frequency of a node keeps the memory well formed. -/
theorem WF_incr (m : Mem) (hwf : WF m) (a : Nat) (nda : Node) (ha : m.heap[a]? = some nda)
    (hf : nda.wrd.freq < INT_MAX) :
    WF { m with heap := m.heap.set a (incrFreq nda) } := by
  have hnext : (m.heap.set a (incrFreq nda)).map (fun nd => nd.pNext) =
      m.heap.map (fun nd => nd.pNext) := map_set_eq _ _ _ _ _ ha rfl
  have hstr : (m.heap.set a (incrFreq nda)).map (fun nd => nd.wrd.str) =
      m.heap.map (fun nd => nd.wrd.str) := map_set_eq _ _ _ _ _ ha rfl
  have hget : ∀ (i : Nat) (nd : Node), (m.heap.set a (incrFreq nda))[i]? = some nd →
      ∃ nd0, m.heap[i]? = some nd0 ∧ nd.pNext = nd0.pNext ∧ nd.wrd.str = nd0.wrd.str ∧
        nd0.wrd.freq ≤ nd.wrd.freq ∧ nd.wrd.freq ≤ INT_MAX := by
    intro i nd h
    rw [List.getElem?_set] at h
    by_cases hai : a = i
    · subst hai
      have hlt : a < m.heap.length := (List.getElem?_eq_some_iff.mp ha).1
      simp only [if_true, hlt, Option.some.injEq] at h
      subst h
      exact ⟨nda, ha, rfl, rfl, by simp [incrFreq], by simp only [incrFreq]; omega⟩
    · simp only [hai, if_false] at h
      exact ⟨nd, h, rfl, rfl, le_refl _, hwf.freq_le nd (List.getElem?_mem h)⟩
  have hmem : ∀ nd ∈ m.heap.set a (incrFreq nda),
      ∃ nd0 ∈ m.heap, nd.wrd.str = nd0.wrd.str ∧ nd0.wrd.freq ≤ nd.wrd.freq ∧
        nd.wrd.freq ≤ INT_MAX := by
    intro nd hnd
    obtain ⟨i, hi, e⟩ := List.getElem_of_mem hnd
    obtain ⟨nd0, h0, -, h2, h3, h4⟩ := hget i nd (by rw [List.getElem?_eq_getElem hi, e])
    exact ⟨nd0, List.getElem?_mem h0, h2, h3, h4⟩
  refine
    { table_len := hwf.table_len
      unique_len := hwf.unique_len
      index_eq := by simpa using hwf.index_eq
      index_le := hwf.index_le
      unique_eq := hwf.unique_eq
      next_lt := ?_
      head_lt := ?_
      chain_eq := ?_
      nodup := ?_
      str_len := ?_
      freq_pos := ?_
      freq_le := ?_ }
  · intro i nd j h hj
    obtain ⟨nd0, h0, h1, -, -, -⟩ := hget i nd h
    exact hwf.next_lt i nd0 j h0 (h1 ▸ hj)
  · intro k lst p h hp
    simpa using hwf.head_lt k lst p h hp
  · intro k hk
    have h1 : bucket { m with heap := m.heap.set a (incrFreq nda) } k = bucket m k := by
      simp only [bucket, List.length_set]
      cases m.pHashTable[k]? with
      | none => rfl
      | some lst => exact chainFrom_congr _ _ hnext _ _
    rw [h1, hwf.chain_eq k hk]
    simp only [List.length_set, hashAt_eq, hstr]
  · simpa only [hstr] using hwf.nodup
  · intro nd hnd
    obtain ⟨nd0, h0, h1, -, -⟩ := hmem nd hnd
    rw [h1]; exact hwf.str_len nd0 h0
  · intro nd hnd
    obtain ⟨nd0, h0, -, h2, -⟩ := hmem nd hnd
    exact le_trans (hwf.freq_pos nd0 h0) h2
  · intro nd hnd
    obtain ⟨-, -, -, -, h3⟩ := hmem nd hnd
    exact h3

/-- Adding a node for a new word keeps the memory well formed. -/
theorem WF_grow (w : List Nat) (m : Mem) (hwf : WF m) (hlen : strlen w ≤ 31)
    (habs : ∀ nd ∈ m.heap, nd.wrd.str ≠ w)
    (hcap : m.sortIndex < MAX_UNIQUE_WORDS - 1) : WF (grow w m) := by
  obtain ⟨lst, hlst, hb⟩ := hwf.table_get (hashIndex w) (hashIndex_lt w)
  have hk : hashIndex w < m.pHashTable.length := by
    rw [hwf.table_len]; exact hashIndex_lt w
  have hidx := hwf.index_eq
  have hgetold : ∀ i, i < m.heap.length → (grow w m).heap[i]? = m.heap[i]? := by
    intro i hi
    simp only [grow, List.getElem?_append_left hi]
  have hgetnew : (grow w m).heap[m.heap.length]? =
      some { wrd := { str := w, freq := 1 }, pNext := lst.pHead } := by
    simp [grow, hlst]
  have hlen2 : (grow w m).heap.length = m.heap.length + 1 := by simp [grow]
  have hget : ∀ (i : Nat) (nd : Node), (grow w m).heap[i]? = some nd →
      (i < m.heap.length ∧ m.heap[i]? = some nd) ∨
      (i = m.heap.length ∧ nd = { wrd := { str := w, freq := 1 }, pNext := lst.pHead }) := by
    intro i nd h
    have hi : i < m.heap.length + 1 := by
      rw [← hlen2]; exact (List.getElem?_eq_some_iff.mp h).1
    by_cases hlt : i < m.heap.length
    · left; exact ⟨hlt, by rw [← hgetold i hlt]; exact h⟩
    · right
      have : i = m.heap.length := by omega
      subst this
      rw [hgetnew] at h
      exact ⟨rfl, (Option.some.inj h).symm⟩
  have hhash : ∀ i, i < m.heap.length → hashAt (grow w m).heap i = hashAt m.heap i := by
    intro i hi
    simp only [hashAt, hgetold i hi]
  refine
    { table_len := by simp [grow, hwf.table_len]
      unique_len := by simp [grow, hwf.unique_len]
      index_eq := by simp [grow, hidx]
      index_le := by simp only [grow]; omega
      unique_eq := ?_
      next_lt := ?_
      head_lt := ?_
      chain_eq := ?_
      nodup := ?_
      str_len := ?_
      freq_pos := ?_
      freq_le := ?_ }
  · apply List.ext_getElem?
    intro i
    simp only [grow, List.getElem?_take, List.getElem?_map, List.getElem?_set]
    by_cases hi : i < m.sortIndex + 1
    · simp only [hi, if_true, List.getElem?_range hi, Option.map_some']
      by_cases he : m.sortIndex = i
      · have hu : m.sortIndex < m.uniqueWords.length := by
          rw [hwf.unique_len]; omega
        simp only [he, if_true] at hu ⊢
        simp [hu, ← hidx, he]
      · simp only [he, if_false]
        exact hwf.unique_get i (by omega)
    · simp only [hi, if_false]
      rw [List.getElem?_eq_none (by simp; omega)]
      rfl
  · intro i nd j h hj
    rcases hget i nd h with ⟨hi, h0⟩ | ⟨rfl, rfl⟩
    · exact hwf.next_lt i nd j h0 hj
    · exact hwf.head_lt _ lst j hlst hj
  · intro k lst2 p h hp
    rw [hlen2]
    simp only [grow, List.getElem?_set] at h
    by_cases hkk : hashIndex w = k
    · simp only [hkk, if_true] at h
      split at h
      · simp only [Option.some.injEq] at h
        subst h
        simp only [Option.some.injEq] at hp
        omega
      · simp at h
    · simp only [hkk, if_false] at h
      have := hwf.head_lt k lst2 p h hp
      omega
  · intro k hk2
    rw [hlen2, List.range_succ, List.filter_append]
    have hfilt : (List.range m.heap.length).filter
          (fun i => decide (hashAt (grow w m).heap i = some k)) =
        (List.range m.heap.length).filter (fun i => decide (hashAt m.heap i = some k)) := by
      apply List.filter_congr
      intro i hi
      rw [hhash i (List.mem_range.mp hi)]
    rw [hfilt, List.reverse_append, ← hwf.chain_eq k hk2]
    have hnewhash : hashAt (grow w m).heap m.heap.length = some (hashIndex w) := by
      simp [hashAt, hgetnew]
    by_cases hkk : hashIndex w = k
    · subst hkk
      have hb2 : bucket (grow w m) (hashIndex w) =
          m.heap.length :: chainFrom (grow w m).heap m.heap.length lst.pHead := by
        simp only [bucket, grow, List.getElem?_set, if_true, hk, Option.some.injEq]
        simp only [List.length_append, List.length_singleton, chainFrom,
          List.getElem?_append_right (le_refl m.heap.length), Nat.sub_self,
          List.getElem?_cons_zero, hlst, Option.bind_some]
        rfl
      rw [hb2, hb]
      simp only [hnewhash, decide_True, List.filter_cons_of_pos, List.filter_nil,
        List.reverse_cons, List.reverse_nil, List.nil_append, List.singleton_append]
      congr 1
      simp only [grow]
      exact chainFrom_append _ _ hwf.next_lt _ _ (fun q hq => hwf.head_lt _ lst q hlst hq)
    · have hne : ¬ (some (hashIndex w) = some k) := fun e => hkk (Option.some.inj e)
      simp only [hnewhash, hne, decide_False, List.filter_cons_of_neg, List.filter_nil,
        List.reverse_nil, List.nil_append, Bool.false_eq_true, not_false_eq_true]
      simp only [bucket, grow, List.getElem?_set, hkk, if_false, List.length_append,
        List.length_singleton]
      cases hl2 : m.pHashTable[k]? with
      | none => rfl
      | some lst2 =>
        simp only []
        rw [chainFrom_append _ _ hwf.next_lt _ _ (fun q hq => hwf.head_lt k lst2 q hl2 hq)]
        apply chainFrom_fuel _ hwf.next_lt
        · intro q hq
          have := hwf.head_lt k lst2 q hl2 hq
          omega
        · intro q hq
          exact hwf.head_lt k lst2 q hl2 hq
  · simp only [grow, List.map_append, List.map_cons, List.map_nil]
    rw [List.nodup_append]
    refine ⟨hwf.nodup, List.nodup_singleton w, ?_⟩
    intro x hx hx2
    simp only [List.mem_singleton] at hx2
    subst hx2
    obtain ⟨nd, hnd, e⟩ := List.mem_map.mp hx
    exact habs nd hnd e
  · intro nd hnd
    simp only [grow, List.mem_append, List.mem_singleton] at hnd
    rcases hnd with hnd | rfl
    · exact hwf.str_len nd hnd
    · exact hlen
  · intro nd hnd
    simp only [grow, List.mem_append, List.mem_singleton] at hnd
    rcases hnd with hnd | rfl
    · exact hwf.freq_pos nd hnd
    · exact le_refl _
  · intro nd hnd
    simp only [grow, List.mem_append, List.mem_singleton] at hnd
    rcases hnd with hnd | rfl
    · exact hwf.freq_le nd hnd
    · show (1 : Int) ≤ INT_MAX
      decide

/-! ### The hash key as an `int` -/

theorem getHashKeyLoop_le (s : List Nat) (index h : Nat) (hch : ∀ c ∈ s, c ≤ 127) :
    getHashKeyLoop s index h ≤ h + 889 * s.length := by
  induction s generalizing index h with
  | nil => simp [getHashKeyLoop]
  | cons c s ih =>
    have hc : c ≤ 127 := hch c (List.mem_cons_self _ _)
    have ih2 := fun i h2 => ih i h2 (fun x hx => hch x (List.mem_cons_of_mem _ hx))
    simp only [getHashKeyLoop, List.length_cons]
    split
    · have := ih2 (index + 1) (h + c * 7); omega
    · split
      · have := ih2 (index + 1) (h + c * 5); omega
      · split
        · have := ih2 (index + 1) (h + c * 3); omega
        · have := ih2 (index + 1) (h + c); omega

/-- On characters up to 127 no multiplication or addition of the loop of
`getHashKey` leaves the range of `int`, as long as the sum has room for 889
per character. -/
theorem getHashKeyLoopInt_eq (s : List Nat) (index h : Nat) (hch : ∀ c ∈ s, c ≤ 127)
    (hroom : h + 889 * s.length ≤ 2147483647) :
    getHashKeyLoopInt (s.map (fun c => (c : Int))) index (h : Int) =
      some ((getHashKeyLoop s index h : Nat) : Int) := by
  induction s generalizing index h with
  | nil => rfl
  | cons c s ih =>
    have hc : c ≤ 127 := hch c (List.mem_cons_self _ _)
    have ih2 := fun i h2 hr => ih i h2 (fun x hx => hch x (List.mem_cons_of_mem _ hx)) hr
    simp only [List.length_cons] at hroom
    have hm : ∀ k : Nat, k ≤ 7 → mulInt (c : Int) (k : Int) = some (((c * k : Nat)) : Int) := by
      intro k hk
      have hb : c * k ≤ 889 := by nlinarith
      have hcast : ((c : Int) * (k : Int)) = ((c * k : Nat) : Int) := by push_cast; rfl
      unfold mulInt
      rw [hcast, if_pos]
      constructor <;> simp only [INT_MIN, INT_MAX] <;> omega
    have ha : ∀ t : Nat, t ≤ 889 → addInt (h : Int) (t : Int) = some (((h + t : Nat)) : Int) := by
      intro t ht
      have hcast : ((h : Int) + (t : Int)) = ((h + t : Nat) : Int) := by push_cast; rfl
      unfold addInt
      rw [hcast, if_pos]
      constructor <;> simp only [INT_MIN, INT_MAX] <;> omega
    simp only [List.map_cons, getHashKeyLoopInt, getHashKeyLoop]
    by_cases h0 : index = 0
    · simp only [h0, if_true]
      have e := hm 7 (by omega)
      simp only [Nat.cast_ofNat] at e
      rw [e]
      simp only []
      rw [ha (c * 7) (by omega)]
      simp only []
      exact ih2 _ _ (by omega)
    · by_cases h1 : index = 1
      · simp only [h1, if_true, if_false, Nat.one_ne_zero]
        have e := hm 5 (by omega)
        simp only [Nat.cast_ofNat] at e
        rw [e]
        simp only []
        rw [ha (c * 5) (by omega)]
        simp only []
        exact ih2 _ _ (by omega)
      · by_cases h2 : index = 2
        · have h20 : ¬ (2 = 0) := by omega
          have h21 : ¬ (2 = 1) := by omega
          simp only [h2, if_true, if_false, h20, h21]
          have e := hm 3 (by omega)
          simp only [Nat.cast_ofNat] at e
          rw [e]
          simp only []
          rw [ha (c * 3) (by omega)]
          simp only []
          exact ih2 _ _ (by omega)
        · simp only [h0, h1, h2, if_false]
          rw [ha c (by omega)]
          simp only []
          exact ih2 _ _ (by omega)

/-- The values of the characters of a word with bytes below 128 are the bytes. -/
theorem map_charVal_ascii (w : List Nat) (h : ∀ c ∈ w, c < 128) :
    w.map charVal = (w.map (fun c => (c : Int)) : List Int) := by
  have h1 : w.map charVal = w.map (fun c : Nat => (c : Int)) := by
    apply List.map_congr_left
    intro c hc
    simp only [charVal, h c hc, if_true]
  rw [h1]
  clear h h1
  induction w with
  | nil => rfl
  | cons c s ih => simp_all

/-- For a word of at most 31 characters, all below 128, the key the C code
computes is the weighted sum modulo `MAX_HASHTABLE`. -/
theorem getHashKeyInt_ascii (w : List Nat) (hlen : w.length ≤ 31) (h : ∀ c ∈ w, c < 128) :
    getHashKeyInt (w.map charVal) = some ((getHashKey w : Nat) : Int) := by
  have hch : ∀ c ∈ w, c ≤ 127 := fun c hc => by have := h c hc; omega
  have hloop : getHashKeyLoopInt (w.map (fun c => (c : Int))) 0 ((0 : Nat) : Int) =
      some ((getHashKeyLoop w 0 0 : Nat) : Int) := getHashKeyLoopInt_eq w 0 0 hch (by omega)
  rw [map_charVal_ascii w h]
  unfold getHashKeyInt
  simp only [Nat.cast_zero] at hloop
  rw [hloop]
  simp only [Option.map_some', Option.some.injEq, getHashKey]
  exact (Int.ofNat_tmod _ _).symm

theorem validKey_of_ascii (w : List Nat) (hlen : strlen w ≤ 31) (h : ∀ c ∈ w, c < 128) :
    validKey w = true := by
  rw [validKey_iff]
  exact ⟨_, getHashKeyInt_ascii w hlen h, Int.natCast_nonneg _⟩

theorem hashIndex_ascii (w : List Nat) (hlen : strlen w ≤ 31) (h : ∀ c ∈ w, c < 128) :
    hashIndex w = getHashKey w := by
  simp only [hashIndex, getHashKeyInt_ascii w hlen h, Int.toNat_ofNat]

/-! ### The records of a well-formed memory -/

theorem range_filterMap_getElem {β : Type} (f : Node → β) (l : List Node) :
    (List.range l.length).filterMap (fun i => (l[i]?).map f) = l.map f := by
  induction l using List.reverseRecOn with
  | nil => rfl
  | append_singleton l a ih =>
    rw [List.length_append, List.length_singleton, List.range_succ, List.filterMap_append,
      List.map_append]
    congr 1
    · rw [← ih]
      apply List.filterMap_congr
      intro i hi
      rw [List.getElem?_append_left (List.mem_range.mp hi)]
    · simp

theorem derefAll_append (heap : List Node) (ps qs : List (Option Nat)) :
    derefAll heap (ps ++ qs) =
      match derefAll heap ps with
      | none => none
      | some l1 => (derefAll heap qs).map (fun l2 => l1 ++ l2) := by
  induction ps with
  | nil => simp [derefAll]
  | cons p ps ih =>
    rw [List.cons_append]
    simp only [derefAll]
    cases p.bind (fun a => heap[a]?) with
    | none => rfl
    | some nd =>
      simp only []
      rw [ih]
      cases derefAll heap ps with
      | none => rfl
      | some l1 => cases derefAll heap qs <;> simp

theorem derefAll_range (heap : List Node) (n : Nat) (hn : n ≤ heap.length) :
    derefAll heap ((List.range n).map some) = some (heap.take n) := by
  induction n with
  | zero => simp [derefAll]
  | succ n ih =>
    have hlt : n < heap.length := hn
    rw [List.range_succ, List.map_append, derefAll_append, ih (Nat.le_of_lt hlt)]
    have h0 : ((some n : Option Nat).bind fun a => heap[a]?) = some heap[n] :=
      List.getElem?_eq_getElem hlt
    have h1 : derefAll heap (List.map some [n]) = some [heap[n]] := by
      simp only [List.map_cons, List.map_nil, derefAll, h0]
      rfl
    rw [h1, List.take_succ, List.getElem?_eq_getElem hlt]
    rfl

/-- The enumeration array lists the nodes in the order of their allocation. -/
theorem WF.derefAll_eq {m : Mem} (hwf : WF m) :
    derefAll m.heap (m.uniqueWords.take m.sortIndex) = some m.heap := by
  rw [hwf.unique_eq, derefAll_range _ _ (le_of_eq hwf.index_eq), hwf.index_eq, List.take_length]

theorem WF.enumRecords_eq {m : Mem} (hwf : WF m) :
    enumRecords m = m.heap.map (fun nd => nd.wrd) := by
  unfold enumRecords
  rw [hwf.unique_eq, List.filterMap_map, hwf.index_eq]
  exact range_filterMap_getElem _ _

theorem filter_or_perm (p q : Nat → Bool) (l : List Nat)
    (h : ∀ x ∈ l, ¬ (p x = true ∧ q x = true)) :
    (l.filter p ++ l.filter q).Perm (l.filter (fun x => p x || q x)) := by
  induction l with
  | nil => simp
  | cons a l ih =>
    have ih2 := ih (fun x hx => h x (List.mem_cons_of_mem _ hx))
    have ha := h a (List.mem_cons_self _ _)
    cases hp : p a <;> cases hq : q a
    · simpa [List.filter_cons, hp, hq] using ih2
    · simp only [List.filter_cons, hp, hq, Bool.false_eq_true, if_false, if_true, Bool.or_true]
      exact List.perm_middle.trans (List.Perm.cons a ih2)
    · simp only [List.filter_cons, hp, hq, Bool.false_eq_true, if_false, if_true, Bool.or_false,
        List.cons_append]
      exact List.Perm.cons a ih2
    · exact absurd ⟨hp, hq⟩ ha

theorem flatMap_filter_perm (h : Nat → Option Nat) (l : List Nat) (M : Nat) :
    ((List.range M).flatMap (fun k => l.filter (fun i => decide (h i = some k)))).Perm
      (l.filter (fun i => decide (∃ k, k < M ∧ h i = some k))) := by
  induction M with
  | zero => simp
  | succ M ih =>
    rw [List.range_succ, List.flatMap_append]
    simp only [List.flatMap_cons, List.flatMap_nil, List.append_nil]
    refine (List.Perm.append_right _ ih).trans ?_
    refine (filter_or_perm _ _ l ?_).trans ?_
    · intro x _ hx
      simp only [decide_eq_true_eq] at hx
      obtain ⟨⟨k, hk, e1⟩, e2⟩ := hx
      rw [e1] at e2
      have := Option.some.inj e2
      omega
    · apply List.Perm.of_eq
      apply List.filter_congr
      intro x _
      rw [← Bool.decide_or]
      apply decide_eq_decide.mpr
      constructor
      · rintro (⟨k, hk, e⟩ | e)
        · exact ⟨k, by omega, e⟩
        · exact ⟨M, by omega, e⟩
      · rintro ⟨k, hk, e⟩
        by_cases hkM : k = M
        · right; rw [← hkM]; exact e
        · left; exact ⟨k, by omega, e⟩

/-- The records on the chains of the hash table are the records of the nodes,
each once. -/
theorem WF.tableRecords_perm {m : Mem} (hwf : WF m) :
    (tableRecords m).Perm (m.heap.map (fun nd => nd.wrd)) := by
  unfold tableRecords
  rw [← List.filterMap_flatMap]
  rw [← range_filterMap_getElem (fun nd => nd.wrd) m.heap]
  apply List.Perm.filterMap
  have h1 : (List.range (MAX_HASHTABLE + 1)).flatMap (fun k => bucket m k) =
      (List.range (MAX_HASHTABLE + 1)).flatMap (fun k =>
        ((List.range m.heap.length).filter (fun i => decide (hashAt m.heap i = some k))).reverse) := by
    apply List.flatMap_congr
    intro k hk
    exact hwf.chain_eq k (List.mem_range.mp hk)
  rw [h1]
  have h2 : ((List.range (MAX_HASHTABLE + 1)).flatMap (fun k =>
        ((List.range m.heap.length).filter (fun i => decide (hashAt m.heap i = some k))).reverse)).Perm
      ((List.range (MAX_HASHTABLE + 1)).flatMap (fun k =>
        ((List.range m.heap.length).filter (fun i => decide (hashAt m.heap i = some k))))) := by
    apply List.Perm.flatMap_left
    intro k _
    exact List.reverse_perm _
  refine h2.trans ((flatMap_filter_perm _ _ _).trans ?_)
  apply List.Perm.of_eq
  rw [List.filter_eq_self]
  intro i hi
  have hlt : i < m.heap.length := List.mem_range.mp hi
  simp only [decide_eq_true_eq]
  exact ⟨hashIndex m.heap[i].wrd.str, hashIndex_lt _, by simp [hashAt, List.getElem?_eq_getElem hlt]⟩

/-! ### `insertWord` against the reference list of records -/

theorem bump_of_mem (w : List Nat) (t : List Word) (h : (t.map (fun r => r.str)).Nodup)
    (a : Nat) (r : Word) (ha : t[a]? = some r) (hw : r.str = w) :
    bump w t = t.set a { r with freq := r.freq + 1 } := by
  induction t generalizing a with
  | nil => simp at ha
  | cons q qs ih =>
    simp only [List.map_cons, List.nodup_cons, List.mem_map, not_exists, not_and] at h
    cases a with
    | zero =>
      simp only [List.getElem?_cons_zero, Option.some.injEq] at ha
      subst ha
      simp [bump, hw]
    | succ a =>
      simp only [List.getElem?_cons_succ] at ha
      have hne : ¬ q.str = w := fun e => h.1 r (List.getElem?_mem ha) (hw.trans e.symm)
      simp only [bump, hne, if_false, List.set_cons_succ]
      rw [ih h.2 a ha]

theorem bump_of_not_mem (w : List Nat) (t : List Word) (h : ∀ r ∈ t, r.str ≠ w) :
    bump w t = t ++ [{ str := w, freq := 1 }] := by
  induction t with
  | nil => rfl
  | cons q qs ih =>
    have hne : ¬ q.str = w := h q (List.mem_cons_self _ _)
    simp only [bump, hne, if_false, List.cons_append]
    rw [ih (fun r hr => h r (List.mem_cons_of_mem _ hr))]

theorem insertWord_long (w : List Nat) (m : Mem) (h : ¬ strlen w ≤ 31) :
    insertWord w m = .ret (1, m) := by
  have : strlen w > 31 := by omega
  simp [insertWord, this]

/-- A word that is in the table with the frequency `INT_MAX`: `freq++` leaves
the range of `int`, the call has no defined result. -/
theorem insertWord_overflow (w : List Nat) (m : Mem) (hwf : WF m) (hlen : strlen w ≤ 31)
    (hv : validKey w = true)
    (a : Nat) (nda : Node) (ha : m.heap[a]? = some nda) (hw : nda.wrd.str = w)
    (hf : ¬ nda.wrd.freq < INT_MAX) : insertWord w m = .stuck := by
  obtain ⟨lst, hlst, hb⟩ := hwf.table_get (hashIndex w) (hashIndex_lt w)
  have hmem : a ∈ bucket m (hashIndex w) := by
    rw [hwf.bucket_mem _ (hashIndex_lt w)]
    refine ⟨(List.getElem?_eq_some_iff.mp ha).1, ?_⟩
    simp [hashAt, ha, hw]
  rw [hb] at hmem
  have hloop := insertWordLoop_present w m.heap hwf.next_lt a nda ha hw
    (fun b ndb hb2 hs => hwf.str_unique a b nda ndb ha hb2 (hs.trans hw.symm))
    m.heap.length lst.pHead
    (fun q hq => ⟨hwf.head_lt _ lst q hlst hq, hwf.head_lt _ lst q hlst hq⟩) hmem
  rw [if_neg hf] at hloop
  rw [insertWord_valid w m hlen hv]
  simp only [hlst, hloop]

/-- One call of `insertWord` on an accepted word whose key is an index of the
table and whose count, if it has a record, is below `INT_MAX`, in a memory
below the cap, against the reference list: the records of the nodes become
`bump w` of the old ones; the call returns 0 when `sortIndex` stays below
`MAX_UNIQUE_WORDS - 1` and ends the process with code 1 when it reaches it. -/
theorem insertWord_step (w : List Nat) (m : Mem) (hwf : WF m)
    (hlt : m.sortIndex < MAX_UNIQUE_WORDS - 1) (hlen : strlen w ≤ 31)
    (hv : validKey w = true)
    (hf : ∀ nd ∈ m.heap, nd.wrd.str = w → nd.wrd.freq < INT_MAX) :
    ∃ m2, m2.heap.map (fun nd => nd.wrd) = bump w (m.heap.map (fun nd => nd.wrd)) ∧ WF m2 ∧
      ((m2.sortIndex < MAX_UNIQUE_WORDS - 1 ∧ insertWord w m = .ret (0, m2)) ∨
       (m2.sortIndex = MAX_UNIQUE_WORDS - 1 ∧ insertWord w m = .exit 1 m2)) := by
  by_cases hex : ∃ nd ∈ m.heap, nd.wrd.str = w
  · obtain ⟨nd, hnd, hw⟩ := hex
    obtain ⟨a, ha, e⟩ := List.getElem_of_mem hnd
    have hget : m.heap[a]? = some nd := by rw [List.getElem?_eq_getElem ha, e]
    have hwf2 := WF_incr m hwf a nd hget (hf nd hnd hw)
    refine ⟨{ m with heap := m.heap.set a (incrFreq nd) }, ?_, hwf2, Or.inl ⟨hlt, ?_⟩⟩
    · have hnd2 : ((m.heap.map (fun nd => nd.wrd)).map (fun r => r.str)).Nodup := by
        rw [List.map_map]; exact hwf.nodup
      rw [bump_of_mem w _ hnd2 a nd.wrd (by simp [hget]) hw, List.map_set]
      rfl
    · exact insertWord_present w m hwf hlen hv a nd hget hw (hf nd hnd hw)
  · have habs : ∀ nd ∈ m.heap, nd.wrd.str ≠ w := fun nd hnd e => hex ⟨nd, hnd, e⟩
    have hrec : (grow w m).heap.map (fun nd => nd.wrd) = bump w (m.heap.map (fun nd => nd.wrd)) := by
      rw [bump_of_not_mem]
      · simp [grow]
      · intro r hr
        obtain ⟨nd, hnd, e⟩ := List.mem_map.mp hr
        rw [← e]; exact habs nd hnd
    refine ⟨grow w m, hrec, WF_grow w m hwf hlen habs hlt, ?_⟩
    rw [insertWord_absent w m hwf hlen hv habs]
    have hs : (grow w m).sortIndex = m.sortIndex + 1 := rfl
    by_cases hcap : m.sortIndex + 1 = MAX_UNIQUE_WORDS - 1
    · right
      rw [if_pos hcap]
      exact ⟨by omega, rfl⟩
    · left
      rw [if_neg hcap]
      exact ⟨by omega, rfl⟩

/-- The ways a call of `insertWord` goes in a well-formed memory below the
cap: a word of more than 31 characters is refused with 1; a word whose key is
no index of the table, or whose count is `INT_MAX`, has no defined result; any
other word is counted as in `insertWord_step`. -/
theorem insertWord_outcome (w : List Nat) (m : Mem) (hwf : WF m)
    (hlt : m.sortIndex < MAX_UNIQUE_WORDS - 1) :
    (¬ strlen w ≤ 31 ∧ insertWord w m = .ret (1, m)) ∨
    (strlen w ≤ 31 ∧ insertWord w m = .stuck ∧
      (validKey w = false ∨ ∃ nd ∈ m.heap, nd.wrd.str = w ∧ ¬ nd.wrd.freq < INT_MAX)) ∨
    (strlen w ≤ 31 ∧ validKey w = true ∧
      (∀ nd ∈ m.heap, nd.wrd.str = w → nd.wrd.freq < INT_MAX) ∧
      ∃ m2, m2.heap.map (fun nd => nd.wrd) = bump w (m.heap.map (fun nd => nd.wrd)) ∧ WF m2 ∧
        ((m2.sortIndex < MAX_UNIQUE_WORDS - 1 ∧ insertWord w m = .ret (0, m2)) ∨
         (m2.sortIndex = MAX_UNIQUE_WORDS - 1 ∧ insertWord w m = .exit 1 m2))) := by
  by_cases hlen : strlen w ≤ 31
  · right
    by_cases hv : validKey w = true
    · by_cases hf : ∀ nd ∈ m.heap, nd.wrd.str = w → nd.wrd.freq < INT_MAX
      · exact Or.inr ⟨hlen, hv, hf, insertWord_step w m hwf hlt hlen hv hf⟩
      · left
        simp only [not_forall] at hf
        obtain ⟨nd, hnd, hw, hfr⟩ := hf
        obtain ⟨a, ha, e⟩ := List.getElem_of_mem hnd
        have hget : m.heap[a]? = some nd := by rw [List.getElem?_eq_getElem ha, e]
        exact ⟨hlen, insertWord_overflow w m hwf hlen hv a nd hget hw hfr,
          Or.inr ⟨nd, hnd, hw, hfr⟩⟩
    · left
      have hv2 : validKey w = false := by simpa using hv
      exact ⟨hlen, insertWord_invalid w m hlen hv2, Or.inl hv2⟩
  · exact Or.inl ⟨hlen, insertWord_long w m hlen⟩

theorem accepted_cons (w : List Nat) (ws : List (List Nat)) :
    accepted (w :: ws) = if strlen w ≤ 31 then w :: accepted ws else accepted ws := by
  by_cases h : strlen w ≤ 31 <;> simp [accepted, List.filter_cons, h]

theorem bump_freq_le (w : List Nat) (t : List Word) (B : Int) (hB : 0 ≤ B)
    (h : ∀ r ∈ t, r.freq ≤ B) : ∀ r ∈ bump w t, r.freq ≤ B + 1 := by
  induction t with
  | nil =>
    intro r hr
    simp only [bump, List.mem_singleton] at hr
    subst hr
    simp only
    omega
  | cons q qs ih =>
    intro r hr
    have hq := h q (List.mem_cons_self _ _)
    have hqs : ∀ r ∈ qs, r.freq ≤ B := fun r hr => h r (List.mem_cons_of_mem _ hr)
    simp only [bump] at hr
    split at hr
    · rcases List.mem_cons.mp hr with rfl | hr2
      · simp only; omega
      · have := hqs r hr2; omega
    · rcases List.mem_cons.mp hr with rfl | hr2
      · omega
      · exact ih hqs r hr2

/-- The calls of `insertWord` on a sequence of words, against the reference
list, for words whose keys are indices of the table and a counter that stays
in the range of `int` (no count exceeds the counter).  While the number of
distinct accepted words stays below `MAX_UNIQUE_WORDS - 1` the pass returns,
`numWords` has grown by the number of all the words, and the records of the
nodes are the reference records; otherwise the process ends with code 1 at
`sortIndex = MAX_UNIQUE_WORDS - 1`. -/
theorem insertAll_spec (ws : List (List Nat)) (m : Mem) (n : Int) (hwf : WF m)
    (hlt : m.sortIndex < MAX_UNIQUE_WORDS - 1)
    (hv : ∀ w ∈ ws, strlen w ≤ 31 → validKey w = true)
    (h0 : 0 ≤ n) (hfr : ∀ nd ∈ m.heap, nd.wrd.freq ≤ n)
    (hn : n + (ws.length : Int) ≤ INT_MAX) :
    ((bumpAll (m.heap.map (fun nd => nd.wrd)) (accepted ws)).length < MAX_UNIQUE_WORDS - 1 →
      ∃ m2, insertAll ws m n = .ret (n + ws.length, m2) ∧ WF m2 ∧
        m2.sortIndex < MAX_UNIQUE_WORDS - 1 ∧
        m2.heap.map (fun nd => nd.wrd) = bumpAll (m.heap.map (fun nd => nd.wrd)) (accepted ws)) ∧
    (MAX_UNIQUE_WORDS - 1 ≤ (bumpAll (m.heap.map (fun nd => nd.wrd)) (accepted ws)).length →
      ∃ m2, insertAll ws m n = .exit 1 m2 ∧ WF m2 ∧ m2.sortIndex = MAX_UNIQUE_WORDS - 1) := by
  induction ws generalizing m n with
  | nil =>
    constructor
    · intro _
      exact ⟨m, by simp [insertAll], hwf, hlt, rfl⟩
    · intro h
      simp only [accepted, List.filter_nil, bumpAll_nil, List.length_map] at h
      have h2 := hwf.index_eq
      omega
  | cons w ws ih =>
    have hv2 : ∀ x ∈ ws, strlen x ≤ 31 → validKey x = true :=
      fun x hx => hv x (List.mem_cons_of_mem _ hx)
    simp only [List.length_cons, Nat.cast_add, Nat.cast_one] at hn
    have hnlt : n < INT_MAX := by
      have : (0 : Int) ≤ (ws.length : Int) := Int.natCast_nonneg _
      omega
    have hn2 : n + 1 + (ws.length : Int) ≤ INT_MAX := by omega
    have hcount : n + 1 + (ws.length : Int) = n + ((w :: ws).length : Nat) := by
      simp only [List.length_cons, Nat.cast_add, Nat.cast_one]; ring
    rw [accepted_cons]
    by_cases hlen : strlen w ≤ 31
    · simp only [hlen, if_true, bumpAll_cons]
      have hf : ∀ nd ∈ m.heap, nd.wrd.str = w → nd.wrd.freq < INT_MAX := by
        intro nd hnd _
        have := hfr nd hnd
        omega
      obtain ⟨m2, hrec, hwf2, hcase⟩ :=
        insertWord_step w m hwf hlt hlen (hv w (List.mem_cons_self _ _) hlen) hf
      have hfr2 : ∀ nd ∈ m2.heap, nd.wrd.freq ≤ n + 1 := by
        intro nd hnd
        have hmem : nd.wrd ∈ bump w (m.heap.map (fun nd => nd.wrd)) := by
          rw [← hrec]; exact List.mem_map.mpr ⟨nd, hnd, rfl⟩
        refine bump_freq_le w _ n h0 ?_ _ hmem
        intro r hr
        obtain ⟨nd0, hnd0, e⟩ := List.mem_map.mp hr
        rw [← e]; exact hfr nd0 hnd0
      rcases hcase with ⟨hlt2, hins⟩ | ⟨heq, hins⟩
      · have ih2 := ih m2 (n + 1) hwf2 hlt2 hv2 (by omega) hfr2 hn2
        rw [hrec] at ih2
        simp only [insertAll, hins, hnlt, if_true]
        rw [← hcount]
        exact ih2
      · have hge : MAX_UNIQUE_WORDS - 1 ≤
            (bumpAll (bump w (m.heap.map (fun nd => nd.wrd))) (accepted ws)).length := by
          refine le_trans ?_ (bumpAll_length_le _ _)
          rw [← hrec, List.length_map, ← hwf2.index_eq, heq]
        constructor
        · intro h; omega
        · intro _
          exact ⟨m2, by simp [insertAll, hins], hwf2, heq⟩
    · simp only [hlen, if_false]
      have hfr2 : ∀ nd ∈ m.heap, nd.wrd.freq ≤ n + 1 := by
        intro nd hnd
        have := hfr nd hnd
        omega
      have ih2 := ih m (n + 1) hwf hlt hv2 (by omega) hfr2 hn2
      simp only [insertAll, insertWord_long w m hlen, hnlt, if_true]
      rw [← hcount]
      exact ih2

/-- The pass from the initial memory over at most `INT_MAX` words whose keys
are indices of the table: it returns exactly when the sequence has fewer than
`MAX_UNIQUE_WORDS - 1` distinct accepted words. -/
theorem insertAll_init (ws : List (List Nat))
    (hv : ∀ w ∈ ws, strlen w ≤ 31 → validKey w = true)
    (hn : (ws.length : Int) ≤ INT_MAX) :
    ((countWords (accepted ws)).length < MAX_UNIQUE_WORDS - 1 →
      ∃ m, insertAll ws initMem 0 = .ret ((ws.length : Int), m) ∧ WF m ∧
        m.sortIndex < MAX_UNIQUE_WORDS - 1 ∧
        m.heap.map (fun nd => nd.wrd) = countWords (accepted ws)) ∧
    (MAX_UNIQUE_WORDS - 1 ≤ (countWords (accepted ws)).length →
      ∃ m, insertAll ws initMem 0 = .exit 1 m ∧ WF m ∧ m.sortIndex = MAX_UNIQUE_WORDS - 1) := by
  have h := insertAll_spec ws initMem 0 WF_init (by simp [initMem]) hv (le_refl _)
    (by simp [initMem]) (by rw [zero_add]; exact hn)
  simp only [zero_add] at h
  exact h

/-- A pass that returns, from a well-formed memory below the cap: the counter
has grown by the number of all the words, the memory is well formed and below
the cap, and the records of the nodes are the reference records. -/
theorem insertAll_inv (ws : List (List Nat)) (m : Mem) (n : Int) (hwf : WF m)
    (hlt : m.sortIndex < MAX_UNIQUE_WORDS - 1) (k : Int) (m2 : Mem)
    (h : insertAll ws m n = .ret (k, m2)) :
    k = n + (ws.length : Int) ∧ WF m2 ∧ m2.sortIndex < MAX_UNIQUE_WORDS - 1 ∧
      m2.heap.map (fun nd => nd.wrd) = bumpAll (m.heap.map (fun nd => nd.wrd)) (accepted ws) := by
  induction ws generalizing m n with
  | nil =>
    simp only [insertAll, Outcome.ret.injEq, Prod.mk.injEq] at h
    obtain ⟨h1, h2⟩ := h
    subst h1 h2
    exact ⟨by simp, hwf, hlt, rfl⟩
  | cons w ws ih =>
    have hcount : n + 1 + (ws.length : Int) = n + ((w :: ws).length : Nat) := by
      simp only [List.length_cons, Nat.cast_add, Nat.cast_one]; ring
    rw [accepted_cons]
    rcases insertWord_outcome w m hwf hlt with ⟨hlen, hins⟩ | ⟨hlen, hins, -⟩ |
      ⟨hlen, -, -, m3, hrec, hwf3, hcase⟩
    · simp only [insertAll, hins] at h
      by_cases hn : n < INT_MAX
      · simp only [hn, if_true] at h
        simp only [hlen, if_false]
        rw [← hcount]
        exact ih m (n + 1) hwf hlt h
      · simp only [hn, if_false] at h
        cases h
    · simp only [insertAll, hins] at h
      cases h
    · simp only [hlen, if_true, bumpAll_cons]
      rcases hcase with ⟨hlt3, hins⟩ | ⟨-, hins⟩
      · simp only [insertAll, hins] at h
        by_cases hn : n < INT_MAX
        · simp only [hn, if_true] at h
          rw [← hcount, ← hrec]
          exact ih m3 (n + 1) hwf3 hlt3 h
        · simp only [hn, if_false] at h
          cases h
      · simp only [insertAll, hins] at h
        cases h

/-- When the pass from the initial memory returns, the counter is the number
of all words, the memory is well formed and its records are the reference
records. -/
theorem insertAll_ret (ws : List (List Nat)) (n : Int) (m : Mem)
    (h : insertAll ws initMem 0 = .ret (n, m)) :
    n = (ws.length : Int) ∧ WF m ∧ m.sortIndex < MAX_UNIQUE_WORDS - 1 ∧
      m.heap.map (fun nd => nd.wrd) = countWords (accepted ws) := by
  have h2 := insertAll_inv ws initMem 0 WF_init (by simp [initMem]) n m h
  simp only [zero_add] at h2
  exact h2

/-- The number of reference records is the number of distinct accepted words. -/
theorem countWords_length (text : List Nat) :
    (countWords (accepted (tokens text))).length = (distinctWords text).length := by
  have h := (countWords_spec (accepted (tokens text))).2.2.2.2.length_eq
  simpa [distinctWords] using h

/-- What `readFile` does on a file that can be opened, from the initial memory,
when the keys of its words of at most 31 characters are indices of the table
and it has at most `INT_MAX` words: with fewer than `MAX_UNIQUE_WORDS - 1`
distinct accepted words it returns the number of all words and leaves a
well-formed memory whose records are the reference records; otherwise the
process ends with code 1. -/
theorem readFile_spec (text : List Nat)
    (hv : ∀ w ∈ tokens text, strlen w ≤ 31 → validKey w = true)
    (hn : ((tokens text).length : Int) ≤ INT_MAX) :
    ((distinctWords text).length < MAX_UNIQUE_WORDS - 1 →
      ∃ m, readFile (some text) initMem = .ret (((tokens text).length : Int), m) ∧ WF m ∧
        m.sortIndex < MAX_UNIQUE_WORDS - 1 ∧
        m.heap.map (fun nd => nd.wrd) = countWords (accepted (tokens text))) ∧
    (MAX_UNIQUE_WORDS - 1 ≤ (distinctWords text).length →
      ∃ m, readFile (some text) initMem = .exit 1 m ∧ WF m ∧
        m.sortIndex = MAX_UNIQUE_WORDS - 1) := by
  rw [readFile_eq, ← countWords_length]
  exact insertAll_init (tokens text) hv hn

/-- When `readFile` returns, the memory is well formed and its records are
the reference records of the words of the file. -/
theorem readFile_ret (text : List Nat) (n : Int) (m : Mem)
    (h : readFile (some text) initMem = .ret (n, m)) :
    n = ((tokens text).length : Int) ∧ WF m ∧ m.sortIndex < MAX_UNIQUE_WORDS - 1 ∧
      m.heap.map (fun nd => nd.wrd) = countWords (accepted (tokens text)) := by
  rw [readFile_eq] at h
  exact insertAll_ret (tokens text) n m h

/-! ### The function `main` -/

/-- Insertion sort meets the contract of `qsort`. -/
theorem qsortRef_isQsort : IsQsort qsortRef := by
  intro l
  haveI : IsTotal Node (fun a b => compare a b ≤ 0) :=
    ⟨fun a b => by simp only [compare]; omega⟩
  haveI : IsTrans Node (fun a b => compare a b ≤ 0) :=
    ⟨fun a b c h1 h2 => by simp only [compare] at *; omega⟩
  exact ⟨List.perm_insertionSort _ l, List.sorted_insertionSort _ l⟩

/-- What `main` prints when `readFile` returns. -/
theorem main_of_readFile (qsort : (Node → Node → Int) → List Node → List Node)
    (text : List Nat) (topN : Option Int) (n : Int) (m : Mem)
    (h : readFile (some text) initMem = .ret (n, m)) :
    main qsort (some text) topN = .ret
      { numWords := n
        sortIndex := m.sortIndex
        numSummaryItems :=
          if topN.getD 10 ≥ (m.sortIndex : Int) then (m.sortIndex : Int) else topN.getD 10
        lines := ((qsort compare m.heap).take
          (if topN.getD 10 ≥ (m.sortIndex : Int) then (m.sortIndex : Int)
            else topN.getD 10).toNat).map (fun nd => nd.wrd) } := by
  obtain ⟨hn, hwf, -, -⟩ := readFile_ret text n m h
  have hne : ¬ n = -1 := by
    rw [hn]
    have : (0 : Int) ≤ ((tokens text).length : Int) := Int.natCast_nonneg _
    omega
  have htop : (match topN with
      | some n => n
      | none => (10 : Int)) = topN.getD 10 := by
    cases topN <;> rfl
  simp only [main, h, hne, if_false, hwf.derefAll_eq, htop]

/-- When `main` prints a report, `readFile` has returned. -/
theorem main_ret (qsort : (Node → Node → Int) → List Node → List Node)
    (file : Option (List Nat)) (topN : Option Int) (rep : Report)
    (h : main qsort file topN = .ret rep) :
    ∃ text n m, file = some text ∧ readFile (some text) initMem = .ret (n, m) ∧
      rep =
        { numWords := n
          sortIndex := m.sortIndex
          numSummaryItems :=
            if topN.getD 10 ≥ (m.sortIndex : Int) then (m.sortIndex : Int) else topN.getD 10
          lines := ((qsort compare m.heap).take
            (if topN.getD 10 ≥ (m.sortIndex : Int) then (m.sortIndex : Int)
              else topN.getD 10).toNat).map (fun nd => nd.wrd) } := by
  cases file with
  | none => simp [main, readFile] at h
  | some text =>
    cases hr : readFile (some text) initMem with
    | ret a =>
      obtain ⟨n, m⟩ := a
      rw [main_of_readFile qsort text topN n m hr] at h
      exact ⟨text, n, m, rfl, hr, (Outcome.ret.inj h).symm⟩
    | exit code m2 => simp [main, hr] at h
    | stuck => simp [main, hr] at h

/-! ### Records of the table after a run -/

/-- After a run that returns, the records on the chains of the hash table are,
up to their order, the reference records of the accepted words. -/
theorem tableRecords_of_ret (ws : List (List Nat)) (n : Int) (m : Mem)
    (h : insertAll ws initMem 0 = .ret (n, m)) :
    (tableRecords m).Perm (countWords (accepted ws)) ∧
      enumRecords m = countWords (accepted ws) := by
  obtain ⟨-, hwf, -, hrec⟩ := insertAll_ret ws n m h
  exact ⟨hrec ▸ hwf.tableRecords_perm, hrec ▸ hwf.enumRecords_eq⟩

theorem accepted_length_add (ws : List (List Nat)) :
    ws.length = (accepted ws).length + (ws.filter (fun w => decide (31 < strlen w))).length := by
  induction ws with
  | nil => rfl
  | cons w ws ih =>
    rw [accepted_cons]
    by_cases h : strlen w ≤ 31
    · have h2 : ¬ 31 < strlen w := by omega
      simp only [h, if_true, List.length_cons, List.filter_cons, h2, decide_False]
      simp only [Bool.false_eq_true, if_false]
      omega
    · have h2 : 31 < strlen w := by omega
      simp only [h, if_false, List.length_cons, List.filter_cons, h2, decide_True, if_true]
      omega

theorem bucket_incr (m : Mem) (a : Nat) (nda : Node) (ha : m.heap[a]? = some nda) (k : Nat) :
    bucket { m with heap := m.heap.set a (incrFreq nda) } k = bucket m k := by
  have hnext : (m.heap.set a (incrFreq nda)).map (fun nd => nd.pNext) =
      m.heap.map (fun nd => nd.pNext) := map_set_eq _ _ _ _ _ ha rfl
  simp only [bucket, List.length_set]
  cases m.pHashTable[k]? with
  | none => rfl
  | some lst => exact chainFrom_congr _ _ hnext _ _

/-- Incrementing the frequency of the node of `w` increments the count of the
record of `w` in the table and changes no other record. -/
theorem tableRecords_incr (m : Mem) (hwf : WF m) (a : Nat) (nda : Node)
    (ha : m.heap[a]? = some nda) :
    tableRecords { m with heap := m.heap.set a (incrFreq nda) } =
      (tableRecords m).map
        (fun r => if r.str = nda.wrd.str then { r with freq := r.freq + 1 } else r) := by
  unfold tableRecords
  rw [List.map_flatMap]
  apply List.flatMap_congr
  intro k _
  rw [bucket_incr m a nda ha k, List.map_filterMap]
  apply List.filterMap_congr
  intro p _
  simp only [List.getElem?_set]
  by_cases hap : a = p
  · subst hap
    have hlt : a < m.heap.length := (List.getElem?_eq_some_iff.mp ha).1
    simp [hlt, ha, incrFreq]
  · simp only [hap, if_false]
    cases hp : m.heap[p]? with
    | none => rfl
    | some nd =>
      have hne : ¬ nd.wrd.str = nda.wrd.str := fun e =>
        hap (hwf.str_unique a p nda nd ha hp e).symm
      simp [hne]

theorem mem_tableRecords_iff {m : Mem} (hwf : WF m) (w : List Nat) :
    (∃ r ∈ tableRecords m, r.str = w) ↔ ∃ nd ∈ m.heap, nd.wrd.str = w := by
  constructor
  · rintro ⟨r, hr, e⟩
    obtain ⟨nd, hnd, e2⟩ := List.mem_map.mp (hwf.tableRecords_perm.subset hr)
    exact ⟨nd, hnd, by rw [e2]; exact e⟩
  · rintro ⟨nd, hnd, e⟩
    exact ⟨nd.wrd, hwf.tableRecords_perm.symm.subset (List.mem_map.mpr ⟨nd, hnd, rfl⟩), e⟩

theorem filter_str_length_one (t : List Word) (h : (t.map (fun r => r.str)).Nodup)
    (w : List Nat) (hex : ∃ r ∈ t, r.str = w) :
    (t.filter (fun r => decide (r.str = w))).length = 1 := by
  induction t with
  | nil => obtain ⟨r, hr, -⟩ := hex; cases hr
  | cons q qs ih =>
    simp only [List.map_cons, List.nodup_cons, List.mem_map, not_exists, not_and] at h
    by_cases hq : q.str = w
    · have hnil : qs.filter (fun r => decide (r.str = w)) = [] := by
        rw [List.filter_eq_nil_iff]
        intro r hr
        simpa using fun e => h.1 r hr (e.trans hq.symm)
      rw [List.filter_cons_of_pos (by simpa using hq), hnil]
      rfl
    · rw [List.filter_cons_of_neg (by simpa using hq)]
      apply ih h.2
      obtain ⟨r, hr, e⟩ := hex
      rcases List.mem_cons.mp hr with rfl | hr2
      · exact absurd e hq
      · exact ⟨r, hr2, e⟩

theorem count_accepted (ws : List (List Nat)) (x : List Nat) (hx : strlen x ≤ 31) :
    (accepted ws).count x = ws.count x := by
  unfold accepted
  exact List.count_filter (by simpa using hx)

/-- The lines of the report and the records left out of it: together they
are the records of the table, the texts are distinct, and no record left out
has a larger count than a printed one. -/
theorem sorted_split (qsort : (Node → Node → Int) → List Node → List Node)
    (hq : IsQsort qsort) (m : Mem) (hwf : WF m) (k : Nat) :
    (((qsort compare m.heap).take k).map (fun nd => nd.wrd)).Pairwise
        (fun a b => b.freq ≤ a.freq) ∧
      (((qsort compare m.heap).take k).map (fun nd => nd.wrd)).length = min k m.sortIndex ∧
      ((((qsort compare m.heap).take k).map (fun nd => nd.wrd)) ++
        (((qsort compare m.heap).drop k).map (fun nd => nd.wrd))).Perm (tableRecords m) ∧
      (((((qsort compare m.heap).take k).map (fun nd => nd.wrd)) ++
        (((qsort compare m.heap).drop k).map (fun nd => nd.wrd))).map (fun r => r.str)).Nodup ∧
      (∀ r ∈ ((qsort compare m.heap).drop k).map (fun nd => nd.wrd),
        ∀ l ∈ ((qsort compare m.heap).take k).map (fun nd => nd.wrd), r.freq ≤ l.freq) := by
  obtain ⟨hperm, hsorted⟩ := hq m.heap
  have hsorted2 : (qsort compare m.heap).Pairwise (fun a b => b.wrd.freq ≤ a.wrd.freq) :=
    hsorted.imp (fun {a b} h => by simp only [compare] at h; omega)
  have hall : (((qsort compare m.heap).take k).map (fun nd => nd.wrd)) ++
      (((qsort compare m.heap).drop k).map (fun nd => nd.wrd)) =
      (qsort compare m.heap).map (fun nd => nd.wrd) := by
    rw [← List.map_append, List.take_append_drop]
  have hperm2 : ((qsort compare m.heap).map (fun nd => nd.wrd)).Perm (tableRecords m) :=
    (hperm.map _).trans hwf.tableRecords_perm.symm
  refine ⟨?_, ?_, hall ▸ hperm2, ?_, ?_⟩
  · rw [List.pairwise_map]
    exact hsorted2.sublist (List.take_sublist _ _)
  · rw [List.length_map, List.length_take, hperm.length_eq, hwf.index_eq]
  · rw [hall, List.map_map]
    exact ((hperm.map _).nodup_iff).mpr hwf.nodup
  · intro r hr l hl
    obtain ⟨b, hb, rfl⟩ := List.mem_map.mp hr
    obtain ⟨a, ha, rfl⟩ := List.mem_map.mp hl
    have h2 : ((qsort compare m.heap).take k ++ (qsort compare m.heap).drop k).Pairwise
        (fun a b => b.wrd.freq ≤ a.wrd.freq) := by
      rw [List.take_append_drop]; exact hsorted2
    exact (List.pairwise_append.mp h2).2.2 a ha b hb

/-- A list of three records with the counts 3, 2, 1 has one sorted
rearrangement. -/
theorem sorted_three (x y z : Word) (l : List Word)
    (hx : x.freq = 3) (hy : y.freq = 2) (hz : z.freq = 1)
    (hp : l.Perm [x, y, z]) (hs : l.Pairwise (fun a b => b.freq ≤ a.freq)) : l = [x, y, z] := by
  have hlen := hp.length_eq
  match l, hlen with
  | [a, b, c], _ =>
    have ha : a ∈ [x, y, z] := hp.subset (by simp)
    have hb : b ∈ [x, y, z] := hp.subset (by simp)
    have hc : c ∈ [x, y, z] := hp.subset (by simp)
    have hnd : [a, b, c].Nodup := hp.nodup_iff.mpr (by
      simp only [List.nodup_cons, List.mem_cons, List.mem_singleton, List.not_mem_nil,
        not_false_eq_true, List.nodup_nil, and_true, not_or]
      refine ⟨⟨?_, ?_⟩, ?_⟩ <;> intro e <;> subst e <;> omega)
    simp only [List.pairwise_cons, List.mem_cons, List.mem_singleton, List.not_mem_nil,
      forall_eq_or_imp, forall_eq, false_implies, implies_true, List.Pairwise.nil, and_true] at hs
    simp only [List.nodup_cons, List.mem_cons, List.mem_singleton, List.not_mem_nil,
      not_false_eq_true, List.nodup_nil, and_true, not_or] at hnd
    simp only [List.mem_cons, List.mem_singleton, List.not_mem_nil, or_false] at ha hb hc
    obtain ⟨⟨hab, hac⟩, hbc⟩ := hnd
    obtain ⟨⟨h1, h2⟩, h3⟩ := hs
    rcases ha with rfl | rfl | rfl <;> rcases hb with rfl | rfl | rfl <;>
      rcases hc with rfl | rfl | rfl <;>
      first
        | rfl
        | exact absurd rfl hab
        | exact absurd rfl hac
        | exact absurd rfl hbc
        | omega

theorem unique_count_eq (text : List Nat) (n : Int) (m : Mem)
    (h : readFile (some text) initMem = .ret (n, m)) :
    m.sortIndex = (distinctWords text).length := by
  obtain ⟨-, hwf, -, hrec⟩ := readFile_ret text n m h
  rw [hwf.index_eq, ← countWords_length, ← hrec, List.length_map]

/-! ### The tokenizer -/

theorem splitOn_eq : splitOn =
    [32, 96, 63, 33, 39, 34, 59, 44, 46, 58, 43, 45, 42, 38, 37, 40, 41, 123, 125, 91, 93, 60, 62,
      92, 9, 10] := by
  decide

theorem isDelim_eq (c : Nat) : isDelim c = decide (c ∈ splitOn) := rfl

/-- The head of the string found by skipping delimiters is not a delimiter. -/
theorem dropWhile_head_not (p : Nat → Bool) (s : List Nat) (c : Nat) (r : List Nat)
    (h : s.dropWhile p = c :: r) : p c = false := by
  induction s with
  | nil => simp at h
  | cons a s ih =>
    by_cases ha : p a = true
    · rw [List.dropWhile_cons_of_pos ha] at h
      exact ih h
    · rw [List.dropWhile_cons_of_neg ha] at h
      cases h
      simpa using ha

theorem maximalRuns_nil : maximalRuns [] = [] := rfl

theorem maximalRuns_cons_delim (c : Nat) (s : List Nat) (h : isDelim c = true) :
    maximalRuns (c :: s) = maximalRuns s := by
  simp [maximalRuns, h]

theorem maximalRuns_dropWhile (s : List Nat) :
    maximalRuns (s.dropWhile isDelim) = maximalRuns s := by
  induction s with
  | nil => rfl
  | cons a s ih =>
    by_cases ha : isDelim a = true
    · rw [List.dropWhile_cons_of_pos ha, ih, maximalRuns_cons_delim a s ha]
    · rw [List.dropWhile_cons_of_neg ha]

/-- A string that starts with a character that is no delimiter: its first run
is the longest prefix without delimiters, the other runs are those of the
string behind the delimiter that ends it. -/
theorem maximalRuns_cons_run (c : Nat) (s : List Nat) (h : isDelim c = false) :
    maximalRuns (c :: s) =
      (c :: s).takeWhile (fun x => !isDelim x) ::
        maximalRuns (((c :: s).dropWhile (fun x => !isDelim x)).drop 1) := by
  have hsplit := List.takeWhile_append_dropWhile (fun x => !isDelim x) (c :: s)
  have hno : ∀ x ∈ (c :: s).takeWhile (fun x => !isDelim x), ¬ isDelim x = true := by
    intro x hx
    have := List.mem_takeWhile_imp hx
    simpa using this
  have hne : (c :: s).takeWhile (fun x => !isDelim x) ≠ [] := by
    rw [List.takeWhile_cons_of_pos (by simp [h])]
    exact List.cons_ne_nil _ _
  cases hd : (c :: s).dropWhile (fun x => !isDelim x) with
  | nil =>
    rw [hd, List.append_nil] at hsplit
    have hall : ∀ x ∈ c :: s, ¬ isDelim x = true := by
      rw [← hsplit]; exact hno
    rw [hsplit]
    simp only [maximalRuns, List.splitOnP_eq_single isDelim (c :: s) hall, List.drop_nil,
      List.splitOnP_nil]
    simp
  | cons sep r =>
    have hsep : isDelim sep = true := by
      have := dropWhile_head_not (fun x => !isDelim x) (c :: s) sep r hd
      simpa using this
    rw [hd] at hsplit
    conv_lhs => rw [← hsplit]
    simp only [maximalRuns, List.splitOnP_first isDelim _ hno sep hsep r, List.drop_succ_cons,
      List.drop_zero]
    rw [List.filter_cons_of_pos]
    cases hh : (c :: s).takeWhile (fun x => !isDelim x) with
    | nil => exact absurd hh hne
    | cons a l => rfl

/-- One step of `strtok` against the maximal runs. -/
theorem strtok_maximalRuns (s : List Nat) :
    (strtok s splitOn = none → maximalRuns s = []) ∧
    (∀ tok rest, strtok s splitOn = some (tok, rest) →
      maximalRuns s = tok :: maximalRuns rest) := by
  have hd2 : s.dropWhile (fun c => decide (c ∈ splitOn)) = s.dropWhile isDelim := rfl
  constructor
  · intro h
    unfold strtok at h
    split at h
    · rename_i hd
      rw [← maximalRuns_dropWhile, ← hd2, hd]
      rfl
    · cases h
  · intro tok rest h
    unfold strtok at h
    split at h
    · cases h
    · rename_i c r hd
      simp only [Option.some.injEq, Prod.mk.injEq] at h
      obtain ⟨h1, h2⟩ := h
      have hc : isDelim c = false := dropWhile_head_not _ s c r hd
      rw [← maximalRuns_dropWhile, ← hd2, hd, maximalRuns_cons_run c r hc, ← h1, ← h2]
      rfl

/-- The tokens `strtok` returns are not empty and hold no delimiter. -/
theorem strtok_token (s tok rest : List Nat) (h : strtok s splitOn = some (tok, rest)) :
    tok ≠ [] ∧ ∀ x ∈ tok, x ∉ splitOn := by
  unfold strtok at h
  split at h
  · cases h
  · rename_i c r hd
    simp only [Option.some.injEq, Prod.mk.injEq] at h
    obtain ⟨h1, -⟩ := h
    have hc : decide (c ∈ splitOn) = false := dropWhile_head_not _ s c r hd
    constructor
    · rw [← h1, List.takeWhile_cons_of_pos (by simp [hc])]
      exact List.cons_ne_nil _ _
    · intro x hx
      rw [← h1] at hx
      have := List.mem_takeWhile_imp hx
      simpa using this

/-- The `for` loop of `readFile` meets exactly the maximal runs of the line. -/
theorem lineTokens_eq (fuel : Nat) (s : List Nat) (h : s.length < fuel) :
    lineTokens fuel s = maximalRuns s := by
  induction fuel generalizing s with
  | zero => omega
  | succ fuel ih =>
    simp only [lineTokens]
    cases hs : strtok s splitOn with
    | none => exact ((strtok_maximalRuns s).1 hs).symm
    | some p =>
      obtain ⟨tok, rest⟩ := p
      have hl := strtok_length hs
      simp only []
      rw [(strtok_maximalRuns s).2 tok rest hs, ih rest (by omega)]

theorem maximalRuns_token (s : List Nat) :
    ∀ t ∈ maximalRuns s, t ≠ [] ∧ ∀ x ∈ t, x ∉ splitOn := by
  generalize hn : s.length = n
  induction n using Nat.strong_induction_on generalizing s with
  | _ n ih =>
    cases hs : strtok s splitOn with
    | none =>
      rw [(strtok_maximalRuns s).1 hs]
      intro t ht
      cases ht
    | some p =>
      obtain ⟨tok, rest⟩ := p
      rw [(strtok_maximalRuns s).2 tok rest hs]
      intro t ht
      rcases List.mem_cons.mp ht with rfl | ht2
      · exact strtok_token s t rest hs
      · exact ih rest.length (by have := strtok_length hs; omega) rest rfl t ht2

/-! ### Lowering a text -/

theorem tolower_eq_zero (c : Nat) : tolower c = 0 ↔ c = 0 := by
  unfold tolower
  split <;> omega

theorem tolower_eq_newline (c : Nat) : tolower c = 10 ↔ c = 10 := by
  unfold tolower
  split <;> omega

theorem tolower_not_upper (c : Nat) : ¬ (65 ≤ tolower c ∧ tolower c ≤ 90) := by
  unfold tolower
  split <;> omega

theorem tolower_of_not_upper (c : Nat) (h : ¬ (65 ≤ c ∧ c ≤ 90)) : tolower c = c := by
  unfold tolower
  rw [if_neg h]

theorem tolower_idem (c : Nat) : tolower (tolower c) = tolower c :=
  tolower_of_not_upper _ (tolower_not_upper c)

theorem fgetsAux_nil (k : Nat) : fgetsAux k [] = ([], []) := by
  cases k <;> rfl

/-- Lowering does not turn a character into a delimiter or a delimiter into
another character. -/
theorem tolower_mem_splitOn (c : Nat) : tolower c ∈ splitOn ↔ c ∈ splitOn := by
  rw [splitOn_eq]
  simp only [List.mem_cons, List.mem_singleton, List.not_mem_nil, or_false]
  unfold tolower
  split <;> omega

theorem map_tolower_idem (l : List Nat) : (l.map tolower).map tolower = l.map tolower := by
  rw [List.map_map]
  apply List.map_congr_left
  intro c _
  exact tolower_idem c

theorem cstr_map_tolower (buf : List Nat) : cstr (buf.map tolower) = (cstr buf).map tolower := by
  have hz : ((fun c : Nat => c != 0) ∘ tolower) = (fun c : Nat => c != 0) := by
    funext c
    show (tolower c != 0) = (c != 0)
    by_cases h : c = 0
    · subst h; rfl
    · have h2 : tolower c ≠ 0 := fun e => h ((tolower_eq_zero c).mp e)
      have e1 : (tolower c != 0) = true := by simpa using h2
      have e2 : (c != 0) = true := by simpa using h
      rw [e1, e2]
  unfold cstr
  rw [List.takeWhile_map, hz]

theorem strtok_map_tolower (s : List Nat) :
    strtok (s.map tolower) splitOn =
      (strtok s splitOn).map (fun p => (p.1.map tolower, p.2.map tolower)) := by
  have hd : ((fun c => decide (c ∈ splitOn)) ∘ tolower) = (fun c => decide (c ∈ splitOn)) := by
    funext c
    exact decide_eq_decide.mpr (tolower_mem_splitOn c)
  have hn : ((fun c => !decide (c ∈ splitOn)) ∘ tolower) = (fun c => !decide (c ∈ splitOn)) := by
    funext c
    simp only [Function.comp]
    rw [decide_eq_decide.mpr (tolower_mem_splitOn c)]
  unfold strtok
  rw [List.dropWhile_map, hd]
  cases hs : s.dropWhile (fun c => decide (c ∈ splitOn)) with
  | nil => rfl
  | cons c r =>
    simp only [List.map_cons, Option.map_some']
    rw [← List.map_cons, List.takeWhile_map, List.dropWhile_map, hn, List.map_drop]

theorem lineTokens_map_tolower (fuel : Nat) (s : List Nat) :
    lineTokens fuel (s.map tolower) = (lineTokens fuel s).map (List.map tolower) := by
  induction fuel generalizing s with
  | zero => rfl
  | succ fuel ih =>
    simp only [lineTokens, strtok_map_tolower]
    cases strtok s splitOn with
    | none => rfl
    | some p => simp [ih]

theorem fgetsAux_map_tolower (k : Nat) (s : List Nat) :
    fgetsAux k (s.map tolower) =
      ((fgetsAux k s).1.map tolower, (fgetsAux k s).2.map tolower) := by
  induction k generalizing s with
  | zero => rfl
  | succ k ih =>
    cases s with
    | nil => rfl
    | cons c s =>
      simp only [List.map_cons, fgetsAux, tolower_eq_newline]
      by_cases hc : c = 10
      · simp [hc]
      · simp [hc, ih]

theorem fileTokens_map_tolower (fuel : Nat) (s : List Nat) :
    fileTokens fuel (s.map tolower) = (fileTokens fuel s).map (List.map tolower) := by
  induction fuel generalizing s with
  | zero => rfl
  | succ fuel ih =>
    cases s with
    | nil => rfl
    | cons c s =>
      simp only [fileTokens, fgets, List.map_cons]
      rw [← List.map_cons, fgetsAux_map_tolower]
      simp only [List.length_map, cstr_map_tolower, lineTokens_map_tolower, ih, List.map_append]

/-- The words handed to `insertWord` do not change when the text is lowered. -/
theorem tokens_map_tolower (text : List Nat) : tokens (text.map tolower) = tokens text := by
  unfold tokens rawTokens
  rw [List.length_map, fileTokens_map_tolower, List.map_map]
  apply List.map_congr_left
  intro t _
  exact map_tolower_idem t

theorem maximalRuns_map_tolower (s : List Nat) :
    maximalRuns (s.map tolower) = (maximalRuns s).map (List.map tolower) := by
  rw [← lineTokens_eq (s.length + 1) (s.map tolower) (by simp),
    ← lineTokens_eq (s.length + 1) s (by simp)]
  exact lineTokens_map_tolower _ s

/-- Splitting at the delimiters goes through a delimiter of the string. -/
theorem splitOnP_append_delim (l1 l2 : List Nat) (d : Nat) (hd : isDelim d = true) :
    (l1 ++ d :: l2).splitOnP isDelim = l1.splitOnP isDelim ++ l2.splitOnP isDelim := by
  induction l1 with
  | nil => simp [hd]
  | cons c l1 ih =>
    rw [List.cons_append, List.splitOnP_cons, List.splitOnP_cons, ih]
    by_cases hc : isDelim c = true
    · simp [hc]
    · simp only [hc, if_false]
      cases hs : l1.splitOnP isDelim with
      | nil => exact absurd hs (List.splitOnP_ne_nil _ _)
      | cons a r => rfl

theorem maximalRuns_append_delim (l1 l2 : List Nat) (d : Nat) (hd : isDelim d = true) :
    maximalRuns (l1 ++ d :: l2) = maximalRuns l1 ++ maximalRuns l2 := by
  simp only [maximalRuns, splitOnP_append_delim l1 l2 d hd, List.filter_append]

theorem isDelim_newline : isDelim 10 = true := by decide

/-- When the text left fits the buffer, `fgets` stops at the end of the text
or behind a newline. -/
theorem fgetsAux_short (k : Nat) (s : List Nat) (hlen : s.length ≤ k) :
    (fgetsAux k s).2 = [] ∨ ∃ l0, (fgetsAux k s).1 = l0 ++ [10] := by
  induction s generalizing k with
  | nil => left; rw [fgetsAux_nil]
  | cons c s ih =>
    cases k with
    | zero => simp at hlen
    | succ k =>
      by_cases hc : c = 10
      · right
        exact ⟨[], by simp [fgetsAux, hc]⟩
      · simp only [fgetsAux, hc, if_false]
        rcases ih k (by simpa using hlen) with h | ⟨l0, h⟩
        · left; exact h
        · right; exact ⟨c :: l0, by rw [h]; rfl⟩

/-- On a text without NUL that fits the line buffer, the tokens of all the
lines are the maximal runs of the text. -/
theorem fileTokens_short (fuel : Nat) (text : List Nat) (hf : text.length < fuel)
    (hlen : text.length ≤ MAX_LINE_SIZE - 1) (hnul : 0 ∉ text) :
    fileTokens fuel text = maximalRuns text := by
  induction fuel generalizing text with
  | zero => omega
  | succ fuel ih =>
    cases text with
    | nil => rfl
    | cons c s =>
      have hg : fgets MAX_LINE_SIZE (c :: s) = some (fgetsAux (MAX_LINE_SIZE - 1) (c :: s)) := rfl
      have hshort := fgetsAux_short (MAX_LINE_SIZE - 1) (c :: s) hlen
      generalize fgetsAux (MAX_LINE_SIZE - 1) (c :: s) = p at hg hshort
      obtain ⟨line, rest⟩ := p
      obtain ⟨hrl, happ⟩ := fgets_length hg
      simp only at hshort
      have hline : 0 ∉ line := by
        intro h0
        apply hnul
        rw [← happ]
        exact List.mem_append_left _ h0
      have hrest : 0 ∉ rest := by
        intro h0
        apply hnul
        rw [← happ]
        exact List.mem_append_right _ h0
      have hc : cstr line = line := by
        unfold cstr
        rw [List.takeWhile_eq_self_iff]
        intro x hx
        have : x ≠ 0 := fun e => hline (e ▸ hx)
        simpa using this
      simp only [fileTokens, hg, hc]
      rw [lineTokens_eq _ _ (Nat.lt_succ_self _), ih rest (by omega) (by omega) hrest]
      rcases hshort with h | ⟨l0, h⟩
      · subst h
        rw [maximalRuns_nil, List.append_nil]
        rw [List.append_nil] at happ
        rw [happ]
      · subst h
        rw [← happ, List.append_assoc, List.singleton_append,
          maximalRuns_append_delim l0 rest 10 isDelim_newline]
        have h2 := maximalRuns_append_delim l0 [] 10 isDelim_newline
        rw [maximalRuns_nil, List.append_nil] at h2
        rw [h2]

theorem rawTokens_line (line : List Nat) (hlen : line.length ≤ MAX_LINE_SIZE - 1)
    (hnul : 0 ∉ line) : rawTokens line = maximalRuns line :=
  fileTokens_short _ line (Nat.lt_succ_self _) hlen hnul

/-! ### Texts whose lines fit the buffer -/

/-- On a text whose lines fit, `fgets` stops at the end of the text or behind
a newline, and the lines of the rest fit. -/
theorem fgetsAux_fit (k : Nat) (s : List Nat) (h : linesFit k s = true) :
    ((fgetsAux k s).2 = [] ∨ ∃ l0, (fgetsAux k s).1 = l0 ++ [10]) ∧
      linesFit (MAX_LINE_SIZE - 1) (fgetsAux k s).2 = true := by
  induction s generalizing k with
  | nil => rw [fgetsAux_nil]; exact ⟨Or.inl rfl, rfl⟩
  | cons c s ih =>
    cases k with
    | zero => simp [linesFit] at h
    | succ k =>
      by_cases hc : c = 10
      · simp only [linesFit, hc, if_true] at h
        simp only [fgetsAux, hc, if_true]
        exact ⟨Or.inr ⟨[], rfl⟩, h⟩
      · simp only [linesFit, hc, if_false] at h
        simp only [fgetsAux, hc, if_false]
        obtain ⟨h1, h2⟩ := ih k h
        refine ⟨?_, h2⟩
        rcases h1 with h1 | ⟨l0, h1⟩
        · exact Or.inl h1
        · exact Or.inr ⟨c :: l0, by rw [h1]; rfl⟩

/-- On a text without NUL whose lines fit the line buffer, the tokens of all
the lines are the maximal runs of the text. -/
theorem fileTokens_fit (fuel : Nat) (text : List Nat) (hf : text.length < fuel)
    (hfit : linesFit (MAX_LINE_SIZE - 1) text = true) (hnul : 0 ∉ text) :
    fileTokens fuel text = maximalRuns text := by
  induction fuel generalizing text with
  | zero => omega
  | succ fuel ih =>
    cases text with
    | nil => rfl
    | cons c s =>
      have hg : fgets MAX_LINE_SIZE (c :: s) = some (fgetsAux (MAX_LINE_SIZE - 1) (c :: s)) := rfl
      have hshort := fgetsAux_fit (MAX_LINE_SIZE - 1) (c :: s) hfit
      generalize fgetsAux (MAX_LINE_SIZE - 1) (c :: s) = p at hg hshort
      obtain ⟨line, rest⟩ := p
      obtain ⟨hrl, happ⟩ := fgets_length hg
      simp only at hshort
      obtain ⟨hshort, hfit2⟩ := hshort
      have hline : 0 ∉ line := by
        intro h0
        apply hnul
        rw [← happ]
        exact List.mem_append_left _ h0
      have hrest : 0 ∉ rest := by
        intro h0
        apply hnul
        rw [← happ]
        exact List.mem_append_right _ h0
      have hc : cstr line = line := by
        unfold cstr
        rw [List.takeWhile_eq_self_iff]
        intro x hx
        have : x ≠ 0 := fun e => hline (e ▸ hx)
        simpa using this
      simp only [fileTokens, hg, hc]
      rw [lineTokens_eq _ _ (Nat.lt_succ_self _), ih rest (by omega) hfit2 hrest]
      rcases hshort with h | ⟨l0, h⟩
      · subst h
        rw [maximalRuns_nil, List.append_nil]
        rw [List.append_nil] at happ
        rw [happ]
      · subst h
        rw [← happ, List.append_assoc, List.singleton_append,
          maximalRuns_append_delim l0 rest 10 isDelim_newline]
        have h2 := maximalRuns_append_delim l0 [] 10 isDelim_newline
        rw [maximalRuns_nil, List.append_nil] at h2
        rw [h2]

/-! ### The family of distinct words -/

theorem isDelim_lower (c : Nat) (h1 : 97 ≤ c) (h2 : c ≤ 122) : isDelim c = false := by
  rw [isDelim_eq, splitOn_eq]
  simp only [List.mem_cons, List.mem_singleton, List.not_mem_nil, or_false, decide_eq_false_iff_not]
  omega

theorem sampleWord_inj (i j : Nat) (hi : i < 17576) (hj : j < 17576)
    (h : sampleWord i = sampleWord j) : i = j := by
  simp only [sampleWord, List.cons.injEq, and_true] at h
  omega

theorem sampleWord_chars (i : Nat) (hi : i < 17576) :
    ∀ c ∈ sampleWord i, 97 ≤ c ∧ c ≤ 122 := by
  intro c hc
  simp only [sampleWord, List.mem_cons, List.mem_singleton, List.not_mem_nil, or_false] at hc
  omega

theorem sampleWord_runs (i : Nat) (hi : i < 17576) : maximalRuns (sampleWord i) = [sampleWord i] := by
  have h : ∀ x ∈ sampleWord i, ¬ isDelim x = true := by
    intro x hx
    obtain ⟨h1, h2⟩ := sampleWord_chars i hi x hx
    rw [isDelim_lower x h1 h2]
    simp
  simp only [maximalRuns, List.splitOnP_eq_single isDelim _ h]
  rfl

theorem sampleWord_lower (i : Nat) (hi : i < 17576) : (sampleWord i).map tolower = sampleWord i := by
  conv_rhs => rw [← List.map_id (sampleWord i)]
  apply List.map_congr_left
  intro c hc
  obtain ⟨h1, h2⟩ := sampleWord_chars i hi c hc
  exact tolower_of_not_upper c (by omega)

/-- The text with one word of the family on each line: its lines fit, it has
no NUL and its maximal runs are the words. -/
theorem sampleLines_spec (l : List Nat) (hl : ∀ i ∈ l, i < 17576) :
    linesFit (MAX_LINE_SIZE - 1) (l.flatMap (fun i => sampleWord i ++ [10])) = true ∧
      0 ∉ l.flatMap (fun i => sampleWord i ++ [10]) ∧
      maximalRuns (l.flatMap (fun i => sampleWord i ++ [10])) = l.map sampleWord := by
  induction l with
  | nil => exact ⟨rfl, by simp, rfl⟩
  | cons i l ih =>
    have hi := hl i (List.mem_cons_self _ _)
    obtain ⟨h1, h2, h3⟩ := ih (fun j hj => hl j (List.mem_cons_of_mem _ hj))
    have hch := sampleWord_chars i hi
    refine ⟨?_, ?_, ?_⟩
    · simp only [List.flatMap_cons]
      have e1 : ¬ (97 + i % 26 = 10) := by omega
      have e2 : ¬ (97 + i / 26 % 26 = 10) := by omega
      have e3 : ¬ (97 + i / 676 = 10) := by omega
      simp only [sampleWord, List.cons_append, List.nil_append, linesFit, e1, e2, e3, if_false,
        if_true]
      exact h1
    · simp only [List.flatMap_cons, List.mem_append, List.mem_singleton, not_or]
      refine ⟨⟨?_, by decide⟩, h2⟩
      intro h0
      have := hch 0 h0
      omega
    · simp only [List.flatMap_cons, List.append_assoc, List.singleton_append, List.map_cons]
      rw [maximalRuns_append_delim _ _ 10 isDelim_newline, sampleWord_runs i hi, h3]
      rfl

/-- The words handed to `insertWord` on the text with `n` words of the
family are these words, all accepted and distinct. -/
theorem sampleText_tokens (n : Nat) (hn : n ≤ 17576) :
    tokens (sampleText n) = (List.range n).map sampleWord ∧
      accepted (tokens (sampleText n)) = (List.range n).map sampleWord ∧
      (distinctWords (sampleText n)).length = n ∧
      ((List.range n).map sampleWord).Nodup := by
  have hl : ∀ i ∈ List.range n, i < 17576 := fun i hi => by
    have := List.mem_range.mp hi
    omega
  obtain ⟨h1, h2, h3⟩ := sampleLines_spec (List.range n) hl
  have htok : tokens (sampleText n) = (List.range n).map sampleWord := by
    unfold tokens rawTokens sampleText
    rw [fileTokens_fit _ _ (Nat.lt_succ_self _) h1 h2, h3, List.map_map]
    apply List.map_congr_left
    intro i hi
    exact sampleWord_lower i (hl i hi)
  have hacc : accepted (tokens (sampleText n)) = (List.range n).map sampleWord := by
    rw [htok]
    unfold accepted
    rw [List.filter_eq_self]
    intro w hw
    obtain ⟨i, -, rfl⟩ := List.mem_map.mp hw
    simp [strlen, sampleWord]
  have hnd : ((List.range n).map sampleWord).Nodup := by
    apply List.Nodup.map_on _ (List.nodup_range n)
    intro i hi j hj e
    exact sampleWord_inj i j (hl i hi) (hl j hj) e
  refine ⟨htok, hacc, ?_, hnd⟩
  unfold distinctWords
  rw [hacc, hnd.dedup, List.length_map, List.length_range]

/-- The text with one word of the family on each line, followed by a text
`rest` without NUL whose lines fit: its lines fit, it has no NUL and its
maximal runs are the words, followed by the runs of `rest`. -/
theorem sampleLines_append (l : List Nat) (hl : ∀ i ∈ l, i < 17576) (rest : List Nat)
    (hfit : linesFit (MAX_LINE_SIZE - 1) rest = true) (hnul : 0 ∉ rest) :
    linesFit (MAX_LINE_SIZE - 1) (l.flatMap (fun i => sampleWord i ++ [10]) ++ rest) = true ∧
      0 ∉ l.flatMap (fun i => sampleWord i ++ [10]) ++ rest ∧
      maximalRuns (l.flatMap (fun i => sampleWord i ++ [10]) ++ rest) =
        l.map sampleWord ++ maximalRuns rest := by
  induction l with
  | nil => exact ⟨hfit, hnul, rfl⟩
  | cons i l ih =>
    have hi := hl i (List.mem_cons_self _ _)
    obtain ⟨h1, h2, h3⟩ := ih (fun j hj => hl j (List.mem_cons_of_mem _ hj))
    have hch := sampleWord_chars i hi
    refine ⟨?_, ?_, ?_⟩
    · simp only [List.flatMap_cons, List.append_assoc]
      have e1 : ¬ (97 + i % 26 = 10) := by omega
      have e2 : ¬ (97 + i / 26 % 26 = 10) := by omega
      have e3 : ¬ (97 + i / 676 = 10) := by omega
      simp only [sampleWord, List.cons_append, List.nil_append, linesFit, e1, e2, e3, if_false,
        if_true]
      exact h1
    · simp only [List.flatMap_cons, List.append_assoc, List.mem_append, List.mem_singleton,
        not_or]
      simp only [List.mem_append, not_or] at h2
      refine ⟨?_, by decide, h2.1, h2.2⟩
      intro h0
      have := hch 0 h0
      omega
    · simp only [List.flatMap_cons, List.append_assoc, List.singleton_append, List.map_cons,
        List.cons_append]
      rw [maximalRuns_append_delim _ _ 10 isDelim_newline, sampleWord_runs i hi,
        List.nil_append, h3]
      rfl

/-- The words handed to `insertWord` on the text with `n` words of the family
followed by a last line `rest`: they are the words of the family and the
lowered runs of `rest`. -/
theorem sampleText_append_tokens (n : Nat) (hn : n ≤ 17576) (rest : List Nat)
    (hfit : linesFit (MAX_LINE_SIZE - 1) rest = true) (hnul : 0 ∉ rest) :
    tokens (sampleText n ++ rest) =
      tokens (sampleText n) ++ (maximalRuns rest).map (List.map tolower) := by
  have hl : ∀ i ∈ List.range n, i < 17576 := fun i hi => by
    have := List.mem_range.mp hi
    omega
  obtain ⟨h1, h2, h3⟩ := sampleLines_append (List.range n) hl rest hfit hnul
  rw [(sampleText_tokens n hn).1]
  unfold tokens rawTokens sampleText
  rw [fileTokens_fit _ _ (Nat.lt_succ_self _) h1 h2, h3, List.map_append, List.map_map]
  congr 1
  apply List.map_congr_left
  intro i hi
  exact sampleWord_lower i (hl i hi)

/-! ### The memory at the capacity bound -/

theorem absent_iff_tableRecords {m : Mem} (hwf : WF m) (w : List Nat) :
    (∀ nd ∈ m.heap, nd.wrd.str ≠ w) ↔ ∀ r ∈ tableRecords m, r.str ≠ w := by
  constructor
  · intro h r hr e
    obtain ⟨nd, hnd, e2⟩ := (mem_tableRecords_iff hwf w).mp ⟨r, hr, e⟩
    exact h nd hnd e2
  · intro h nd hnd e
    obtain ⟨r, hr, e2⟩ := (mem_tableRecords_iff hwf w).mpr ⟨nd, hnd, e⟩
    exact h r hr e2

/-- The keys of the words of the family are indices of the table. -/
theorem sampleWord_validKey (i : Nat) (hi : i < 17576) : validKey (sampleWord i) = true := by
  have hlen : strlen (sampleWord i) ≤ 31 := show 3 ≤ 31 by decide
  apply validKey_of_ascii _ hlen
  intro c hc
  have := sampleWord_chars i hi c hc
  omega

/-- The run of `readFile` on the text with `n` words of the family meets the
conditions of `readFile_spec`. -/
theorem sampleText_valid (n : Nat) (hn : n ≤ 17576) :
    (∀ w ∈ tokens (sampleText n), strlen w ≤ 31 → validKey w = true) ∧
      ((tokens (sampleText n)).length : Int) ≤ INT_MAX := by
  obtain ⟨htok, -⟩ := sampleText_tokens n hn
  rw [htok]
  constructor
  · intro w hw _
    obtain ⟨i, hi, rfl⟩ := List.mem_map.mp hw
    have := List.mem_range.mp hi
    exact sampleWord_validKey i (by omega)
  · rw [List.length_map, List.length_range]
    simp only [INT_MAX]
    omega

/-- The memory reached on the text with 4998 words of the family: `readFile`
returns, `sortIndex` is 4998, the texts of the records are words of the
family, and no record has the text of word 4998. -/
theorem sampleText_at_cap :
    ∃ m, readFile (some (sampleText 4998)) initMem = .ret (4998, m) ∧ WF m ∧
      m.sortIndex = 4998 ∧ (∀ nd ∈ m.heap, ∃ i, nd.wrd.str = sampleWord i) ∧
      ∀ nd ∈ m.heap, nd.wrd.str ≠ sampleWord 4998 := by
  obtain ⟨htok, hacc, hdist, -⟩ := sampleText_tokens 4998 (by omega)
  obtain ⟨hv, hsz⟩ := sampleText_valid 4998 (by omega)
  obtain ⟨m, hm, hwf, -, hrec⟩ :=
    (readFile_spec (sampleText 4998) hv hsz).1 (by rw [hdist]; decide)
  have hlen : (tokens (sampleText 4998)).length = 4998 := by
    rw [htok, List.length_map, List.length_range]
  rw [hlen] at hm
  refine ⟨m, hm, hwf, ?_, ?_, ?_⟩
  · rw [unique_count_eq _ _ m hm, hdist]
  · intro nd hnd
    have h1 : nd.wrd ∈ countWords (accepted (tokens (sampleText 4998))) := by
      rw [← hrec]; exact List.mem_map.mpr ⟨nd, hnd, rfl⟩
    have h2 : nd.wrd.str ∈ accepted (tokens (sampleText 4998)) :=
      ((countWords_spec _).2.1 _).mp (List.mem_map.mpr ⟨nd.wrd, h1, rfl⟩)
    rw [hacc] at h2
    obtain ⟨i, -, e2⟩ := List.mem_map.mp h2
    exact ⟨i, e2.symm⟩
  · intro nd hnd e
    have h1 : nd.wrd ∈ countWords (accepted (tokens (sampleText 4998))) := by
      rw [← hrec]; exact List.mem_map.mpr ⟨nd, hnd, rfl⟩
    have h2 : nd.wrd.str ∈ accepted (tokens (sampleText 4998)) :=
      ((countWords_spec _).2.1 _).mp (List.mem_map.mpr ⟨nd.wrd, h1, rfl⟩)
    rw [hacc, e] at h2
    obtain ⟨i, hi, e2⟩ := List.mem_map.mp h2
    have hi2 := List.mem_range.mp hi
    have := sampleWord_inj i 4998 (by omega) (by omega) e2
    omega

/-! ### Texts of delimiters -/

theorem lineTokens_delims (fuel : Nat) (s : List Nat) (h : ∀ c ∈ s, c ∈ splitOn) :
    lineTokens fuel s = [] := by
  cases fuel with
  | zero => rfl
  | succ fuel =>
    have hd : s.dropWhile (fun c => decide (c ∈ splitOn)) = [] := by
      rw [List.dropWhile_eq_nil_iff]
      intro x hx
      simpa using h x hx
    simp [lineTokens, strtok, hd]

/-- A text of delimiters has no token. -/
theorem fileTokens_delims (fuel : Nat) (text : List Nat) (h : ∀ c ∈ text, c ∈ splitOn) :
    fileTokens fuel text = [] := by
  induction fuel generalizing text with
  | zero => rfl
  | succ fuel ih =>
    simp only [fileTokens]
    cases hg : fgets MAX_LINE_SIZE text with
    | none => rfl
    | some p =>
      obtain ⟨line, rest⟩ := p
      obtain ⟨-, happ⟩ := fgets_length hg
      simp only []
      rw [ih rest (fun c hc => h c (by rw [← happ]; exact List.mem_append_right _ hc)),
        lineTokens_delims, List.append_nil]
      intro c hc
      apply h c
      rw [← happ]
      exact List.mem_append_left _ ((List.takeWhile_sublist _).subset hc)

theorem tokens_delims (text : List Nat) (h : ∀ c ∈ text, c ∈ splitOn) : tokens text = [] := by
  unfold tokens rawTokens
  rw [fileTokens_delims _ _ h]
  rfl

/-! ### First occurrences -/

theorem firstIndex_lt (a : List Nat) (ws : List (List Nat)) (h : a ∈ ws) :
    firstIndex a ws < ws.length := by
  induction ws with
  | nil => cases h
  | cons x xs ih =>
    by_cases hx : x = a
    · simp [firstIndex, hx]
    · rcases List.mem_cons.mp h with e | h2
      · exact absurd e.symm hx
      · simp only [firstIndex, hx, if_false, List.length_cons]
        have := ih h2
        omega

/-- At its first index a word occurs, and it does not occur before. -/
theorem firstIndex_spec (a : List Nat) (ws : List (List Nat)) (h : a ∈ ws) :
    ws[firstIndex a ws]? = some a ∧ ∀ k, k < firstIndex a ws → ws[k]? ≠ some a := by
  induction ws with
  | nil => cases h
  | cons x xs ih =>
    by_cases hx : x = a
    · simp [firstIndex, hx]
    · rcases List.mem_cons.mp h with e | h2
      · exact absurd e.symm hx
      · obtain ⟨h3, h4⟩ := ih h2
        simp only [firstIndex, hx, if_false, List.getElem?_cons_succ]
        refine ⟨h3, ?_⟩
        intro k hk
        cases k with
        | zero =>
          simp only [List.getElem?_cons_zero, ne_eq, Option.some.injEq]
          exact hx
        | succ k =>
          simp only [List.getElem?_cons_succ]
          exact h4 k (by omega)

theorem firstIndex_append_mem (a w : List Nat) (ws : List (List Nat)) (h : a ∈ ws) :
    firstIndex a (ws ++ [w]) = firstIndex a ws := by
  induction ws with
  | nil => cases h
  | cons x xs ih =>
    by_cases hx : x = a
    · simp [firstIndex, hx]
    · rcases List.mem_cons.mp h with e | h2
      · exact absurd e.symm hx
      · rw [List.cons_append]
        simp only [firstIndex, hx, if_false]
        rw [ih h2]

theorem firstIndex_append_new (a : List Nat) (ws : List (List Nat)) (h : a ∉ ws) :
    firstIndex a (ws ++ [a]) = ws.length := by
  induction ws with
  | nil => simp [firstIndex]
  | cons x xs ih =>
    simp only [List.mem_cons, not_or] at h
    have hx : ¬ x = a := fun e => h.1 e.symm
    rw [List.cons_append]
    simp only [firstIndex, hx, if_false, List.length_cons]
    rw [ih h.2]

/-- The reference records list the words in the order of their first
occurrences. -/
theorem countWords_first_seen (ws : List (List Nat)) :
    ((countWords ws).map (fun r => r.str)).Pairwise
      (fun a b => firstIndex a ws < firstIndex b ws) := by
  induction ws using List.reverseRecOn with
  | nil => simp [countWords, bumpAll]
  | append_singleton ws w ih =>
    have hmem := (countWords_spec ws).2.1
    have hstep : countWords (ws ++ [w]) = bump w (countWords ws) := by
      simp [countWords, bumpAll_append, bumpAll_cons, bumpAll_nil]
    have hold : ((countWords ws).map (fun r => r.str)).Pairwise
        (fun a b => firstIndex a (ws ++ [w]) < firstIndex b (ws ++ [w])) := by
      refine List.Pairwise.imp_of_mem ?_ ih
      intro a b ha hb hab
      rw [firstIndex_append_mem a w ws ((hmem a).mp ha),
        firstIndex_append_mem b w ws ((hmem b).mp hb)]
      exact hab
    rw [hstep, bump_strs]
    split
    · exact hold
    · rename_i hw
      have hw2 : w ∉ ws := fun h => hw ((hmem w).mpr h)
      rw [List.pairwise_append]
      refine ⟨hold, List.pairwise_singleton _ _, ?_⟩
      intro a ha b hb
      simp only [List.mem_singleton] at hb
      subst hb
      rw [firstIndex_append_mem a b ws ((hmem a).mp ha), firstIndex_append_new b ws hw2]
      exact firstIndex_lt a ws ((hmem a).mp ha)

/-! ### Lines longer than the buffer -/

theorem fgetsAux_replicate_append (n k c : Nat) (s : List Nat) (hc : c ≠ 10) :
    fgetsAux (n + k) (List.replicate n c ++ s) =
      (List.replicate n c ++ (fgetsAux k s).1, (fgetsAux k s).2) := by
  induction n with
  | zero => simp
  | succ n ih =>
    have e : n + 1 + k = (n + k) + 1 := by omega
    rw [e, List.replicate_succ, List.cons_append]
    simp only [fgetsAux, hc, if_false, ih]
    rfl

theorem maximalRuns_replicate_delim (n c : Nat) (s : List Nat) (hc : isDelim c = true) :
    maximalRuns (List.replicate n c ++ s) = maximalRuns s := by
  induction n with
  | zero => simp
  | succ n ih =>
    rw [List.replicate_succ, List.cons_append, maximalRuns_cons_delim _ _ hc, ih]

/-- The number of fuel steps does not matter once it exceeds the length. -/
theorem fileTokens_fuel (f1 f2 : Nat) (text : List Nat) (h1 : text.length < f1)
    (h2 : text.length < f2) : fileTokens f1 text = fileTokens f2 text := by
  induction f1 generalizing f2 text with
  | zero => omega
  | succ f1 ih =>
    cases f2 with
    | zero => omega
    | succ f2 =>
      simp only [fileTokens]
      cases hg : fgets MAX_LINE_SIZE text with
      | none => rfl
      | some p =>
        obtain ⟨line, rest⟩ := p
        obtain ⟨hl, -⟩ := fgets_length hg
        simp only []
        rw [ih f2 rest (by omega) (by omega)]

/-- The tokens of a text: the maximal runs of the piece `fgets` reads first,
then the tokens of the rest. -/
theorem rawTokens_step (text line rest : List Nat)
    (hg : fgets MAX_LINE_SIZE text = some (line, rest)) :
    rawTokens text = maximalRuns (cstr line) ++ rawTokens rest := by
  obtain ⟨hl, -⟩ := fgets_length hg
  have e : fileTokens (text.length + 1) text =
      lineTokens (line.length + 1) (cstr line) ++ fileTokens text.length rest := by
    simp only [fileTokens, hg]
  unfold rawTokens
  rw [e, lineTokens_eq _ _ (Nat.lt_succ_of_le (cstr_length line)),
    fileTokens_fuel text.length (rest.length + 1) rest hl (Nat.lt_succ_self _)]

theorem cstr_of_no_nul (l : List Nat) (h : 0 ∉ l) : cstr l = l := by
  unfold cstr
  rw [List.takeWhile_eq_self_iff]
  intro x hx
  have : x ≠ 0 := fun e => h (e ▸ hx)
  simpa using this

/-- The tokens of the line of 1020 blanks followed by `hello`. -/
theorem rawTokens_long_line :
    rawTokens (List.replicate 1020 32 ++ ascii "hello") = [ascii "hel", ascii "lo"] := by
  have hg : fgets MAX_LINE_SIZE (List.replicate 1020 32 ++ ascii "hello") =
      some (List.replicate 1020 32 ++ ascii "hel", ascii "lo") := by
    have h1 := fgetsAux_replicate_append 1020 3 32 (ascii "hello") (by decide)
    have h2 : fgetsAux 3 (ascii "hello") = (ascii "hel", ascii "lo") := by decide
    rw [h2] at h1
    have h3 : List.replicate 1020 32 ++ ascii "hello" =
        32 :: (List.replicate 1019 32 ++ ascii "hello") := rfl
    rw [h3]
    simp only [fgets]
    rw [← h3]
    exact congrArg some h1
  have hnul : 0 ∉ List.replicate 1020 32 ++ ascii "hel" := by
    simp only [List.mem_append, List.mem_replicate, not_or]
    exact ⟨by omega, by decide⟩
  rw [rawTokens_step _ _ _ hg, cstr_of_no_nul _ hnul,
    maximalRuns_replicate_delim 1020 32 _ (by decide),
    rawTokens_line (ascii "lo") (by decide) (by decide)]
  decide

/-! ### Sorted rearrangements -/

/-- Two rearrangements of the same nodes that are both sorted for `compare`
have the same sequence of counts. -/
theorem sorted_counts_eq (l1 l2 : List Node) (hp : l1.Perm l2)
    (h1 : l1.Pairwise (fun a b => compare a b ≤ 0))
    (h2 : l2.Pairwise (fun a b => compare a b ≤ 0)) :
    l1.map (fun nd => nd.wrd.freq) = l2.map (fun nd => nd.wrd.freq) := by
  have hs : ∀ l : List Node, l.Pairwise (fun a b => compare a b ≤ 0) →
      (l.map (fun nd => nd.wrd.freq)).Sorted (· ≥ ·) := by
    intro l hl
    unfold List.Sorted
    rw [List.pairwise_map]
    exact hl.imp (fun {a b} h => by simp only [compare] at h; omega)
  exact List.eq_of_perm_of_sorted (hp.map _) (hs l1 h1) (hs l2 h2)

/-! ### A first line with the bytes 195 and 169 -/

/-- The words of a text whose first line is the two bytes 195 and 169: this
word, then the words of the other lines. -/
theorem tokens_after_first_line (rest : List Nat) :
    tokens ([195, 169, 10] ++ rest) = [195, 169] :: tokens rest := by
  have hg : fgets MAX_LINE_SIZE ([195, 169, 10] ++ rest) = some ([195, 169, 10], rest) := by
    simp [fgets, fgetsAux]
  have hrun : maximalRuns (cstr [195, 169, 10]) = [[195, 169]] := by decide
  unfold tokens
  rw [rawTokens_step _ _ _ hg, hrun]
  rfl

/-- On a text with this first line the run of `readFile`, and so of `main`,
has no defined result: the first call of `insertWord` has none. -/
theorem readFile_after_first_line (rest : List Nat) :
    readFile (some ([195, 169, 10] ++ rest)) initMem = .stuck ∧
      ∀ (qsort : (Node → Node → Int) → List Node → List Node) (topN : Option Int),
        main qsort (some ([195, 169, 10] ++ rest)) topN = .stuck := by
  have hread : readFile (some ([195, 169, 10] ++ rest)) initMem = .stuck := by
    rw [readFile_eq, tokens_after_first_line]
    simp only [insertAll, insertWord_invalid [195, 169] initMem (by decide) (by decide)]
  refine ⟨hread, ?_⟩
  intro qsort topN
  simp only [main, hread]

/-- The text with this first line and 5001 words of the family has more than
`MAX_UNIQUE_WORDS` distinct words of at most 31 characters. -/
theorem distinctWords_over_capacity :
    MAX_UNIQUE_WORDS < (distinctWords ([195, 169, 10] ++ sampleText 5001)).length := by
  have h : (distinctWords ([195, 169, 10] ++ sampleText 5001)).length = 5002 := by
    obtain ⟨-, hacc, -, hnd⟩ := sampleText_tokens 5001 (by omega)
    have hlen : strlen [195, 169] ≤ 31 := by decide
    unfold distinctWords
    rw [tokens_after_first_line, accepted_cons, if_pos hlen, hacc]
    have hnd2 : ([195, 169] :: (List.range 5001).map sampleWord).Nodup := by
      rw [List.nodup_cons]
      refine ⟨?_, hnd⟩
      intro hmem
      obtain ⟨i, -, e⟩ := List.mem_map.mp hmem
      have := congrArg List.length e
      simp [sampleWord] at this
    rw [hnd2.dedup, List.length_cons, List.length_map, List.length_range]
  have h5 : MAX_UNIQUE_WORDS = 5000 := rfl
  omega

/-! ## The claims -/

/-- C1: `readFile` counts a token that `insertWord` has refused.  The file
that holds one token of 40 characters has no token of at most 31 characters;
`insertWord` returns 1 for the token and leaves the memory as it is, and
`readFile`, which does not look at that result, returns the total 1 with the
table still empty. -/
theorem long_token_is_counted :
    tokens (List.replicate 40 97) = [List.replicate 40 97] ∧
      (accepted (tokens (List.replicate 40 97))).length = 0 ∧
      insertWord (List.replicate 40 97) initMem = .ret (1, initMem) ∧
      readFile (some (List.replicate 40 97)) initMem = .ret (1, initMem) := by
  have htok : tokens (List.replicate 40 97) = [List.replicate 40 97] := by decide
  have hins : insertWord (List.replicate 40 97) initMem = .ret (1, initMem) :=
    insertWord_long _ _ (by decide)
  refine ⟨htok, by decide, hins, ?_⟩
  rw [readFile_eq, htok]
  have h0 : (0 : Int) < INT_MAX := by decide
  simp only [insertAll, hins, h0, if_true]
  rfl

/-- C2: on every input text on which the run completes, the final value of
`sortIndex` is the number of distinct lowered tokens of at most 31
characters, no two records of the table carry the same text, and the texts of
the records are exactly these distinct words, each once. -/
theorem unique_count_is_distinct_words (text : List Nat) (n : Int) (m : Mem)
    (h : readFile (some text) initMem = .ret (n, m)) :
    m.sortIndex = (distinctWords text).length ∧
      ((tableRecords m).map (fun r => r.str)).Nodup ∧
      ((tableRecords m).map (fun r => r.str)).Perm (distinctWords text) := by
  obtain ⟨-, hwf, -, hrec⟩ := readFile_ret text n m h
  have hperm : ((tableRecords m).map (fun r => r.str)).Perm
      ((countWords (accepted (tokens text))).map (fun r => r.str)) :=
    (hrec ▸ hwf.tableRecords_perm).map _
  have hspec := countWords_spec (accepted (tokens text))
  exact ⟨unique_count_eq text n m h, hperm.nodup_iff.mpr hspec.1, hperm.trans hspec.2.2.2.2⟩

/-- C2, at the text `a b a c b a`: the run completes with 6 words and
`sortIndex` 3. -/
theorem unique_count_is_distinct_words_witness :
    ∃ m, readFile (some (ascii "a b a c b a")) initMem = .ret (6, m) ∧ m.sortIndex = 3 := by
  obtain ⟨m, hm, -⟩ := (readFile_spec (ascii "a b a c b a") (by decide) (by decide)).1 (by decide)
  have h := (unique_count_is_distinct_words (ascii "a b a c b a") _ m hm).1
  have h1 : (tokens (ascii "a b a c b a")).length = 6 := by decide
  have h2 : (distinctWords (ascii "a b a c b a")).length = 3 := by decide
  rw [h1] at hm
  exact ⟨m, hm, h.trans h2⟩

/-- C3: at the word `é` (the bytes 195 and 169, negative as `char` values),
which has two characters, `insertWord` does neither of the two things in any
table state: `getHashKey` gives the key -862, the list `pHashTable[-862]` is
outside the table, and the call has no defined result. -/
theorem insertWord_undefined_on_negative_key :
    strlen [195, 169] ≤ 31 ∧
      [195, 169].map charVal = [-61, -87] ∧
      getHashKeyInt ([195, 169].map charVal) = some (-862) ∧
      ∀ m : Mem, insertWord [195, 169] m = .stuck :=
  ⟨by decide, by decide, by decide, fun m => insertWord_invalid _ m (by decide) (by decide)⟩

/-- C4: `readFile` counts a token that `insertWord` has refused, so the total
leaves the sum of the counts behind.  After the pass over the file with the
token `ab` and a token of 40 characters the total word count is 2, while the
table has the one record `(ab, 1)` and its counts add up to 1. -/
theorem total_exceeds_sum_of_counts :
    ∃ m, readFile (some (ascii "ab " ++ List.replicate 40 97)) initMem = .ret (2, m) ∧
      tableRecords m = [{ str := ascii "ab", freq := 1 }] ∧
      ((tableRecords m).map (fun r => r.freq)).sum = 1 := by
  obtain ⟨m, hm, hwf, -, hrec⟩ :=
    (readFile_spec (ascii "ab " ++ List.replicate 40 97) (by decide) (by decide)).1 (by decide)
  have h1 : (tokens (ascii "ab " ++ List.replicate 40 97)).length = 2 := by decide
  have h2 : countWords (accepted (tokens (ascii "ab " ++ List.replicate 40 97))) =
      [{ str := ascii "ab", freq := 1 }] := by decide
  rw [h1] at hm
  have hp : (tableRecords m).Perm [{ str := ascii "ab", freq := 1 }] := by
    rw [← h2, ← hrec]
    exact hwf.tableRecords_perm
  have he := List.perm_singleton.mp hp
  refine ⟨m, hm, he, ?_⟩
  rw [he]
  rfl

/-- C5: for every input, every `qsort` that meets its contract and every
requested N, the lines `main` prints are sorted by count descending: for all
positions `i < j` of the result the count at `i` is at least the count at `j`. -/
theorem report_sorted (qsort : (Node → Node → Int) → List Node → List Node)
    (hq : IsQsort qsort) (file : Option (List Nat)) (topN : Option Int) (rep : Report)
    (h : main qsort file topN = .ret rep) :
    rep.lines.Pairwise (fun a b => b.freq ≤ a.freq) ∧
      ∀ (i j : Nat) (a b : Word), i < j → rep.lines[i]? = some a → rep.lines[j]? = some b →
        b.freq ≤ a.freq := by
  obtain ⟨text, n, m, -, hr, rfl⟩ := main_ret qsort file topN rep h
  obtain ⟨-, hwf, -, -⟩ := readFile_ret text n m hr
  have hs := (sorted_split qsort hq m hwf
    (if topN.getD 10 ≥ (m.sortIndex : Int) then (m.sortIndex : Int) else topN.getD 10).toNat).1
  refine ⟨hs, ?_⟩
  intro i j a b hij ha hb
  obtain ⟨hi, ea⟩ := List.getElem?_eq_some_iff.mp ha
  obtain ⟨hj, eb⟩ := List.getElem?_eq_some_iff.mp hb
  rw [← ea, ← eb]
  exact (List.pairwise_iff_getElem.mp hs) i j hi hj hij

/-- C5, at the text `a b a c b a` with the default N and insertion sort: a
report is printed and its lines are sorted. -/
theorem report_sorted_witness :
    ∃ rep, main qsortRef (some (ascii "a b a c b a")) none = .ret rep ∧
      rep.lines.Pairwise (fun a b => b.freq ≤ a.freq) := by
  obtain ⟨m, hm, -⟩ := (readFile_spec (ascii "a b a c b a") (by decide) (by decide)).1 (by decide)
  have hmain := main_of_readFile qsortRef (ascii "a b a c b a") none _ m hm
  exact ⟨_, hmain, (report_sorted qsortRef qsortRef_isQsort _ _ _ hmain).1⟩

/-- C6: for every input, every `qsort` that meets its contract and every
requested N that is not negative, the Top-N result has length
min(N, unique-word count); its lines together with the records left out are
the records of the frequency table, each once and with distinct texts; and
every record left out has a count less than or equal to the count of every
line.  For the text `a b a c b a` and N = 2 the report is total 6, unique 3
and the lines `(a, 3)`, `(b, 2)`. -/
theorem top_n_result (qsort : (Node → Node → Int) → List Node → List Node)
    (hq : IsQsort qsort) (file : Option (List Nat)) (topN : Option Int) (rep : Report)
    (hN : 0 ≤ topN.getD 10) (h : main qsort file topN = .ret rep) :
    (∃ text n m, file = some text ∧ readFile (some text) initMem = .ret (n, m) ∧
      rep.numWords = n ∧ rep.sortIndex = (m.sortIndex : Int) ∧
      rep.lines.length = min (topN.getD 10).toNat m.sortIndex ∧
      ∃ rest, (rep.lines ++ rest).Perm (tableRecords m) ∧
        ((rep.lines ++ rest).map (fun r => r.str)).Nodup ∧
        ∀ r ∈ rest, ∀ l ∈ rep.lines, r.freq ≤ l.freq) ∧
    main qsort (some (ascii "a b a c b a")) (some 2) = .ret
      { numWords := 6, sortIndex := 3, numSummaryItems := 2,
        lines := [{ str := ascii "a", freq := 3 }, { str := ascii "b", freq := 2 }] } := by
  constructor
  · obtain ⟨text, n, m, hf, hr, rfl⟩ := main_ret qsort file topN rep h
    obtain ⟨-, hwf, -, -⟩ := readFile_ret text n m hr
    obtain ⟨-, hlen, hperm, hnd, hle⟩ := sorted_split qsort hq m hwf
      (if topN.getD 10 ≥ (m.sortIndex : Int) then (m.sortIndex : Int) else topN.getD 10).toNat
    refine ⟨text, n, m, hf, hr, rfl, rfl, ?_, _, hperm, hnd, hle⟩
    rw [hlen]
    split <;> omega
  · obtain ⟨m, hm, hwf, -, hrec⟩ := (readFile_spec (ascii "a b a c b a") (by decide) (by decide)).1 (by decide)
    have h1 : (tokens (ascii "a b a c b a")).length = 6 := by decide
    have h2 : countWords (accepted (tokens (ascii "a b a c b a"))) =
        [{ str := ascii "a", freq := 3 }, { str := ascii "b", freq := 2 },
         { str := ascii "c", freq := 1 }] := by decide
    rw [h1] at hm
    rw [h2] at hrec
    have hsi : m.sortIndex = 3 := by
      rw [hwf.index_eq, ← List.length_map m.heap (fun nd => nd.wrd), hrec]
      rfl
    obtain ⟨hperm, hsorted⟩ := hq m.heap
    have hsorted2 : ((qsort compare m.heap).map (fun nd => nd.wrd)).Pairwise
        (fun a b => b.freq ≤ a.freq) := by
      rw [List.pairwise_map]
      exact hsorted.imp (fun {a b} h => by simp only [compare] at h; omega)
    have hperm2 : ((qsort compare m.heap).map (fun nd => nd.wrd)).Perm
        [{ str := ascii "a", freq := 3 }, { str := ascii "b", freq := 2 },
         { str := ascii "c", freq := 1 }] := by
      rw [← hrec]; exact hperm.map _
    have h3 := sorted_three _ _ _ _ rfl rfl rfl hperm2 hsorted2
    rw [main_of_readFile qsort _ (some 2) _ m hm, hsi]
    simp only [Option.getD_some, Nat.cast_ofNat]
    have h4 : ¬ ((2 : Int) ≥ 3) := by decide
    simp only [h4, if_false]
    rw [List.map_take, h3]
    rfl

/-- C6, at the text `x y x` with N = 1 and insertion sort: a report is
printed and it has one line. -/
theorem top_n_result_witness :
    ∃ rep, main qsortRef (some (ascii "x y x")) (some 1) = .ret rep ∧
      rep.lines.length = 1 := by
  obtain ⟨m, hm, hwf, -, hrec⟩ := (readFile_spec (ascii "x y x") (by decide) (by decide)).1 (by decide)
  have hmain := main_of_readFile qsortRef (ascii "x y x") (some 1) _ m hm
  obtain ⟨⟨text, n, m2, hf, hr, -, -, hlen, -⟩, -⟩ :=
    top_n_result qsortRef qsortRef_isQsort _ (some 1) _ (by decide) hmain
  refine ⟨_, hmain, ?_⟩
  cases hf
  rw [hm] at hr
  cases hr
  have h2 : (countWords (accepted (tokens (ascii "x y x")))).length = 2 := by decide
  have hsi : m.sortIndex = 2 := by
    rw [hwf.index_eq, ← List.length_map m.heap (fun nd => nd.wrd), hrec, h2]
  rw [hlen, hsi]
  rfl

/-- C7: for every input and every `qsort` that meets its contract, if the
requested N exceeds the unique-word count, the number of result lines and the
N of the report header both equal the unique-word count; if N is smaller than
the unique-word count the N of the header is the requested N.  The
unique-word count of the report is the number of distinct words of the file. -/
theorem clamp_to_unique_count (qsort : (Node → Node → Int) → List Node → List Node)
    (hq : IsQsort qsort) (file : Option (List Nat)) (topN : Option Int) (rep : Report)
    (h : main qsort file topN = .ret rep) :
    (∃ text, file = some text ∧ rep.sortIndex = ((distinctWords text).length : Int)) ∧
    (rep.sortIndex < topN.getD 10 →
      rep.numSummaryItems = rep.sortIndex ∧ (rep.lines.length : Int) = rep.sortIndex) ∧
    (topN.getD 10 < rep.sortIndex → rep.numSummaryItems = topN.getD 10) := by
  obtain ⟨text, n, m, hf, hr, rfl⟩ := main_ret qsort file topN rep h
  obtain ⟨-, hwf, -, -⟩ := readFile_ret text n m hr
  have huc := (unique_count_eq text n m hr)
  obtain ⟨-, hlen, -⟩ := sorted_split qsort hq m hwf
    (if topN.getD 10 ≥ (m.sortIndex : Int) then (m.sortIndex : Int) else topN.getD 10).toNat
  refine ⟨⟨text, hf, by simp only [huc]⟩, ?_, ?_⟩
  · intro hgt
    simp only at hgt
    have hge : topN.getD 10 ≥ (m.sortIndex : Int) := by omega
    simp only [hge, if_true, Int.toNat_ofNat, min_self] at hlen
    simp only [hge, if_true, true_and, Int.toNat_ofNat]
    rw [hlen]
  · intro hlt
    simp only at hlt
    have hge : ¬ topN.getD 10 ≥ (m.sortIndex : Int) := by omega
    simp only [hge, if_false]

/-- C7, at the text `a b a c b a` with N = 7 and insertion sort: the header
shows 3 and three lines are printed. -/
theorem clamp_to_unique_count_witness :
    ∃ rep, main qsortRef (some (ascii "a b a c b a")) (some 7) = .ret rep ∧
      rep.numSummaryItems = 3 ∧ rep.lines.length = 3 := by
  obtain ⟨m, hm, -⟩ := (readFile_spec (ascii "a b a c b a") (by decide) (by decide)).1 (by decide)
  have hmain := main_of_readFile qsortRef (ascii "a b a c b a") (some 7) _ m hm
  obtain ⟨⟨text, hf, hsi⟩, hbig, -⟩ :=
    clamp_to_unique_count qsortRef qsortRef_isQsort _ (some 7) _ hmain
  cases hf
  have h2 : (distinctWords (ascii "a b a c b a")).length = 3 := by decide
  rw [h2] at hsi
  obtain ⟨h3, h4⟩ := hbig (by rw [hsi]; decide)
  rw [hsi] at h3 h4
  exact ⟨_, hmain, h3, by exact_mod_cast h4⟩

/-- C8, as the claim states it, fails: for the empty file and the requested
n = -5 the effective N of the report is -5, outside the range from 0 to the
unique-word count 0. -/
theorem negative_n_not_clamped :
    ∃ rep, main qsortRef (some []) (some (-5)) = .ret rep ∧
      rep.sortIndex = 0 ∧ rep.numSummaryItems = -5 ∧
      ¬ (0 ≤ rep.numSummaryItems ∧ rep.numSummaryItems ≤ rep.sortIndex) := by
  have hr : readFile (some []) initMem = .ret (0, initMem) := rfl
  have hmain := main_of_readFile qsortRef [] (some (-5)) _ _ hr
  refine ⟨_, hmain, rfl, ?_, ?_⟩
  · show (if (-5 : Int) ≥ ((0 : Nat) : Int) then ((0 : Nat) : Int) else -5) = -5
    decide
  · show ¬ (0 ≤ (if (-5 : Int) ≥ ((0 : Nat) : Int) then ((0 : Nat) : Int) else -5) ∧
      (if (-5 : Int) ≥ ((0 : Nat) : Int) then ((0 : Nat) : Int) else -5) ≤ ((0 : Nat) : Int))
    decide

/-- C8 (amended): for every requested n the effective N of the report is the
smaller of n and the unique-word count, so it never exceeds the unique-word
count; for every requested n that is not negative it lies in the range from 0
to the unique-word count; a negative n stays as it is and no line is printed. -/
theorem effective_n_range (qsort : (Node → Node → Int) → List Node → List Node)
    (file : Option (List Nat)) (topN : Option Int) (rep : Report)
    (h : main qsort file topN = .ret rep) :
    rep.numSummaryItems = min (topN.getD 10) rep.sortIndex ∧
      rep.numSummaryItems ≤ rep.sortIndex ∧
      (0 ≤ topN.getD 10 → 0 ≤ rep.numSummaryItems ∧ rep.numSummaryItems ≤ rep.sortIndex) ∧
      (topN.getD 10 < 0 → rep.numSummaryItems = topN.getD 10 ∧ rep.lines = []) := by
  obtain ⟨text, n, m, hf, hr, rfl⟩ := main_ret qsort file topN rep h
  simp only
  have hnn : (0 : Int) ≤ (m.sortIndex : Int) := Int.natCast_nonneg _
  refine ⟨?_, ?_, ?_, ?_⟩
  · split <;> omega
  · split <;> omega
  · intro h0
    split <;> omega
  · intro hneg
    have hge : ¬ topN.getD 10 ≥ (m.sortIndex : Int) := by omega
    simp only [hge, if_false, true_and]
    have h0 : (topN.getD 10).toNat = 0 := by omega
    rw [h0]
    rfl

/-- C8 (amended), at the text `a b a c b a` with n = 2 and insertion sort: the
effective N is 2. -/
theorem effective_n_range_witness :
    ∃ rep, main qsortRef (some (ascii "a b a c b a")) (some 2) = .ret rep ∧
      0 ≤ rep.numSummaryItems ∧ rep.numSummaryItems ≤ rep.sortIndex := by
  obtain ⟨m, hm, -⟩ := (readFile_spec (ascii "a b a c b a") (by decide) (by decide)).1 (by decide)
  have hmain := main_of_readFile qsortRef (ascii "a b a c b a") (some 2) _ m hm
  exact ⟨_, hmain, (effective_n_range qsortRef _ (some 2) _ hmain).2.2.1 (by decide)⟩

/-- C9, as the claim states it, fails: the line `ab`, NUL, `cd ef` has 8
characters; for `strtok` the string in the line buffer ends at the NUL, so the
only token is `ab` and `readFile` returns 1 word, while the non-empty maximal
runs of characters of the line that are no delimiters are `ab NUL cd` and
`ef`. -/
theorem nul_ends_the_line :
    (ascii "ab" ++ [0] ++ ascii "cd ef").length ≤ MAX_LINE_SIZE - 1 ∧
      rawTokens (ascii "ab" ++ [0] ++ ascii "cd ef") = [ascii "ab"] ∧
      maximalRuns (ascii "ab" ++ [0] ++ ascii "cd ef") =
        [ascii "ab" ++ [0] ++ ascii "cd", ascii "ef"] ∧
      ∃ m, readFile (some (ascii "ab" ++ [0] ++ ascii "cd ef")) initMem = .ret (1, m) ∧
        tableRecords m = [{ str := ascii "ab", freq := 1 }] := by
  refine ⟨by decide, by decide, by decide, ?_⟩
  obtain ⟨m, hm, hwf, -, hrec⟩ :=
    (readFile_spec (ascii "ab" ++ [0] ++ ascii "cd ef") (by decide) (by decide)).1 (by decide)
  have h1 : (tokens (ascii "ab" ++ [0] ++ ascii "cd ef")).length = 1 := by decide
  have h2 : countWords (accepted (tokens (ascii "ab" ++ [0] ++ ascii "cd ef"))) =
      [{ str := ascii "ab", freq := 1 }] := by decide
  rw [h1] at hm
  refine ⟨m, hm, ?_⟩
  have hp := hwf.tableRecords_perm
  rw [hrec, h2] at hp
  exact List.perm_singleton.mp hp

/-- C9 (amended): for every line of text of at most 1023 characters without
NUL (also for a text of several lines that has at most 1023 characters in
all), the tokens `strtok` cuts out in the loop of `readFile` are
exactly the non-empty maximal runs of characters that are no delimiters, from
left to right; the words handed to `insertWord` are these runs, lowered, which
are the maximal runs of the lowered line and the runs themselves when the line
has no upper-case letter; no word handed over is empty and none holds a
delimiter.  The text `dog, dog; dog!` gives the single record `(dog, 3)` and
the total 3. -/
theorem tokenizer_maximal_runs (line : List Nat) (hlen : line.length ≤ MAX_LINE_SIZE - 1)
    (hnul : 0 ∉ line) :
    rawTokens line = maximalRuns line ∧
      tokens line = (maximalRuns line).map (List.map tolower) ∧
      tokens line = maximalRuns (line.map tolower) ∧
      ((∀ c ∈ line, ¬ (65 ≤ c ∧ c ≤ 90)) → tokens line = maximalRuns line) ∧
      (∀ m, readFile (some line) m = insertAll (tokens line) m 0) ∧
      (∀ t ∈ tokens line, t ≠ [] ∧ ∀ c ∈ t, c ∉ splitOn) ∧
      (∃ m, readFile (some (ascii "dog, dog; dog!")) initMem = .ret (3, m) ∧
        tableRecords m = [{ str := ascii "dog", freq := 3 }]) := by
  have hraw := rawTokens_line line hlen hnul
  have htok : tokens line = (maximalRuns line).map (List.map tolower) := by
    unfold tokens; rw [hraw]
  have htok2 : tokens line = maximalRuns (line.map tolower) := by
    rw [htok, maximalRuns_map_tolower]
  refine ⟨hraw, htok, htok2, ?_, fun m => readFile_eq line m, ?_, ?_⟩
  · intro hup
    rw [htok2]
    congr 1
    conv_rhs => rw [← List.map_id line]
    apply List.map_congr_left
    intro c hc
    exact tolower_of_not_upper c (hup c hc)
  · rw [htok2]
    exact maximalRuns_token _
  · obtain ⟨m, hm, hwf, -, hrec⟩ := (readFile_spec (ascii "dog, dog; dog!") (by decide) (by decide)).1 (by decide)
    have h1 : (tokens (ascii "dog, dog; dog!")).length = 3 := by decide
    have h2 : countWords (accepted (tokens (ascii "dog, dog; dog!"))) =
        [{ str := ascii "dog", freq := 3 }] := by decide
    rw [h1] at hm
    refine ⟨m, hm, ?_⟩
    have hp := hwf.tableRecords_perm
    rw [hrec, h2] at hp
    exact List.perm_singleton.mp hp

/-- C9, at the line `dog, dog; dog!`: the tokens are the three runs `dog`. -/
theorem tokenizer_maximal_runs_witness :
    rawTokens (ascii "dog, dog; dog!") = [ascii "dog", ascii "dog", ascii "dog"] := by
  have h := (tokenizer_maximal_runs (ascii "dog, dog; dog!") (by decide) (by decide)).1
  rw [h]
  decide

/-- C10: counting is case-insensitive.  For every input text, `readFile` and
`main` end on the text with every upper-case letter replaced by its lower-case
letter exactly as on the text itself (same total, same memory, same report),
and no record text holds an upper-case letter.  The text `Cat cat CAT` gives
the single record `(cat, 3)`. -/
theorem case_insensitive (text : List Nat) :
    readFile (some (text.map tolower)) initMem = readFile (some text) initMem ∧
      (∀ (qsort : (Node → Node → Int) → List Node → List Node) (topN : Option Int),
        main qsort (some (text.map tolower)) topN = main qsort (some text) topN) ∧
      (∀ n m, readFile (some text) initMem = .ret (n, m) →
        ∀ r ∈ tableRecords m, ∀ c ∈ r.str, ¬ (65 ≤ c ∧ c ≤ 90)) ∧
      (∃ m, readFile (some (ascii "Cat cat CAT")) initMem = .ret (3, m) ∧
        tableRecords m = [{ str := ascii "cat", freq := 3 }]) := by
  have hread : readFile (some (text.map tolower)) initMem = readFile (some text) initMem := by
    rw [readFile_eq, readFile_eq, tokens_map_tolower]
  refine ⟨hread, ?_, ?_, ?_⟩
  · intro qsort topN
    simp only [main, hread]
  · intro n m h r hr c hc
    obtain ⟨-, hwf, -, hrec⟩ := readFile_ret text n m h
    have hr2 : r ∈ countWords (accepted (tokens text)) := by
      rw [← hrec]; exact hwf.tableRecords_perm.subset hr
    have hr3 : r.str ∈ accepted (tokens text) :=
      ((countWords_spec _).2.1 r.str).mp (List.mem_map.mpr ⟨r, hr2, rfl⟩)
    have hr4 : r.str ∈ tokens text := (List.mem_filter.mp hr3).1
    obtain ⟨t, -, e⟩ := List.mem_map.mp hr4
    rw [← e] at hc
    obtain ⟨x, -, rfl⟩ := List.mem_map.mp hc
    exact tolower_not_upper x
  · obtain ⟨m, hm, hwf, -, hrec⟩ := (readFile_spec (ascii "Cat cat CAT") (by decide) (by decide)).1 (by decide)
    have h1 : (tokens (ascii "Cat cat CAT")).length = 3 := by decide
    have h2 : countWords (accepted (tokens (ascii "Cat cat CAT"))) =
        [{ str := ascii "cat", freq := 3 }] := by decide
    rw [h1] at hm
    refine ⟨m, hm, ?_⟩
    have hp := hwf.tableRecords_perm
    rw [hrec, h2] at hp
    exact List.perm_singleton.mp hp

/-- C11, as the claim states it, fails: in the memory reached after the text
with 4998 distinct words, the call of `insertWord` on a new word of three
characters does not return 0, the process exits with code 1. -/
theorem short_word_at_cap_exits :
    ∃ m mm, readFile (some (sampleText 4998)) initMem = .ret (4998, m) ∧
      strlen (sampleWord 4998) ≤ 31 ∧ insertWord (sampleWord 4998) m = .exit 1 mm := by
  obtain ⟨m, hm, hwf, hsi, -, habs⟩ := sampleText_at_cap
  refine ⟨m, grow (sampleWord 4998) m, hm, by decide, ?_⟩
  rw [insertWord_absent _ m hwf (by decide) (sampleWord_validKey 4998 (by decide)) habs, hsi]
  rfl

/-- C11 (amended): for every table state and every word of more than 31
characters `insertWord` returns 1 and leaves the hash table, the enumeration
array and the unique-word index unchanged.  For every word of at most 31
characters (31 included), all of them ASCII (character values from 1 to
127), in every well-formed state below the cap in which the count of the word,
if it has a record, is below `INT_MAX`, the word is counted (its record is incremented or
appended with count 1), and `insertWord` returns 0, unless the word is new and
brings the unique-word index to `MAX_UNIQUE_WORDS - 1`, where the process
exits with code 1. -/
theorem insertWord_length_gate (m : Mem) (word : List Nat) :
    (31 < strlen word → insertWord word m = .ret (1, m)) ∧
    (strlen word ≤ 31 → (∀ c ∈ word, 1 ≤ c ∧ c ≤ 127) → WF m →
      m.sortIndex < MAX_UNIQUE_WORDS - 1 →
      (∀ r ∈ tableRecords m, r.str = word → r.freq < INT_MAX) →
      ∃ m2, enumRecords m2 = bump word (enumRecords m) ∧
        (tableRecords m2).Perm (bump word (enumRecords m)) ∧
        ((m2.sortIndex < MAX_UNIQUE_WORDS - 1 ∧ insertWord word m = .ret (0, m2)) ∨
         (m2.sortIndex = MAX_UNIQUE_WORDS - 1 ∧ m2.sortIndex = m.sortIndex + 1 ∧
           insertWord word m = .exit 1 m2))) := by
  constructor
  · intro h
    exact insertWord_long word m (by omega)
  · intro hlen hascii hwf hcap hfreq
    have hf : ∀ nd ∈ m.heap, nd.wrd.str = word → nd.wrd.freq < INT_MAX := fun nd hnd e =>
      hfreq nd.wrd (hwf.tableRecords_perm.symm.subset (List.mem_map.mpr ⟨nd, hnd, rfl⟩)) e
    have hv : validKey word = true :=
      validKey_of_ascii word hlen (fun c hc => by have := (hascii c hc).2; omega)
    obtain ⟨m2, hrec, hwf2, hcase⟩ := insertWord_step word m hwf hcap hlen hv hf
    have he : enumRecords m2 = bump word (enumRecords m) := by
      rw [hwf2.enumRecords_eq, hwf.enumRecords_eq, hrec]
    refine ⟨m2, he, ?_, ?_⟩
    · rw [← he, hwf2.enumRecords_eq]
      exact hwf2.tableRecords_perm
    · rcases hcase with h | ⟨h1, h2⟩
      · exact Or.inl h
      · refine Or.inr ⟨h1, ?_, h2⟩
        have hl := (bump_length_le word (m.heap.map (fun nd => nd.wrd))).2
        rw [← hrec, List.length_map, List.length_map, ← hwf2.index_eq, ← hwf.index_eq] at hl
        omega

/-- C11 (amended), at the initial memory: a word of 32 characters is
rejected with 1 and nothing changes, a word of 31 characters is taken with 0. -/
theorem insertWord_length_gate_witness :
    insertWord (List.replicate 32 97) initMem = .ret (1, initMem) ∧
      ∃ m2, insertWord (List.replicate 31 97) initMem = .ret (0, m2) ∧
        enumRecords m2 = [{ str := List.replicate 31 97, freq := 1 }] := by
  refine ⟨(insertWord_length_gate initMem (List.replicate 32 97)).1 (by decide), ?_⟩
  have hnil : tableRecords initMem = [] := by
    have h := WF_init.tableRecords_perm
    simpa [initMem] using h
  obtain ⟨m2, he, -, hcase⟩ :=
    (insertWord_length_gate initMem (List.replicate 31 97)).2 (by decide) (by decide) WF_init
      (show 0 < 4999 by decide) (by rw [hnil]; intro r hr; cases hr)
  have hen : enumRecords initMem = [] := by
    rw [WF_init.enumRecords_eq]; rfl
  rw [hen] at he
  rcases hcase with ⟨-, h⟩ | ⟨h1, h2, -⟩
  · exact ⟨m2, h, he⟩
  · rw [h2] at h1
    exact absurd h1 (show ¬ (0 + 1 = 4999) by decide)

/-- C12: a word of at most 31 characters that is neither recorded nor ends the
process with code 1.  On the file `ab é` (`é` is the bytes 195 and 169) the
word `ab` is recorded; the call of `insertWord` on `é` in the memory reached
then has no defined result: the key of `getHashKey` is negative and the read
of `pHashTable` is outside the table.  So the run of `readFile` and of `main`
on this file has no defined result instead of a record for `é` or the exit
with code 1.  The same holds on the file with the line `é` followed by 5001
distinct words, which has 5002 distinct words of at most 31 characters, more
than `MAX_UNIQUE_WORDS`: the run does not get to the exit with code 1. -/
theorem negative_key_word_not_recorded :
    tokens (ascii "ab " ++ [195, 169]) = [ascii "ab", [195, 169]] ∧
      strlen [195, 169] ≤ 31 ∧
      (∃ m, insertAll [ascii "ab"] initMem 0 = .ret (1, m) ∧
        insertWord [195, 169] m = .stuck) ∧
      readFile (some (ascii "ab " ++ [195, 169])) initMem = .stuck ∧
      (∀ (qsort : (Node → Node → Int) → List Node → List Node) (topN : Option Int),
        main qsort (some (ascii "ab " ++ [195, 169])) topN = .stuck) ∧
      MAX_UNIQUE_WORDS < (distinctWords ([195, 169, 10] ++ sampleText 5001)).length ∧
      readFile (some ([195, 169, 10] ++ sampleText 5001)) initMem = .stuck ∧
      ∀ (qsort : (Node → Node → Int) → List Node → List Node) (topN : Option Int),
        main qsort (some ([195, 169, 10] ++ sampleText 5001)) topN = .stuck := by
  have htok : tokens (ascii "ab " ++ [195, 169]) = [ascii "ab", [195, 169]] := by decide
  have hst : ∀ m : Mem, insertWord [195, 169] m = .stuck :=
    fun m => insertWord_invalid _ m (by decide) (by decide)
  have hab : insertWord (ascii "ab") initMem = .ret (0, grow (ascii "ab") initMem) := by
    rw [insertWord_absent (ascii "ab") initMem WF_init (by decide) (by decide)
      (by intro nd hnd; simp [initMem] at hnd)]
    rfl
  have hread : readFile (some (ascii "ab " ++ [195, 169])) initMem = .stuck := by
    rw [readFile_eq, htok]
    have h0 : (0 : Int) < INT_MAX := by decide
    simp only [insertAll, hab, h0, if_true, hst]
  obtain ⟨hread2, hmain2⟩ := readFile_after_first_line (sampleText 5001)
  refine ⟨htok, by decide, ?_, hread, ?_, distinctWords_over_capacity, hread2, hmain2⟩
  · refine ⟨grow (ascii "ab") initMem, ?_, hst _⟩
    have h0 : (0 : Int) < INT_MAX := by decide
    simp only [insertAll, hab, h0, if_true]
    rfl
  · intro qsort topN
    simp only [main, hread]

/-- C13: for an empty input, and for any input that holds only delimiter
characters, the total word count is 0, the unique-word count is 0, the table
has no record, and for every requested N (and every `qsort`) the report has
total 0, unique 0 and no line. -/
theorem only_delimiters_empty_report (text : List Nat) (h : ∀ c ∈ text, c ∈ splitOn) :
    readFile (some text) initMem = .ret (0, initMem) ∧
      readFile (some []) initMem = .ret (0, initMem) ∧
      initMem.sortIndex = 0 ∧ tableRecords initMem = [] ∧ enumRecords initMem = [] ∧
      ∀ (qsort : (Node → Node → Int) → List Node → List Node) (topN : Option Int),
        ∃ rep, main qsort (some text) topN = .ret rep ∧
          rep.numWords = 0 ∧ rep.sortIndex = 0 ∧ rep.lines = [] := by
  have hr : readFile (some text) initMem = .ret (0, initMem) := by
    rw [readFile_eq, tokens_delims text h]
    rfl
  have hnil : tableRecords initMem = [] := by
    have hp := WF_init.tableRecords_perm
    simpa [initMem] using hp
  have hen : enumRecords initMem = [] := by
    rw [WF_init.enumRecords_eq]; rfl
  refine ⟨hr, rfl, rfl, hnil, hen, ?_⟩
  intro qsort topN
  refine ⟨_, main_of_readFile qsort text topN 0 initMem hr, rfl, rfl, ?_⟩
  have h0 : (if topN.getD 10 ≥ ((initMem.sortIndex : Nat) : Int) then
      ((initMem.sortIndex : Nat) : Int) else topN.getD 10).toNat = 0 := by
    have hs : ((initMem.sortIndex : Nat) : Int) = 0 := rfl
    rw [hs]
    split <;> omega
  simp only [h0]
  rfl

/-- C13, at the text ` ,.` with a newline: total 0 and the initial memory. -/
theorem only_delimiters_empty_report_witness :
    readFile (some (ascii " ,.\n")) initMem = .ret (0, initMem) :=
  (only_delimiters_empty_report (ascii " ,.\n") (by decide)).1

/-- C14: after any sequence of inserts that returns, the enumeration array
lists the records in first-seen order: it holds the reference records of the
accepted words, every record text occurs among the accepted words, and for
positions `i < j` the first occurrence of the text of record `i` in the
sequence of accepted words comes before the first occurrence of the text of
record `j`.  Whenever a call of `insertWord` makes a new record (the word has
no record and the call returns or exits), the record is written at position
`sortIndex` of the array and the entries before it are not changed; for a new
word of at most 31 ASCII characters (values from 1 to 127) the call does
return or exit. -/
theorem enumeration_first_seen (ws : List (List Nat)) (n : Int) (m : Mem)
    (h : insertAll ws initMem 0 = .ret (n, m)) :
    enumRecords m = countWords (accepted ws) ∧
    (∀ r ∈ enumRecords m, r.str ∈ accepted ws ∧
      (accepted ws)[firstIndex r.str (accepted ws)]? = some r.str) ∧
    (∀ (i j : Nat) (ri rj : Word), i < j → (enumRecords m)[i]? = some ri →
      (enumRecords m)[j]? = some rj →
      firstIndex ri.str (accepted ws) < firstIndex rj.str (accepted ws)) ∧
    (∀ (m0 : Mem) (word : List Nat) (x : Int) (code : Nat) (m2 : Mem), WF m0 →
      m0.sortIndex < MAX_UNIQUE_WORDS - 1 → strlen word ≤ 31 →
      (∀ r ∈ tableRecords m0, r.str ≠ word) →
      (insertWord word m0 = .ret (x, m2) ∨ insertWord word m0 = .exit code m2) →
        m2.uniqueWords = m0.uniqueWords.set m0.sortIndex (some m0.heap.length) ∧
        m2.uniqueWords.take m0.sortIndex = m0.uniqueWords.take m0.sortIndex ∧
        m2.sortIndex = m0.sortIndex + 1 ∧
        enumRecords m2 = enumRecords m0 ++ [{ str := word, freq := 1 }]) ∧
    (∀ (m0 : Mem) (word : List Nat), WF m0 → m0.sortIndex < MAX_UNIQUE_WORDS - 1 →
      strlen word ≤ 31 → (∀ c ∈ word, 1 ≤ c ∧ c ≤ 127) →
      (∀ r ∈ tableRecords m0, r.str ≠ word) →
      ∃ m2, insertWord word m0 = .ret (0, m2) ∨ insertWord word m0 = .exit 1 m2) := by
  obtain ⟨-, hen⟩ := tableRecords_of_ret ws n m h
  have hspec := countWords_spec (accepted ws)
  have hfs := countWords_first_seen (accepted ws)
  refine ⟨hen, ?_, ?_, ?_, ?_⟩
  · intro r hr
    rw [hen] at hr
    have hmem : r.str ∈ accepted ws := (hspec.2.1 r.str).mp (List.mem_map.mpr ⟨r, hr, rfl⟩)
    exact ⟨hmem, (firstIndex_spec _ _ hmem).1⟩
  · intro i j ri rj hij hi hj
    rw [hen] at hi hj
    have hi2 : ((countWords (accepted ws)).map (fun r => r.str))[i]? = some ri.str := by
      rw [List.getElem?_map, hi]; rfl
    have hj2 : ((countWords (accepted ws)).map (fun r => r.str))[j]? = some rj.str := by
      rw [List.getElem?_map, hj]; rfl
    obtain ⟨hli, ei⟩ := List.getElem?_eq_some_iff.mp hi2
    obtain ⟨hlj, ej⟩ := List.getElem?_eq_some_iff.mp hj2
    rw [← ei, ← ej]
    exact (List.pairwise_iff_getElem.mp hfs) i j hli hlj hij
  · intro m0 word x code m2 hwf hcap hlen habs0 hout
    have habs := (absent_iff_tableRecords hwf word).mpr habs0
    have hwf2 := WF_grow word m0 hwf hlen habs hcap
    have hv : validKey word = true := by
      by_contra hv
      have hv2 : validKey word = false := by simpa using hv
      rw [insertWord_invalid word m0 hlen hv2] at hout
      rcases hout with h | h <;> cases h
    have hm2 : m2 = grow word m0 := by
      rw [insertWord_absent word m0 hwf hlen hv habs] at hout
      split at hout
      · rcases hout with h | h
        · cases h
        · cases h; rfl
      · rcases hout with h | h
        · cases h; rfl
        · cases h
    subst hm2
    refine ⟨rfl, ?_, rfl, ?_⟩
    · apply List.ext_getElem?
      intro k
      simp only [grow, List.getElem?_take, List.getElem?_set]
      by_cases hk : k < m0.sortIndex
      · have hne : ¬ m0.sortIndex = k := by omega
        simp only [hk, if_true, hne, if_false]
      · simp only [hk, if_false]
    · rw [hwf2.enumRecords_eq, hwf.enumRecords_eq]
      simp [grow]
  · intro m0 word hwf hcap hlen hascii habs0
    have habs := (absent_iff_tableRecords hwf word).mpr habs0
    refine ⟨grow word m0, ?_⟩
    have hv : validKey word = true :=
      validKey_of_ascii word hlen (fun c hc => by have := (hascii c hc).2; omega)
    rw [insertWord_absent word m0 hwf hlen hv habs]
    split
    · exact Or.inr rfl
    · exact Or.inl rfl

/-- C14, at the words `b a b c`: the enumeration lists `b`, `a`, `c`. -/
theorem enumeration_first_seen_witness :
    ∃ m, insertAll [ascii "b", ascii "a", ascii "b", ascii "c"] initMem 0 = .ret (4, m) ∧
      enumRecords m = [{ str := ascii "b", freq := 2 }, { str := ascii "a", freq := 1 },
        { str := ascii "c", freq := 1 }] := by
  obtain ⟨m, hm, -⟩ :=
    (insertAll_init [ascii "b", ascii "a", ascii "b", ascii "c"] (by decide) (by decide)).1
      (by decide)
  refine ⟨m, hm, ?_⟩
  rw [(enumeration_first_seen _ _ m hm).1]
  decide

/-- C17: a new distinct word that brings nothing to `MAX_UNIQUE_WORDS - 1`.
In the memory reached after the text with 4998 distinct words the unique-word
index is 4998 and the word `é` (the bytes 195 and 169) has no record and at
most 31 characters, so inserting it is to bring the index to 4999 and end the
process; the call of `insertWord` does not get there: the key of `getHashKey`
is negative, the read of `pHashTable` is outside the table, and the call has
no defined result.  So has the run of `readFile` on the text with the 4998
words followed by `é`. -/
theorem negative_key_at_cap_no_exit :
    (∃ m, readFile (some (sampleText 4998)) initMem = .ret (4998, m) ∧
      m.sortIndex + 1 = MAX_UNIQUE_WORDS - 1 ∧ strlen [195, 169] ≤ 31 ∧
      (∀ r ∈ tableRecords m, r.str ≠ [195, 169]) ∧
      insertWord [195, 169] m = .stuck) ∧
    readFile (some (sampleText 4998 ++ [195, 169])) initMem = .stuck := by
  obtain ⟨m, hm, hwf, hsi, hstr, -⟩ := sampleText_at_cap
  have hst : insertWord [195, 169] m = .stuck := insertWord_invalid _ m (by decide) (by decide)
  refine ⟨⟨m, hm, by rw [hsi]; rfl, by decide, ?_, hst⟩, ?_⟩
  · apply (absent_iff_tableRecords hwf _).mp
    intro nd hnd e
    obtain ⟨i, hi⟩ := hstr nd hnd
    rw [hi] at e
    have := congrArg List.length e
    simp [sampleWord] at this
  · have htok := sampleText_append_tokens 4998 (by omega) [195, 169] (by decide) (by decide)
    have hrun : (maximalRuns [195, 169]).map (List.map tolower) = [[195, 169]] := by decide
    rw [hrun] at htok
    rw [readFile_eq] at hm
    rw [readFile_eq, htok, insertAll_append, hm]
    simp only [insertAll, hst]

/-- C15, as the claim states it, fails: on the line of 1020 blanks followed
by `hello` (1025 characters) `fgets` reads 1023 characters first, so the
tokens are `hel` and `lo`, while the only maximal run of the line is `hello`;
`readFile` returns 2 words and the table holds the records `(hel, 1)` and
`(lo, 1)`. -/
theorem long_line_splits_word :
    rawTokens (List.replicate 1020 32 ++ ascii "hello") = [ascii "hel", ascii "lo"] ∧
      maximalRuns (List.replicate 1020 32 ++ ascii "hello") = [ascii "hello"] ∧
      ∃ m, readFile (some (List.replicate 1020 32 ++ ascii "hello")) initMem = .ret (2, m) ∧
        enumRecords m = [{ str := ascii "hel", freq := 1 }, { str := ascii "lo", freq := 1 }] := by
  have hraw := rawTokens_long_line
  have htok : tokens (List.replicate 1020 32 ++ ascii "hello") = [ascii "hel", ascii "lo"] := by
    unfold tokens
    rw [hraw]
    decide
  refine ⟨hraw, ?_, ?_⟩
  · rw [maximalRuns_replicate_delim 1020 32 _ (by decide)]
    decide
  · have hd : (distinctWords (List.replicate 1020 32 ++ ascii "hello")).length <
        MAX_UNIQUE_WORDS - 1 := by
      unfold distinctWords
      rw [htok]
      decide
    have hv : ∀ w ∈ tokens (List.replicate 1020 32 ++ ascii "hello"),
        strlen w ≤ 31 → validKey w = true := by
      rw [htok]; decide
    have hsz : ((tokens (List.replicate 1020 32 ++ ascii "hello")).length : Int) ≤ INT_MAX := by
      rw [htok]; decide
    obtain ⟨m, hm, hwf, -, hrec⟩ := (readFile_spec _ hv hsz).1 hd
    rw [htok] at hm hrec
    refine ⟨m, hm, ?_⟩
    rw [hwf.enumRecords_eq, hrec]
    decide

/-- C15 (amended): for every input text without NUL in which every line, its
newline included, has at most `MAX_LINE_SIZE - 1` = 1023 characters, the
tokens counted by `readFile` are exactly the maximal runs of non-delimiter
characters of the text (a run never holds a newline, so they are the runs of
its lines), none is empty or holds a delimiter, and the words handed to
`insertWord` are these runs, lowered.  For every text, the tokens are the
maximal runs of the piece of at most 1023 characters that `fgets` reads first,
followed by the tokens of the rest. -/
theorem tokens_of_fitting_lines (text : List Nat)
    (hfit : linesFit (MAX_LINE_SIZE - 1) text = true) (hnul : 0 ∉ text) :
    rawTokens text = maximalRuns text ∧
      tokens text = (maximalRuns text).map (List.map tolower) ∧
      (∀ t ∈ rawTokens text, t ≠ [] ∧ ∀ c ∈ t, c ∉ splitOn) ∧
      (∀ m, readFile (some text) m =
        insertAll ((maximalRuns text).map (List.map tolower)) m 0) ∧
      (∀ (other line rest : List Nat), fgets MAX_LINE_SIZE other = some (line, rest) →
        line.length ≤ MAX_LINE_SIZE - 1 ∧ line ++ rest = other ∧
        rawTokens other = maximalRuns (cstr line) ++ rawTokens rest) := by
  have hraw : rawTokens text = maximalRuns text :=
    fileTokens_fit _ text (Nat.lt_succ_self _) hfit hnul
  have htok : tokens text = (maximalRuns text).map (List.map tolower) := by
    unfold tokens; rw [hraw]
  refine ⟨hraw, htok, ?_, ?_, ?_⟩
  · rw [hraw]; exact maximalRuns_token text
  · intro m
    rw [readFile_eq, htok]
  · intro other line rest hg
    refine ⟨?_, (fgets_length hg).2, rawTokens_step other line rest hg⟩
    cases other with
    | nil => simp [fgets] at hg
    | cons c s =>
      simp only [fgets, Option.some.injEq] at hg
      have hlen : ∀ (k : Nat) (l : List Nat), (fgetsAux k l).1.length ≤ k := by
        intro k
        induction k with
        | zero => intro l; simp [fgetsAux]
        | succ k ih =>
          intro l
          cases l with
          | nil => simp [fgetsAux]
          | cons d r =>
            by_cases hd : d = 10
            · simp [fgetsAux, hd]
            · simp only [fgetsAux, hd, if_false, List.length_cons]
              have := ih r
              omega
      have := hlen (MAX_LINE_SIZE - 1) (c :: s)
      rw [hg] at this
      exact this

/-- C15 (amended), at the text of the two lines `ab cd` and `ef`: the tokens
are `ab`, `cd`, `ef`. -/
theorem tokens_of_fitting_lines_witness :
    rawTokens (ascii "ab cd\nef") = [ascii "ab", ascii "cd", ascii "ef"] := by
  rw [(tokens_of_fitting_lines (ascii "ab cd\nef") (by decide) (by decide)).1]
  decide

/-- C18: the counts of the Top-N result do not depend on how the sort orders
records of equal count.  For any two rearrangements of the record array that
are both sorted for `compare`, the first `n` counts are the same position by
position, for every `n`; so for any two `qsort` functions that meet the
contract the reports of `main` have the same numbers and the same sequence of
counts. -/
theorem counts_independent_of_ties (l1 l2 : List Node) (hp : l1.Perm l2)
    (h1 : l1.Pairwise (fun a b => compare a b ≤ 0))
    (h2 : l2.Pairwise (fun a b => compare a b ≤ 0)) (n : Nat) :
    (l1.take n).map (fun nd => nd.wrd.freq) = (l2.take n).map (fun nd => nd.wrd.freq) ∧
    (∀ (i : Nat) (a b : Node), l1[i]? = some a → l2[i]? = some b → a.wrd.freq = b.wrd.freq) ∧
    (∀ (q1 q2 : (Node → Node → Int) → List Node → List Node), IsQsort q1 → IsQsort q2 →
      ∀ (file : Option (List Nat)) (topN : Option Int) (rep1 rep2 : Report),
        main q1 file topN = .ret rep1 → main q2 file topN = .ret rep2 →
        rep1.lines.map (fun r => r.freq) = rep2.lines.map (fun r => r.freq) ∧
        rep1.numWords = rep2.numWords ∧ rep1.sortIndex = rep2.sortIndex ∧
        rep1.numSummaryItems = rep2.numSummaryItems) := by
  have hall := sorted_counts_eq l1 l2 hp h1 h2
  refine ⟨?_, ?_, ?_⟩
  · rw [List.map_take, List.map_take, hall]
  · intro i a b ha hb
    have h3 := congrArg (fun l => l[i]?) hall
    simp only [List.getElem?_map, ha, hb, Option.map_some', Option.some.injEq] at h3
    exact h3
  · intro q1 q2 hq1 hq2 file topN rep1 rep2 hm1 hm2
    obtain ⟨text, n1, m1, hf, hr1, rfl⟩ := main_ret q1 file topN rep1 hm1
    obtain ⟨text2, n2, m2, hf2, hr2, rfl⟩ := main_ret q2 file topN rep2 hm2
    rw [hf] at hf2
    cases hf2
    rw [hr1] at hr2
    cases hr2
    obtain ⟨hp1, hs1⟩ := hq1 m1.heap
    obtain ⟨hp2, hs2⟩ := hq2 m1.heap
    have hc := sorted_counts_eq _ _ (hp1.trans hp2.symm) hs1 hs2
    refine ⟨?_, rfl, rfl, rfl⟩
    simp only [List.map_map]
    have hc2 : (q1 compare m1.heap).map ((fun r : Word => r.freq) ∘ fun nd => nd.wrd) =
        (q2 compare m1.heap).map ((fun r : Word => r.freq) ∘ fun nd => nd.wrd) := hc
    rw [List.map_take, List.map_take, hc2]

/-- C18, at three records with the counts 2, 1, 1 in two sorted orders that
differ in the tie: the first two counts are 2 and 1 in both. -/
theorem counts_independent_of_ties_witness :
    ([(⟨⟨ascii "a", 2⟩, none⟩ : Node), ⟨⟨ascii "b", 1⟩, none⟩, ⟨⟨ascii "c", 1⟩, none⟩].take 2).map
        (fun nd => nd.wrd.freq) =
      ([(⟨⟨ascii "a", 2⟩, none⟩ : Node), ⟨⟨ascii "c", 1⟩, none⟩, ⟨⟨ascii "b", 1⟩, none⟩].take 2).map
        (fun nd => nd.wrd.freq) :=
  (counts_independent_of_ties _ _ (List.Perm.cons _ (List.Perm.swap _ _ _))
    (by simp [compare]) (by simp [compare]) 2).1

/-- C19: for every word of 0 to 31 characters with character values from 1 to
127, every multiplication and addition of `getHashKey` stays in the range of
a 32-bit `int` (the checked computation gives the weighted sum, which is at
most 27559), and the result is the weighted sum modulo `MAX_HASHTABLE`, a
value from 0 to 2999; so the bucket `insertWord` uses is inside the hash
table of `MAX_HASHTABLE + 1` lists. -/
theorem getHashKey_in_range (w : List Nat) (hlen : w.length ≤ 31)
    (hch : ∀ c ∈ w, 1 ≤ c ∧ c ≤ 127) :
    getHashKeyLoopInt (w.map (fun c => (c : Int))) 0 0 =
        some ((getHashKeyLoop w 0 0 : Nat) : Int) ∧
      getHashKeyLoop w 0 0 ≤ 27559 ∧
      getHashKeyInt (w.map (fun c => (c : Int))) = some ((getHashKey w : Nat) : Int) ∧
      getHashKey w < MAX_HASHTABLE ∧
      getHashKey w < initMem.pHashTable.length ∧
      (∀ m, WF m → ∃ lst, m.pHashTable[getHashKey w]? = some lst) := by
  have hch2 : ∀ c ∈ w, c ≤ 127 := fun c hc => (hch c hc).2
  have hloop := getHashKeyLoopInt_eq w 0 0 hch2 (by omega)
  have hle := getHashKeyLoop_le w 0 0 hch2
  have hlt : getHashKey w < MAX_HASHTABLE := Nat.mod_lt _ (by decide)
  have hloop2 : getHashKeyLoopInt (w.map (fun c => (c : Int))) 0 0 =
      some ((getHashKeyLoop w 0 0 : Nat) : Int) := hloop
  refine ⟨hloop2, by omega, ?_, hlt, ?_, ?_⟩
  · unfold getHashKeyInt
    rw [hloop2]
    simp only [Option.map_some', Option.some.injEq, getHashKey]
    exact (Int.ofNat_tmod _ _).symm
  · have : initMem.pHashTable.length = MAX_HASHTABLE + 1 := WF_init.table_len
    omega
  · intro m hwf
    obtain ⟨lst, h, -⟩ := hwf.table_get (getHashKey w) (getHashKey_lt w)
    exact ⟨lst, h⟩

/-- C19, at the word `dog`: the checked computation gives
(7 * 100 + 5 * 111 + 3 * 103) mod 3000 = 1564. -/
theorem getHashKey_in_range_witness :
    getHashKeyInt ((ascii "dog").map (fun c => (c : Int))) = some 1564 := by
  have h := (getHashKey_in_range (ascii "dog") (by decide) (by decide)).2.2.1
  rw [h]
  decide

/-- C20: for all records `a`, `b`, `c` with counts from 1 to 2^31 - 1 the
subtraction of `compare` stays in the range of a 32-bit `int`; `compare a b`
is negative iff `a` has the larger count, zero iff the counts are equal and
positive iff `a` has the smaller count; so `compare` is antisymmetric and
transitive, a comparator for the descending order.  The nodes `createNode`
makes have count 1. -/
theorem compare_is_comparator (a b c : Node)
    (ha : 1 ≤ a.wrd.freq ∧ a.wrd.freq ≤ INT_MAX) (hb : 1 ≤ b.wrd.freq ∧ b.wrd.freq ≤ INT_MAX)
    (hc : 1 ≤ c.wrd.freq ∧ c.wrd.freq ≤ INT_MAX) :
    compareInt a b = some (compare a b) ∧ compareInt b c = some (compare b c) ∧
      compareInt a c = some (compare a c) ∧
      INT_MIN ≤ compare a b ∧ compare a b ≤ INT_MAX ∧
      (compare a b < 0 ↔ b.wrd.freq < a.wrd.freq) ∧
      (compare a b = 0 ↔ a.wrd.freq = b.wrd.freq) ∧
      (0 < compare a b ↔ a.wrd.freq < b.wrd.freq) ∧
      (compare a b < 0 ↔ 0 < compare b a) ∧
      (compare a b = 0 ↔ compare b a = 0) ∧
      compare a a = 0 ∧
      (compare a b ≤ 0 → compare b c ≤ 0 → compare a c ≤ 0) ∧
      (compare a b < 0 → compare b c < 0 → compare a c < 0) ∧
      (compare a b = 0 → compare b c = 0 → compare a c = 0) ∧
      (∀ (w : List Nat) (heap : List Node),
        ((createNode w heap).2[(createNode w heap).1]?).map (fun nd => nd.wrd.freq) = some 1) := by
  simp only [INT_MAX, INT_MIN] at ha hb hc ⊢
  simp only [compare, compareInt, subInt, INT_MAX, INT_MIN]
  refine ⟨?_, ?_, ?_, by omega, by omega, by omega, by omega, by omega, by omega, by omega,
    by omega, by omega, by omega, by omega, ?_⟩
  · rw [if_pos]
    constructor <;> omega
  · rw [if_pos]
    constructor <;> omega
  · rw [if_pos]
    constructor <;> omega
  · intro w heap
    simp [createNode]

/-- C20, at records with the counts 3 and 1: `compare` gives -2, in range. -/
theorem compare_is_comparator_witness :
    compareInt ⟨⟨ascii "a", 3⟩, none⟩ ⟨⟨ascii "b", 1⟩, none⟩ = some (-2) := by
  have h := (compare_is_comparator ⟨⟨ascii "a", 3⟩, none⟩ ⟨⟨ascii "b", 1⟩, none⟩
    ⟨⟨ascii "c", 1⟩, none⟩ (by decide) (by decide) (by decide)).1
  rw [h]
  rfl

/-- C16: a sequence of one accepted token on which the chained hash table and
the naive table differ.  For the word `é` (the bytes 195 and 169) the naive
table has the record `(é, 1)`; `getHashKey` gives the key -862, which is not
in the range from 0 to `MAX_HASHTABLE`, the lookup of `insertWord` in bucket
-862 is outside the table, and the pass of `insertWord` has no defined result
(no record is built). -/
theorem chained_table_differs_on_negative_key :
    accepted [[195, 169]] = [[195, 169]] ∧
      naiveTable [[195, 169]] = [{ str := [195, 169], freq := 1 }] ∧
      getHashKeyInt ([195, 169].map charVal) = some (-862) ∧
      validKey [195, 169] = false ∧
      insertAll [[195, 169]] initMem 0 = .stuck := by
  refine ⟨by decide, by decide, by decide, by decide, ?_⟩
  simp only [insertAll, insertWord_invalid [195, 169] initMem (by decide) (by decide)]

end WordCounter
